import Mathlib

/-!
Lomb periodogram (`psd/lomb.c`): shallow embedding and verified properties.

The C program is embedded function by function.

* `float`/`double` values are elements of an ordered field `α` with a floor
  function (`ℚ` for evaluation, `ℝ` for the theorems): arithmetic is exact.
* The library functions `sin`, `sqrt`, `exp`, `pow` and the two angle literals
  are parameters of the functions that use them.
* Arrays give the value of every cell index; the C code addresses them from 1
  (`x-1`, `wk1-1` are passed by the driver).  Arrays that are only read are
  functions `Nat → α`, arrays that are written are `Cells α`.
* `exit(1)` is an explicit outcome; a loop that would not terminate yields
  `none`.
-/

namespace Lomb

/-! ## Control structure -/

/-- State after `k` iterations of `for (j = lo; ...; j++) body(j)`. -/
def loopFrom {σ : Type} (lo : Nat) (body : Nat → σ → σ) (s : σ) : Nat → σ
  | 0 => s
  | k + 1 => body (lo + k) (loopFrom lo body s k)

/-- The counted loop `for (j = lo; j <= hi; j++) body(j)`. -/
def forLoop {σ : Type} (lo hi : Nat) (body : Nat → σ → σ) (s : σ) : σ :=
  loopFrom lo body s (hi + 1 - lo)

/-- The loop `while (cond) body` run for at most `fuel + 1` tests of the
condition; `none` when the condition still holds after `fuel` iterations or
when the body itself does not return. -/
def whileFuel {σ : Type} (cond : σ → Prop) [DecidablePred cond] (body : σ → Option σ) :
    Nat → σ → Option σ
  | 0, s => if cond s then none else some s
  | fuel + 1, s =>
    if cond s then
      match body s with
      | some s' => whileFuel cond body fuel s'
      | none => none
    else some s

/-! ## Arrays -/

/-- An array that the program writes to: the value of every cell. -/
structure Cells (α : Type) where
  get : Nat → α

/-- The assignment `a[i] = v`. -/
def Cells.set {α : Type} (a : Cells α) (i : Nat) (v : α) : Cells α :=
  ⟨Function.update a.get i v⟩

/-! ## Macros and conversions -/

section Arith

variable {α : Type} [LinearOrderedField α] [FloorRing α]

/-- Conversion of a floating value to an integer type: truncation toward zero. -/
def trunc (z : α) : Int := if 0 ≤ z then ⌊z⌋ else ⌈z⌉

/-- The constant `#define MACC 4`. -/
def MACC : Nat := 4

/-- The macro `LMAX(a,b)`. -/
def LMAX (a b : Int) : Int := if a > b then a else b

/-- The macro `LMIN(a,b)`. -/
def LMIN (a b : Int) : Int := if a < b then a else b

/-- The macro `SIGN(a,b) ((b) > 0.0 ? fabs(a) : -fabs(a))`. -/
def SIGN (a b : α) : α := if b > 0 then |a| else -|a|

/-- The macro `SQR(a) ((sqrarg = (a)) == 0.0 ? 0.0 : sqrarg*sqrarg)`. -/
def SQR (a : α) : α := if a = 0 then 0 else a * a

/-- The macro `MOD(a,b)`, `while (a >= b) a -= b`.  For `b > 0` the loop runs
`⌊a/b⌋` times at most; for `b ≤ 0 ≤ a - b` it never ends and the result is
`none`. -/
def MOD (a b : α) : Option α :=
  whileFuel (fun a => a ≥ b) (fun a => some (a - b)) (⌊a / b⌋.toNat + 1) a

/-! ## `avevar` -/

/-- The second pass of `avevar`: the pair `(*var, ep)` after the loop
`for (j = 1; j <= n; j++) { s = data[j] - ave; ep += s; *var += s*s; }`. -/
def avevarPass2 (data : Nat → α) (n : Nat) (ave : α) : α × α :=
  forLoop 1 n (fun j st =>
    let s := data j - ave
    let ep := st.2 + s
    (st.1 + s * s, ep)) (0, 0)

/-- The mean pass of `avevar`:
`for (*ave = 0.0, j = 1; j <= n; j++) *ave += data[j]; *ave /= n;`. -/
def avevarMean (data : Nat → α) (n : Nat) : α :=
  forLoop 1 n (fun j a => a + data j) 0 / (n : α)

/-- The function `avevar(data, n, &ave, &var)`: the pair `(ave, var)`; the global
`pwr` receives `var` as well.  `n - 1` is an `unsigned long` subtraction. -/
def avevar (data : Nat → α) (n : Nat) : α × α :=
  let ave := avevarMean data n
  let st := avevarPass2 data n ave
  let var := (st.1 - st.2 * st.2 / (n : α)) / (((n + 2 ^ 64 - 1) % 2 ^ 64 : Nat) : α)
  (ave, var)

/-! ## `spread` -/

/-- The table `static int nfac[11]`. -/
def nfacTable : List Int := [0, 1, 1, 2, 6, 24, 120, 720, 5040, 40320, 362880]

/-- The table lookup `nfac[m]`. -/
def nfac (m : Int) : Int := nfacTable.getD m.toNat 0

/-- Value of `fac` after `k` iterations of
`for (j = ilo + 1; j <= ihi; j++) fac *= (x - j)`, started from `x - ilo`. -/
def spreadFac (x : α) (ilo : Int) : Nat → α
  | 0 => x - (ilo : α)
  | k + 1 => spreadFac x ilo k * (x - ((ilo + 1 + (k : Int) : Int) : α))

/-- State `(nden, yy)` after `k` iterations of the descending loop
`for (j = ihi-1; j >= ilo; j--) { nden = (nden/(j+1-ilo))*(j-ihi);
yy[j] += y*fac/(nden*(x-j)); }`; iteration number `k` (from 0) has
`j = ihi - 1 - k`, and `/` on `int` truncates. -/
def spreadDown (y x fac : α) (ilo ihi : Int) (nden0 : Int) (yy0 : Cells α) :
    Nat → Int × Cells α
  | 0 => (nden0, yy0)
  | k + 1 =>
    let st := spreadDown y x fac ilo ihi nden0 yy0 k
    let j : Int := ihi - 1 - (k : Int)
    let nden : Int := (st.1.tdiv (j + 1 - ilo)) * (j - ihi)
    (nden, st.2.set j.toNat (st.2.get j.toNat + y * fac / ((nden : α) * (x - (j : α)))))

/-- The window start `ilo = LMIN(LMAX((long)(x - 0.5*m + 1.0), 1), n - m + 1)`. -/
def spreadIlo (n : Nat) (x : α) (m : Int) : Int :=
  LMIN (LMAX (trunc (x - (1 / 2) * (m : α) + 1)) 1) ((n : Int) - m + 1)

/-- Outcome of a call that may end the program: the state when the call
returns, or the exit status, the message printed and the state when `exit` is
called. -/
inductive Outcome (σ : Type) where
  | returned (s : σ)
  | exited (status : Nat) (message : String) (s : σ)

/-- The function `spread(y, yy, n, x, m)`: the array `yy` after the call, or the
`exit(1)` taken when `m > 10`. -/
def spread (y : α) (yy : Cells α) (n : Nat) (x : α) (m : Int) : Outcome (Cells α) :=
  if m > 10 then .exited 1 "factorial table too small" yy
  else
    let ix : Int := trunc x
    if x = (ix : α) then .returned (yy.set ix.toNat (yy.get ix.toNat + y))
    else
      let ilo := spreadIlo n x m
      let ihi := ilo + m - 1
      let nden := nfac m
      let fac := spreadFac x ilo (ihi - ilo).toNat
      let yy1 := yy.set ihi.toNat
        (yy.get ihi.toNat + y * fac / ((nden : α) * (x - (ihi : α))))
      .returned (spreadDown y x fac ilo ihi nden yy1 (ihi - ilo).toNat).2

/-! ## `four1` -/

/-- The library functions and the two angle literals used by the program:
`pi` stands for `3.141592653589793` and `twopi` for `6.28318530717959`. -/
structure MathEnv (α : Type) where
  sin : α → α
  sqrt : α → α
  exp : α → α
  pow : α → α → α
  pi : α
  twopi : α

/-- The macro `SWAP(a,b)` applied to the cells `a` and `b` of `data`:
`tempr=(a);(a)=(b);(b)=tempr`. -/
def SWAP (data : Cells α) (a b : Nat) : Cells α :=
  let tempr := data.get a
  let data1 := data.set a (data.get b)
  data1.set b tempr

/-- The inner loop `while (m >= 2 && j > m) { j -= m; m >>= 1; }` of the
bit-reversal section, on the pair `(j, m)`. -/
def four1Carry (fuel : Nat) (j m : Nat) : Option (Nat × Nat) :=
  whileFuel (fun t : Nat × Nat => t.2 ≥ 2 ∧ t.1 > t.2)
    (fun t => some (t.1 - t.2, t.2 >>> 1)) fuel (j, m)

/-- One iteration of the bit-reversal loop, on the state `(i, j, data)`. -/
def four1ReverseStep (n : Nat) (s : Nat × Nat × Cells α) : Option (Nat × Nat × Cells α) :=
  let i := s.1
  let j := s.2.1
  let data := s.2.2
  let data := if j > i then SWAP (SWAP data j i) (j + 1) (i + 1) else data
  match four1Carry n j (n >>> 1) with
  | some t => some (i + 2, t.1 + t.2, data)
  | none => none

/-- The bit-reversal section `j = 1; for (i = 1; i < n; i += 2) { ... }`. -/
def four1Reverse (n : Nat) (data : Cells α) : Option (Cells α) :=
  match whileFuel (fun s : Nat × Nat × Cells α => s.1 < n) (four1ReverseStep n) n
      (1, 1, data) with
  | some s => some s.2.2
  | none => none

/-- One butterfly: the body of `for (i = m; i <= n; i += istep)`. -/
def four1Butterfly (mmax : Nat) (wr wi : α) (i : Nat) (data : Cells α) : Cells α :=
  let j := i + mmax
  let tempr := wr * data.get j - wi * data.get (j + 1)
  let tempi := wr * data.get (j + 1) + wi * data.get j
  let data1 := data.set j (data.get i - tempr)
  let data2 := data1.set (j + 1) (data1.get (i + 1) - tempi)
  let data3 := data2.set i (data2.get i + tempr)
  data3.set (i + 1) (data3.get (i + 1) + tempi)

/-- The loop `for (i = m; i <= n; i += istep) { ... }`, on the state `(i, data)`. -/
def four1Inner (n mmax istep : Nat) (wr wi : α) (m : Nat) (data : Cells α) :
    Option (Nat × Cells α) :=
  whileFuel (fun s : Nat × Cells α => s.1 ≤ n)
    (fun s => some (s.1 + istep, four1Butterfly mmax wr wi s.1 s.2)) n (m, data)

/-- One iteration of `for (m = 1; m < mmax; m += 2)`, on the state
`(m, wr, wi, data)`: the inner loop, then the trigonometric recurrence. -/
def four1MiddleStep (n mmax istep : Nat) (wpr wpi : α) (s : Nat × α × α × Cells α) :
    Option (Nat × α × α × Cells α) :=
  let m := s.1
  let wr := s.2.1
  let wi := s.2.2.1
  match four1Inner n mmax istep wr wi m s.2.2.2 with
  | some r =>
    let wtemp := wr
    let wr1 := wtemp * wpr - wi * wpi + wr
    let wi1 := wi * wpr + wtemp * wpi + wi
    some (m + 2, wr1, wi1, r.2)
  | none => none

/-- One iteration of `while (n > mmax)`, on the state `(mmax, data)`. -/
def four1Stage (M : MathEnv α) (n : Nat) (isign : Int) (s : Nat × Cells α) :
    Option (Nat × Cells α) :=
  let mmax := s.1
  let istep := mmax <<< 1
  let theta := (isign : α) * (M.twopi / (mmax : α))
  let wtemp := M.sin ((1 / 2) * theta)
  let wpr := -2 * wtemp * wtemp
  let wpi := M.sin theta
  match whileFuel (fun t : Nat × α × α × Cells α => t.1 < mmax)
      (four1MiddleStep n mmax istep wpr wpi) mmax (1, 1, 0, s.2) with
  | some t => some (istep, t.2.2.2)
  | none => none

/-- The function `four1(data, nn, isign)`: the array after the call. -/
def four1 (M : MathEnv α) (data : Cells α) (nn : Nat) (isign : Int) : Option (Cells α) :=
  let n := nn <<< 1
  match four1Reverse n data with
  | some data1 =>
    match whileFuel (fun s : Nat × Cells α => n > s.1) (four1Stage M n isign) n
        (2, data1) with
    | some s => some s.2
    | none => none
  | none => none

/-! ## `realft` -/

/-- One iteration of `for (i = 2; i <= (n>>2); i++)`, on the state
`(wr, wi, data)`. -/
def realftStep (n : Nat) (c1 c2 wpr wpi : α) (i : Nat) (s : α × α × Cells α) :
    α × α × Cells α :=
  let wr := s.1
  let wi := s.2.1
  let data := s.2.2
  let np3 := n + 3
  let i1 := i + i - 1
  let i2 := 1 + i1
  let i3 := np3 - i2
  let i4 := 1 + i3
  let h1r := c1 * (data.get i1 + data.get i3)
  let h1i := c1 * (data.get i2 - data.get i4)
  let h2r := -c2 * (data.get i2 + data.get i4)
  let h2i := c2 * (data.get i1 - data.get i3)
  let data1 := data.set i1 (h1r + wr * h2r - wi * h2i)
  let data2 := data1.set i2 (h1i + wr * h2i + wi * h2r)
  let data3 := data2.set i3 (h1r - wr * h2r + wi * h2i)
  let data4 := data3.set i4 (-h1i + wr * h2i + wi * h2r)
  let wtemp := wr
  let wr1 := wtemp * wpr - wi * wpi + wr
  let wi1 := wi * wpr + wtemp * wpi + wi
  (wr1, wi1, data4)

/-- The function `realft(data, n, isign)`: the array after the call. -/
def realft (M : MathEnv α) (data : Cells α) (n : Nat) (isign : Int) : Option (Cells α) :=
  let c1 : α := 1 / 2
  let theta0 := M.pi / ((n >>> 1 : Nat) : α)
  let c2 : α := if isign = 1 then -(1 / 2) else 1 / 2
  let theta := if isign = 1 then theta0 else -theta0
  match (if isign = 1 then four1 M data (n >>> 1) 1 else some data) with
  | none => none
  | some data0 =>
    let wtemp := M.sin ((1 / 2) * theta)
    let wpr := -2 * wtemp * wtemp
    let wpi := M.sin theta
    let wr := 1 + wpr
    let wi := wpi
    let data1 := (forLoop 2 (n >>> 2) (realftStep n c1 c2 wpr wpi) (wr, wi, data0)).2.2
    if isign = 1 then
      let h1r := data1.get 1
      let data2 := data1.set 1 (h1r + data1.get 2)
      some (data2.set 2 (h1r - data2.get 2))
    else
      let h1r := data1.get 1
      let data2 := data1.set 1 (c1 * (h1r + data1.get 2))
      let data3 := data2.set 2 (c1 * (h1r - data2.get 2))
      four1 M data3 (n >>> 1) (-1)

/-! ## `fasper` -/

/-- The variables that `fasper` writes: the two workspaces, the three results
`*nout`, `*jmax`, `*prob`, and the global `pwr` set by `avevar`. -/
structure FasperState (α : Type) where
  wk1 : Cells α
  wk2 : Cells α
  nout : Nat
  jmax : Nat
  prob : α
  pwr : α

/-- The value stored by `*nout = 0.5*ofac*hifac*n`. -/
def fasperNout (n : Nat) (ofac hifac : α) : Nat :=
  (trunc ((1 / 2) * ofac * hifac * (n : α))).toNat

/-- The value stored by `nfreqt = ofac*hifac*n*MACC`. -/
def fasperNfreqt (n : Nat) (ofac hifac : α) : Nat :=
  (trunc (ofac * hifac * (n : α) * (MACC : α))).toNat

/-- The loop `nfreq = 64; while (nfreq < nfreqt) nfreq <<= 1;` on an
`unsigned long` of 64 bits. -/
def fasperNfreq (nfreqt : Nat) : Option Nat :=
  whileFuel (fun nfreq : Nat => nfreq < nfreqt) (fun nfreq => some ((nfreq <<< 1) % 2 ^ 64))
    64 64

/-- The grid length `ndim = nfreq << 1` that `fasper` computes. -/
def fasperNdim (n : Nat) (ofac hifac : α) : Option Nat :=
  match fasperNfreq (fasperNfreqt n ofac hifac) with
  | some nfreq => some ((nfreq <<< 1) % 2 ^ 64)
  | none => none

/-- The pair `(xmin, xmax)` after
`xmax = xmin = x[1]; for (j = 2; j <= n; j++) { ... }`. -/
def fasperRange (x : Nat → α) (n : Nat) : α × α :=
  forLoop 2 n (fun j s =>
    let xmin := if x j < s.1 then x j else s.1
    let xmax := if x j > s.2 then x j else s.2
    (xmin, xmax)) (x 1, x 1)

/-- The loop `for (j = 1; j <= ndim; j++) wk1[j] = wk2[j] = 0.0;` on the pair
`(wk1, wk2)`. -/
def fasperZero (ndim : Nat) (wk1 wk2 : Cells α) : Cells α × Cells α :=
  forLoop 1 ndim (fun j s =>
    let wk2 := s.2.set j 0
    let wk1 := s.1.set j (wk2.get j)
    (wk1, wk2)) (wk1, wk2)

/-- State after `k` iterations of a counted loop whose body may leave the
program or fail to return. -/
def loopFromX {σ : Type} (lo : Nat) (body : Nat → σ → Option (Outcome σ)) (s : σ) :
    Nat → Option (Outcome σ)
  | 0 => some (.returned s)
  | k + 1 =>
    match loopFromX lo body s k with
    | some (.returned s1) => body (lo + k) s1
    | r => r

/-- One iteration of the extirpolation loop of `fasper`, on the pair
`(wk1, wk2)`. -/
def fasperSpreadStep (x y : Nat → α) (ave xmin fac fndim : α) (ndim : Nat) (j : Nat)
    (s : Cells α × Cells α) : Option (Outcome (Cells α × Cells α)) :=
  let ck := (x j - xmin) * fac
  match MOD ck fndim with
  | none => none
  | some ck =>
    let ckk := 2 * ck
    let ck := ck + 1
    match MOD ckk fndim with
    | none => none
    | some ckk =>
      let ckk := ckk + 1
      match spread (y j - ave) s.1 ndim ck MACC with
      | .exited c msg wk1 => some (.exited c msg (wk1, s.2))
      | .returned wk1 =>
        match spread 1 s.2 ndim ckk MACC with
        | .exited c msg wk2 => some (.exited c msg (wk1, wk2))
        | .returned wk2 => some (.returned (wk1, wk2))

/-- The state of the assembly loop of `fasper`: the counter `k`, the running
maximum `pmax`, `*jmax` and the two workspaces. -/
structure AssemblyState (α : Type) where
  k : Nat
  pmax : α
  jmax : Nat
  wk1 : Cells α
  wk2 : Cells α

/-- One iteration of `for (k = 3, j = 1; j <= (*nout); j++, k += 2)`. -/
def fasperAssemblyStep (M : MathEnv α) (n : Nat) (df var : α) (j : Nat)
    (s : AssemblyState α) : AssemblyState α :=
  let k := s.k
  let wk1 := s.wk1
  let wk2 := s.wk2
  let hypo := M.sqrt (wk2.get k * wk2.get k + wk2.get (k + 1) * wk2.get (k + 1))
  let hc2wt := (1 / 2) * wk2.get k / hypo
  let hs2wt := (1 / 2) * wk2.get (k + 1) / hypo
  let cwt := M.sqrt (1 / 2 + hc2wt)
  let swt := SIGN (M.sqrt (1 / 2 - hc2wt)) hs2wt
  let den := (1 / 2) * (n : α) + hc2wt * wk2.get k + hs2wt * wk2.get (k + 1)
  let cterm := SQR (cwt * wk1.get k + swt * wk1.get (k + 1)) / den
  let sterm := SQR (cwt * wk1.get (k + 1) - swt * wk1.get k) / ((n : α) - den)
  let wk1 := wk1.set j ((j : α) * df)
  let wk2 := wk2.set j ((cterm + sterm) / (2 * var))
  let jmax := if wk2.get j > s.pmax then j else s.jmax
  let pmax := if wk2.get j > s.pmax then wk2.get jmax else s.pmax
  { k := k + 2, pmax := pmax, jmax := jmax, wk1 := wk1, wk2 := wk2 }

/-- The false-alarm probability computed at the end of `fasper`:
`expy = exp(-pmax); effm = 2.0*(*nout)/ofac; *prob = effm*expy;
if (*prob > 0.01) *prob = 1.0 - pow(1.0 - expy, effm);`.  The variables `expy`,
`effm` and `*prob` are `float`s: `M.exp` gives the value that `expy` holds
(which is 0 once `exp(-pmax)` underflows) and `M.pow` the value of the call of
`pow`; the arithmetic on these values is exact. -/
def fasperProb (M : MathEnv α) (nout : Nat) (ofac pmax : α) : α :=
  let expy := M.exp (-pmax)
  let effm := 2 * (nout : α) / ofac
  let prob := effm * expy
  if prob > 1 / 100 then 1 - M.pow (1 - expy) effm else prob

/-- The function `fasper(x, y, n, ofac, hifac, wk1, wk2, nwk, &nout, &jmax,
&prob)` on the variables it writes: their values when it returns, or at the
`exit(1)` it takes. -/
def fasper (M : MathEnv α) (x y : Nat → α) (n : Nat) (ofac hifac : α) (nwk : Nat)
    (s : FasperState α) : Option (Outcome (FasperState α)) :=
  let s := { s with nout := fasperNout n ofac hifac }
  match fasperNdim n ofac hifac with
  | none => none
  | some ndim =>
    if ndim > nwk then some (.exited 1 "workspaces too small" s)
    else
      let av := avevar y n
      let ave := av.1
      let var := av.2
      let s := { s with pwr := var }
      let r := fasperRange x n
      let xmin := r.1
      let xmax := r.2
      let xdif := xmax - xmin
      let z := fasperZero ndim s.wk1 s.wk2
      let fac := (ndim : α) / (xdif * ofac)
      let fndim : α := (ndim : α)
      match loopFromX 1 (fasperSpreadStep x y ave xmin fac fndim ndim) z n with
      | none => none
      | some (.exited c msg w) => some (.exited c msg { s with wk1 := w.1, wk2 := w.2 })
      | some (.returned w) =>
        match realft M w.1 ndim 1, realft M w.2 ndim 1 with
        | some wk1, some wk2 =>
          let df := 1 / (xdif * ofac)
          let a := forLoop 1 s.nout (fasperAssemblyStep M n df var)
            { k := 3, pmax := -1, jmax := s.jmax, wk1 := wk1, wk2 := wk2 }
          let s := { s with wk1 := a.wk1, wk2 := a.wk2, jmax := a.jmax }
          let s := { s with prob := fasperProb M s.nout ofac a.pmax }
          some (.returned s)
        | _, _ => none

/-! ## The driver -/

/-- The rows `(frequency, magnitude)` printed by `main` after `fasper`, for the
flags `aflag` (amplitudes, cleared by `-P`) and `sflag` (smoothing, `-s`); the
driver's `wk1[n]` is cell `n + 1` of the workspace passed as `wk1-1`. -/
def mainRows (M : MathEnv α) (aflag sflag : Bool) (s : FasperState α) : List (α × α) :=
  let maxout := s.nout / 2
  if sflag then
    let pwr := s.pwr / 4
    (List.range ((maxout + 3) / 4)).map (fun q =>
      let n := 4 * q
      let v := (s.wk2.get (n + 1) + s.wk2.get (n + 2) + s.wk2.get (n + 3) + s.wk2.get (n + 4))
        / ((s.nout : α) / (8 * pwr))
      (s.wk1.get (n + 1), if aflag then M.sqrt v else v))
  else
    (List.range maxout).map (fun n =>
      let v := s.wk2.get (n + 1) / ((s.nout : α) / (2 * s.pwr))
      (s.wk1.get (n + 1), if aflag then M.sqrt v else v))

end Arith

/-! ## Definitions used to state and prove the properties -/

/-- Reversal of the `k` low bits of `c`. -/
def bitrev : Nat → Nat → Nat
  | 0, _ => 0
  | k + 1, c => bitrev k (c / 2) + 2 ^ k * (c % 2)

/-- Source position of the complex element found at position `p` once the
bit-reversal loop has handled the positions below `a`. -/
def revSrc (L a p : Nat) : Nat :=
  if p < 2 ^ L ∧ (p < a ∨ bitrev L p < a) then bitrev L p else p

section SpecField

variable {α : Type} [LinearOrderedField α]

/-- The array after `c` iterations of the inner loop started at `i = m`. -/
def innerData (mmax istep : Nat) (wr wi : α) (m : Nat) (d : Cells α) : Nat → Cells α
  | 0 => d
  | c + 1 => four1Butterfly mmax wr wi (m + istep * c) (innerData mmax istep wr wi m d c)

/-- The twiddle factor `(wr, wi)` after `t` steps of the recurrence. -/
def twiddle (wpr wpi : α) : Nat → α × α
  | 0 => (1, 0)
  | t + 1 =>
    let w := twiddle wpr wpi t
    (w.1 * wpr - w.2 * wpi + w.1, w.2 * wpr + w.1 * wpi + w.2)

/-- The array after `t` iterations of the middle loop. -/
def middleData (mmax istep C : Nat) (wpr wpi : α) (d : Cells α) : Nat → Cells α
  | 0 => d
  | t + 1 =>
    innerData mmax istep (twiddle wpr wpi t).1 (twiddle wpr wpi t).2 (2 * t + 1)
      (middleData mmax istep C wpr wpi d t) C

/-- Relation between the array before and after one butterfly pass with
blocks of `B` complex elements, on a grid of `2*B*C` complex elements. -/
def StageRel (B C : Nat) (wpr wpi : α) (d d1 : Cells α) : Prop :=
  (∀ x, (x = 0 ∨ 4 * B * C < x) → d1.get x = d.get x) ∧
  ∀ c t, c < C → t < B →
    d1.get (2 * (2 * B * c + t) + 1)
      = d.get (2 * (2 * B * c + t) + 1)
        + ((twiddle wpr wpi t).1 * d.get (2 * (2 * B * c + t + B) + 1)
          - (twiddle wpr wpi t).2 * d.get (2 * (2 * B * c + t + B) + 2)) ∧
    d1.get (2 * (2 * B * c + t) + 2)
      = d.get (2 * (2 * B * c + t) + 2)
        + ((twiddle wpr wpi t).1 * d.get (2 * (2 * B * c + t + B) + 2)
          + (twiddle wpr wpi t).2 * d.get (2 * (2 * B * c + t + B) + 1)) ∧
    d1.get (2 * (2 * B * c + t + B) + 1)
      = d.get (2 * (2 * B * c + t) + 1)
        - ((twiddle wpr wpi t).1 * d.get (2 * (2 * B * c + t + B) + 1)
          - (twiddle wpr wpi t).2 * d.get (2 * (2 * B * c + t + B) + 2)) ∧
    d1.get (2 * (2 * B * c + t + B) + 2)
      = d.get (2 * (2 * B * c + t) + 2)
        - ((twiddle wpr wpi t).1 * d.get (2 * (2 * B * c + t + B) + 2)
          + (twiddle wpr wpi t).2 * d.get (2 * (2 * B * c + t + B) + 1))

/-- The recurrence constants of a pass: `wpr = -2 sin²(θ/2)` and `wpi = sin θ`
for `θ = isign*(twopi/mmax)`. -/
def stageWp (M : MathEnv α) (mmax : Nat) (isign : Int) : α × α :=
  let theta := (isign : α) * (M.twopi / (mmax : α))
  let wtemp := M.sin ((1 / 2) * theta)
  (-2 * wtemp * wtemp, M.sin theta)

/-- The array after `k` butterfly passes of `four1` on `2^L` complex elements,
started from the bit-reversed array `d1`. -/
def stageData (M : MathEnv α) (L : Nat) (isign : Int) (d1 : Cells α) : Nat → Cells α
  | 0 => d1
  | k + 1 =>
    middleData (2 * 2 ^ k) (4 * 2 ^ k) (2 ^ (L - 1 - k)) (stageWp M (2 * 2 ^ k) isign).1
      (stageWp M (2 * 2 ^ k) isign).2 (stageData M L isign d1 k) (2 ^ k)

/-- The recurrence constants of `realft` for `isign = 1`: `wpr = -2 sin²(θ/2)`
and `wpi = sin θ` for `θ = pi/(n>>1)`. -/
def realftWp (M : MathEnv α) (n : Nat) : α × α :=
  let theta := M.pi / ((n >>> 1 : Nat) : α)
  let wtemp := M.sin ((1 / 2) * theta)
  (-2 * wtemp * wtemp, M.sin theta)

/-- Relation between the output `d` of `four1` and the array `d1` that
`realft(data, n, 1)` leaves: cells 1 and 2, the pairs `p`, `n/2 - p` rewritten
by the unpacking loop, and the cells it does not touch. -/
def RealftRel (n : Nat) (wpr wpi : α) (d d1 : Cells α) : Prop :=
  d1.get 1 = d.get 1 + d.get 2 ∧ d1.get 2 = d.get 1 - d.get 2 ∧
  (∀ x, 3 ≤ x → (∀ p, 1 ≤ p → 4 * (p + 1) ≤ n → x ≠ 2 * p + 1 ∧ x ≠ 2 * p + 2 ∧
      x ≠ n + 1 - 2 * p ∧ x ≠ n + 2 - 2 * p) → d1.get x = d.get x) ∧
  (d1.get 0 = d.get 0) ∧
  ∀ p, 1 ≤ p → 4 * (p + 1) ≤ n →
    d1.get (2 * p + 1)
      = 1 / 2 * (d.get (2 * p + 1) + d.get (n + 1 - 2 * p))
        + (twiddle wpr wpi p).1 * (1 / 2 * (d.get (2 * p + 2) + d.get (n + 2 - 2 * p)))
        + (twiddle wpr wpi p).2 * (1 / 2 * (d.get (2 * p + 1) - d.get (n + 1 - 2 * p))) ∧
    d1.get (2 * p + 2)
      = 1 / 2 * (d.get (2 * p + 2) - d.get (n + 2 - 2 * p))
        - (twiddle wpr wpi p).1 * (1 / 2 * (d.get (2 * p + 1) - d.get (n + 1 - 2 * p)))
        + (twiddle wpr wpi p).2 * (1 / 2 * (d.get (2 * p + 2) + d.get (n + 2 - 2 * p))) ∧
    d1.get (n + 1 - 2 * p)
      = 1 / 2 * (d.get (2 * p + 1) + d.get (n + 1 - 2 * p))
        - (twiddle wpr wpi p).1 * (1 / 2 * (d.get (2 * p + 2) + d.get (n + 2 - 2 * p)))
        - (twiddle wpr wpi p).2 * (1 / 2 * (d.get (2 * p + 1) - d.get (n + 1 - 2 * p))) ∧
    d1.get (n + 2 - 2 * p)
      = -(1 / 2 * (d.get (2 * p + 2) - d.get (n + 2 - 2 * p)))
        - (twiddle wpr wpi p).1 * (1 / 2 * (d.get (2 * p + 1) - d.get (n + 1 - 2 * p)))
        + (twiddle wpr wpi p).2 * (1 / 2 * (d.get (2 * p + 2) + d.get (n + 2 - 2 * p)))

/-- The array `d1` holds `k` times the array `d` on the cells `1 … hi`. -/
def Scaled (k : α) (hi : Nat) (d d1 : Cells α) : Prop :=
  ∀ c, 1 ≤ c → c ≤ hi → d1.get c = k * d.get c

/-- The bin power `(cterm+sterm)/(2.0*var)` that an iteration of the assembly
loop of `fasper` computes from the cells `k`, `k+1` of the two workspaces. -/
def binPower (M : MathEnv α) (n : Nat) (var : α) (k : Nat) (wk1 wk2 : Cells α) : α :=
  let hypo := M.sqrt (wk2.get k * wk2.get k + wk2.get (k + 1) * wk2.get (k + 1))
  let hc2wt := (1 / 2) * wk2.get k / hypo
  let hs2wt := (1 / 2) * wk2.get (k + 1) / hypo
  let cwt := M.sqrt (1 / 2 + hc2wt)
  let swt := SIGN (M.sqrt (1 / 2 - hc2wt)) hs2wt
  let den := (1 / 2) * (n : α) + hc2wt * wk2.get k + hs2wt * wk2.get (k + 1)
  let cterm := SQR (cwt * wk1.get k + swt * wk1.get (k + 1)) / den
  let sterm := SQR (cwt * wk1.get (k + 1) - swt * wk1.get k) / ((n : α) - den)
  (cterm + sterm) / (2 * var)

end SpecField

/-- The library used with exact real arithmetic: the functions are the real
ones and the two angle literals are `π` and `2π`. -/
def MathEnv.Exact (M : MathEnv ℝ) : Prop :=
  M.sin = Real.sin ∧ M.sqrt = Real.sqrt ∧ M.exp = Real.exp ∧
    (∀ a b : ℝ, M.pow a b = a ^ b) ∧ M.pi = Real.pi ∧ M.twopi = 2 * Real.pi

/-- The complex element `p` of an interleaved array: cells `2p+1` and `2p+2`. -/
def cplx (d : Cells ℝ) (p : Nat) : ℂ := ⟨d.get (2 * p + 1), d.get (2 * p + 2)⟩

section AssemblyTerms

variable {α : Type} [LinearOrderedField α]

/-- The value `hypo = sqrt(wk2[k]*wk2[k] + wk2[k+1]*wk2[k+1])` of an iteration of
the assembly loop, for the window pair `(a, b) = (wk2[k], wk2[k+1])`. -/
def fasperHypo (M : MathEnv α) (a b : α) : α := M.sqrt (a * a + b * b)

/-- The value `hc2wt = 0.5*wk2[k]/hypo`. -/
def fasperHc2wt (M : MathEnv α) (a b : α) : α := (1 / 2) * a / fasperHypo M a b

/-- The value `hs2wt = 0.5*wk2[k+1]/hypo`. -/
def fasperHs2wt (M : MathEnv α) (a b : α) : α := (1 / 2) * b / fasperHypo M a b

/-- The value `cwt = sqrt(0.5+hc2wt)`. -/
def fasperCwt (M : MathEnv α) (a b : α) : α := M.sqrt (1 / 2 + fasperHc2wt M a b)

/-- The value `swt = SIGN(sqrt(0.5-hc2wt), hs2wt)`. -/
def fasperSwt (M : MathEnv α) (a b : α) : α :=
  SIGN (M.sqrt (1 / 2 - fasperHc2wt M a b)) (fasperHs2wt M a b)

/-- The value `den = 0.5*n + hc2wt*wk2[k] + hs2wt*wk2[k+1]`. -/
def fasperDen (M : MathEnv α) (n : Nat) (a b : α) : α :=
  (1 / 2) * (n : α) + fasperHc2wt M a b * a + fasperHs2wt M a b * b

end AssemblyTerms

/-! ## The driver: `input`, `zeromean` and the call of `fasper` -/

section Driver

variable {α : Type} [LinearOrderedField α] [FloorRing α]

/-- The global `static long nmax = 512L`; no statement of the program assigns
to it. -/
def nmax : Nat := 512

/-- The variables of `input()`: the buffers `x`, `y` (addressed from 0), the
count `n` and the capacity `maxn`; the workspaces `wk1`, `wk2` are allocated
with `64*maxn` elements. -/
structure InputState (α : Type) where
  x : Cells α
  y : Cells α
  n : Nat
  maxn : Nat

/-- One iteration of `while (fscanf(ifile, "%f %f", &t, &v) == 2)` for the pair
`(t, v)` read: `if (n >= maxn) { maxn *= 2; ... } x[n] = t; y[n] = v; n++;`
(the allocations succeed). -/
def inputStep (st : InputState α) (tv : α × α) : InputState α :=
  let maxn := if st.n ≥ st.maxn then st.maxn * 2 else st.maxn
  { x := st.x.set st.n tv.1, y := st.y.set st.n tv.2, n := st.n + 1, maxn := maxn }

/-- The function `input()` on the pairs that the file holds, from buffers of
`maxn = nmax` elements with contents `x0`, `y0`. -/
def input (x0 y0 : Cells α) (samples : List (α × α)) : InputState α :=
  samples.foldl inputStep { x := x0, y := y0, n := 0, maxn := nmax }

/-- The function `zeromean(n)` on the buffer `y`. -/
def zeromean (y : Cells α) (n : Nat) : Cells α :=
  let mean := loopFrom 0 (fun i mean => mean + y.get i) 0 n / (n : α)
  loopFrom 0 (fun i yy => yy.set i (yy.get i - mean)) y n

/-- The driver from `n = input()` to the call
`fasper(x-1, y-1, n, 4.0, 2.0, wk1-1, wk2-1, 64*nmax, &nout, &jmax, &prob)`:
element `j` of the array `x-1` is `x[j-1]`. -/
def mainFasper (M : MathEnv α) (zflag : Bool) (x0 y0 : Cells α) (samples : List (α × α))
    (s : FasperState α) : Option (Outcome (FasperState α)) :=
  let st := input x0 y0 samples
  let y := if zflag then zeromean st.y st.n else st.y
  fasper M (fun j => st.x.get (j - 1)) (fun j => y.get (j - 1)) st.n 4 2 (64 * nmax) s

end Driver

end Lomb

/-! ## Median filter (`app/mfilt.c`)

Values of type `int` are integers of 32 bits: the result of an arithmetic
operation is reduced to the two's-complement range.  The library function
`qsort` is a parameter. -/

namespace Mfilt

/-- The `int` that holds the result `z` of an `int` operation: reduction to
`-2^31 … 2^31 - 1`. -/
def wrapInt (z : Int) : Int := (z + 2 ^ 31) % 2 ^ 32 - 2 ^ 31

/-- The comparator `icmp(x, y)`, `return (*y - *x);`. -/
def icmp (x y : Int) : Int := wrapInt (y - x)

/-- The value stored in `vout[s]` from the sorted array `vtemp`, with
`median = flen/2`: `if (flen & 1) vout[s] = vtemp[median]; else vout[s] =
(vtemp[median] + vtemp[median-1])/2;`. -/
def medianOut (flen : Nat) (vtemp : List Int) : Int :=
  let median := flen / 2
  if flen &&& 1 ≠ 0 then vtemp.getD median 0
  else (wrapInt (vtemp.getD median 0 + vtemp.getD (median - 1) 0)).tdiv 2

/-- The body of `for (s = 0; s < nsig; s++)` for one signal, whose window is
`vin[0][s] … vin[flen-1][s]`: the window is copied to `vtemp`, sorted by
`qsort` with the comparator `icmp`, and the median is taken. -/
def filterSample (qsort : List Int → (Int → Int → Int) → List Int) (flen : Nat)
    (vin : Nat → Int) : Int :=
  let vtemp := (List.range flen).map vin
  medianOut flen (qsort vtemp icmp)

end Mfilt

namespace Lomb

section Coordinates

variable {α : Type} [LinearOrderedField α] [FloorRing α]

/-- The pair `(ck, ckk)` that iteration `j` of the extirpolation loop of
`fasper` passes to `spread`: `ck = (x[j] - xmin)*fac; MOD(ck, fndim);
ckk = 2.0*(ck++); MOD(ckk, fndim); ckk++;`. -/
def fasperCoords (x : Nat → α) (xmin fac fndim : α) (j : Nat) : Option (α × α) :=
  let ck := (x j - xmin) * fac
  match MOD ck fndim with
  | none => none
  | some ck =>
    let ckk := 2 * ck
    let ck := ck + 1
    match MOD ckk fndim with
    | none => none
    | some ckk =>
      let ckk := ckk + 1
      some (ck, ckk)

end Coordinates

section CopySemantics

variable {α : Type} [LinearOrderedField α]

/-- The assembly computed out of place, as the claim describes it: the
frequency and the power of bin `j`, obtained from unmodified copies `c1`, `c2`
of the two transforms by reading their cells `2j+1` and `2j+2`. -/
def assemblyFromCopy (M : MathEnv α) (n : Nat) (df var : α) (c1 c2 : Cells α) (j : Nat) :
    α × α :=
  ((j : α) * df, binPower M n var (2 * j + 1) c1 c2)

end CopySemantics

section DriverOutput

variable {α : Type} [LinearOrderedField α] [FloorRing α]

/-- The driver `main` after option parsing, on the pairs that the input file
holds: the rows it prints before `exit(0)`, or the exit taken inside `fasper`
(nothing has been printed then). -/
def lombMain (M : MathEnv α) (aflag sflag zflag : Bool) (x0 y0 : Cells α)
    (samples : List (α × α)) (s : FasperState α) : Option (Outcome (List (α × α))) :=
  match mainFasper M zflag x0 y0 samples s with
  | none => none
  | some (.exited status msg _) => some (.exited status msg [])
  | some (.returned r) => some (.returned (mainRows M aflag sflag r))

end DriverOutput

/-! ## Loops -/

/-- Invariant rule for `whileFuel`: an invariant preserved by the body and a
measure that the body decreases and the fuel covers give a final state. -/
theorem whileFuel_spec {σ : Type} (cond : σ → Prop) [DecidablePred cond]
    (body : σ → Option σ) (I : σ → Prop) (μ : σ → Nat)
    (hstep : ∀ s, I s → cond s → ∃ s1, body s = some s1 ∧ I s1 ∧ μ s1 < μ s) :
    ∀ (fuel : Nat) (s : σ), I s → μ s ≤ fuel →
      ∃ s1, whileFuel cond body fuel s = some s1 ∧ I s1 ∧ ¬ cond s1 := by
  intro fuel
  induction fuel with
  | zero =>
    intro s hI hμ
    by_cases hc : cond s
    · obtain ⟨s1, _, _, h⟩ := hstep s hI hc
      omega
    · exact ⟨s, by simp [whileFuel, hc], hI, hc⟩
  | succ fuel ih =>
    intro s hI hμ
    by_cases hc : cond s
    · obtain ⟨s1, hb, hI1, h⟩ := hstep s hI hc
      obtain ⟨s2, h2, hI2, hc2⟩ := ih s1 hI1 (by omega)
      exact ⟨s2, by simp [whileFuel, hc, hb, h2], hI2, hc2⟩
    · exact ⟨s, by simp [whileFuel, hc], hI, hc⟩

/-- A loop whose successive states are `f 0, f 1, …, f C` stops in `f C`. -/
theorem whileFuel_counted {σ : Type} (cond : σ → Prop) [DecidablePred cond]
    (body : σ → Option σ) (f : Nat → σ) (C : Nat)
    (hstep : ∀ c, c < C → cond (f c) ∧ body (f c) = some (f (c + 1)))
    (hend : ¬ cond (f C)) (fuel : Nat) (hfuel : C ≤ fuel) :
    whileFuel cond body fuel (f 0) = some (f C) := by
  have key : ∀ (k fuel : Nat), k ≤ C → C - k ≤ fuel →
      whileFuel cond body fuel (f k) = some (f C) := by
    intro k fuel
    induction fuel generalizing k with
    | zero =>
      intro hk hf
      have : k = C := by omega
      subst this
      simp [whileFuel, hend]
    | succ fuel ih =>
      intro hk hf
      rcases Nat.eq_or_lt_of_le hk with h | h
      · subst h
        simp [whileFuel, hend]
      · obtain ⟨hc, hb⟩ := hstep k h
        simp only [whileFuel, hc, if_true, hb]
        exact ih (k + 1) (by omega) (by omega)
  exact key 0 fuel (Nat.zero_le _) (by omega)

/-! ## Bit reversal -/

theorem bitrev_lt (k c : Nat) : bitrev k c < 2 ^ k := by
  induction k generalizing c with
  | zero => simp [bitrev]
  | succ k ih =>
    have h1 := ih (c / 2)
    have h2 : c % 2 < 2 := Nat.mod_lt _ (by decide)
    rw [bitrev, pow_succ]
    rcases Nat.lt_succ_iff.mp h2 with h3
    interval_cases (c % 2) <;> omega

theorem bitrev_two_mul (k c : Nat) : bitrev (k + 1) (2 * c) = bitrev k c := by
  rw [bitrev]
  have h1 : 2 * c / 2 = c := by omega
  have h2 : 2 * c % 2 = 0 := by omega
  rw [h1, h2]
  simp

theorem bitrev_two_mul_add_one (k c : Nat) :
    bitrev (k + 1) (2 * c + 1) = bitrev k c + 2 ^ k := by
  rw [bitrev]
  have h1 : (2 * c + 1) / 2 = c := by omega
  have h2 : (2 * c + 1) % 2 = 1 := by omega
  rw [h1, h2]
  simp

/-- The reversal read from the other end: the top bit becomes the low bit. -/
theorem bitrev_top (k c : Nat) (hc : c < 2 ^ (k + 1)) :
    bitrev (k + 1) c = 2 * bitrev k (c % 2 ^ k) + c / 2 ^ k := by
  induction k generalizing c with
  | zero =>
    simp only [bitrev, pow_zero, Nat.mod_one, Nat.div_one, zero_add, one_mul, mul_zero]
    simp at hc
    omega
  | succ k ih =>
    have hc2 : c / 2 < 2 ^ (k + 1) := by
      rw [pow_succ] at hc
      omega
    rw [bitrev, ih (c / 2) hc2]
    conv_rhs => rw [bitrev]
    have e1 : c % 2 ^ (k + 1) / 2 = c / 2 % 2 ^ k := by
      rw [pow_succ, Nat.mul_comm, Nat.mod_mul_right_div_self]
    have e2 : c % 2 ^ (k + 1) % 2 = c % 2 := by
      rw [pow_succ, Nat.mul_comm]
      exact Nat.mod_mul_right_mod c 2 (2 ^ k)
    have e3 : c / 2 / 2 ^ k = c / 2 ^ (k + 1) := by
      rw [Nat.div_div_eq_div_mul, pow_succ, Nat.mul_comm]
    rw [e1, e2, e3, pow_succ]
    ring

theorem bitrev_bitrev (k c : Nat) (hc : c < 2 ^ k) : bitrev k (bitrev k c) = c := by
  induction k generalizing c with
  | zero => simp at hc; simp [bitrev, hc]
  | succ k ih =>
    have hq : c / 2 < 2 ^ k := by
      rw [pow_succ] at hc
      omega
    have hr := bitrev_lt k (c / 2)
    have hb : c % 2 < 2 := Nat.mod_lt _ (by decide)
    rw [bitrev_top k _ (bitrev_lt (k + 1) c)]
    rw [bitrev]
    have e1 : (bitrev k (c / 2) + 2 ^ k * (c % 2)) % 2 ^ k = bitrev k (c / 2) := by
      rw [Nat.add_mul_mod_self_left]
      exact Nat.mod_eq_of_lt hr
    have e2 : (bitrev k (c / 2) + 2 ^ k * (c % 2)) / 2 ^ k = c % 2 := by
      rw [Nat.add_mul_div_left _ _ (by positivity), Nat.div_eq_of_lt hr]
      simp
    rw [e1, e2, ih (c / 2) hq]
    omega

theorem bitrev_zero_eq (k : Nat) : bitrev k 0 = 0 := by
  induction k with
  | zero => rfl
  | succ k ih => simp [bitrev, ih]

/-! ## `four1`: the bit-reversal section -/

theorem four1Carry_terminates (fuel j m : Nat) (h : m ≤ fuel) :
    ∃ r, four1Carry fuel j m = some r := by
  obtain ⟨r, hr, _, _⟩ := whileFuel_spec (fun t : Nat × Nat => t.2 ≥ 2 ∧ t.1 > t.2)
    (fun t => some (t.1 - t.2, t.2 >>> 1)) (fun _ => True) (fun t => t.2)
    (by
      intro s _ hc
      refine ⟨_, rfl, trivial, ?_⟩
      simp only [Nat.shiftRight_eq_div_pow, pow_one]
      omega) fuel (j, m) trivial h
  exact ⟨r, hr⟩

/-- The carry loop steps the reversed counter: from `j = 2*rev(a) + 1` it
reaches `(j1, m1)` with `j1 + m1 = 2*rev(a+1) + 1`. -/
theorem four1Carry_bitrev (k : Nat) : ∀ (a fuel : Nat), a + 1 < 2 ^ k → k ≤ fuel →
    ∃ r, four1Carry fuel (2 * bitrev k a + 1) (2 ^ k) = some r ∧
      r.1 + r.2 = 2 * bitrev k (a + 1) + 1 := by
  induction k with
  | zero => intro a fuel h; simp at h
  | succ k ih =>
    intro a fuel ha hf
    obtain ⟨fuel, rfl⟩ : ∃ f, fuel = f + 1 := ⟨fuel - 1, by omega⟩
    have hpow : 2 ^ (k + 1) = 2 * 2 ^ k := by rw [pow_succ]; ring
    have hpos : 0 < 2 ^ k := by positivity
    rcases Nat.even_or_odd' a with ⟨q, hq | hq⟩
    · -- low bit 0: the loop stops at once
      subst hq
      have hlt := bitrev_lt k q
      rw [bitrev_two_mul, bitrev_two_mul_add_one]
      refine ⟨(2 * bitrev k q + 1, 2 ^ (k + 1)), ?_, ?_⟩
      · have hc : ¬ ((2 ^ (k + 1) ≥ 2) ∧ 2 * bitrev k q + 1 > 2 ^ (k + 1)) := by omega
        simp only [four1Carry, whileFuel]
        rw [if_neg hc]
      · simp only; omega
    · -- low bit 1: it is cleared and the carry moves on
      subst hq
      have hlt := bitrev_lt k q
      have e : 2 * q + 1 + 1 = 2 * (q + 1) := by ring
      rw [bitrev_two_mul_add_one, e, bitrev_two_mul]
      obtain ⟨r, hr, hsum⟩ := ih q fuel (by omega) (by omega)
      refine ⟨r, ?_, hsum⟩
      have hc : (2 ^ (k + 1) ≥ 2) ∧ 2 * (bitrev k q + 2 ^ k) + 1 > 2 ^ (k + 1) := by omega
      simp only [four1Carry, whileFuel]
      rw [if_pos hc]
      have e1 : 2 * (bitrev k q + 2 ^ k) + 1 - 2 ^ (k + 1) = 2 * bitrev k q + 1 := by omega
      have e2 : 2 ^ (k + 1) >>> 1 = 2 ^ k := by
        rw [Nat.shiftRight_eq_div_pow, hpow]; simp
      simp only [e1, e2]
      exact hr

section Reverse

variable {α : Type}

@[simp] theorem Cells.get_set (a : Cells α) (i : Nat) (v : α) (x : Nat) :
    (a.set i v).get x = if x = i then v else a.get x := by
  simp only [Cells.set, Function.update_apply]

theorem SWAP_get (d : Cells α) (a b x : Nat) :
    (SWAP d a b).get x = if x = b then d.get a else if x = a then d.get b else d.get x := by
  simp only [SWAP, Cells.get_set]

theorem SWAP_pair_get (d : Cells α) (i j x : Nat) (h : i + 2 ≤ j) :
    (SWAP (SWAP d j i) (j + 1) (i + 1)).get x
      = if x = i then d.get j else if x = i + 1 then d.get (j + 1)
        else if x = j then d.get i else if x = j + 1 then d.get (i + 1) else d.get x := by
  simp only [SWAP_get]
  split_ifs <;> first | rfl | (exfalso; omega)

theorem revSrc_succ_of_le (L a p : Nat) (_ha : a < 2 ^ L) (h : bitrev L a ≤ a) :
    revSrc L (a + 1) p = revSrc L a p := by
  have h1 : p < 2 ^ L → bitrev L p = a → p = bitrev L a := by
    intro hp he
    rw [← he, bitrev_bitrev L p hp]
  have h2 : p = a → bitrev L p = bitrev L a := by
    intro he; rw [he]
  unfold revSrc
  split_ifs with c1 c2 c2 <;> omega

theorem revSrc_succ_of_lt (L a p : Nat) (ha : a < 2 ^ L) (h : a < bitrev L a) :
    revSrc L (a + 1) p
      = if p = a then bitrev L a else if p = bitrev L a then a else revSrc L a p := by
  have h1 : p < 2 ^ L → bitrev L p = a → p = bitrev L a := by
    intro hp he
    rw [← he, bitrev_bitrev L p hp]
  have h2 : p = a → bitrev L p = bitrev L a := by
    intro he; rw [he]
  have h3 : p = bitrev L a → bitrev L p = a := by
    intro he; rw [he, bitrev_bitrev L a ha]
  have h4 := bitrev_lt L a
  unfold revSrc
  split_ifs <;> omega

theorem revSrc_self_of_lt (L a : Nat) (h : a < bitrev L a) :
    revSrc L a a = a ∧ revSrc L a (bitrev L a) = bitrev L a := by
  unfold revSrc
  constructor
  · rw [if_neg (by omega)]
  · split_ifs with c
    · have := bitrev_lt L a
      have h5 : bitrev L (bitrev L a) = a := by
        by_cases ha : a < 2 ^ L
        · exact bitrev_bitrev L a ha
        · omega
      omega
    · rfl

/-- The bit-reversal section returns, each complex element `p < nn` holding
the element that was at the bit-reversed position; the other cells are
unchanged. -/
theorem four1Reverse_spec (L : Nat) (d0 : Cells α) :
    ∃ d1, four1Reverse (2 ^ (L + 1)) d0 = some d1 ∧ d1.get 0 = d0.get 0 ∧
      ∀ p b, b < 2 → d1.get (2 * p + 1 + b)
        = d0.get (2 * (if p < 2 ^ L then bitrev L p else p) + 1 + b) := by
  set n := 2 ^ (L + 1) with hn
  have hn2 : n = 2 * 2 ^ L := by rw [hn, pow_succ]; ring
  have hshift : n >>> 1 = 2 ^ L := by
    rw [Nat.shiftRight_eq_div_pow, hn2]; simp
  have hLn : L ≤ n := by
    have := Nat.lt_two_pow L
    omega
  obtain ⟨s1, hs1, hI, hc⟩ := whileFuel_spec
    (fun s : Nat × Nat × Cells α => s.1 < n) (four1ReverseStep n)
    (fun s => ∃ a, a ≤ 2 ^ L ∧ s.1 = 2 * a + 1 ∧ (a < 2 ^ L → s.2.1 = 2 * bitrev L a + 1) ∧
      s.2.2.get 0 = d0.get 0 ∧
      ∀ p b, b < 2 → s.2.2.get (2 * p + 1 + b) = d0.get (2 * revSrc L a p + 1 + b))
    (fun s => n + 1 - s.1)
    (by
      rintro ⟨i, j, d⟩ ⟨a, ha, hi, hj, h0, hd⟩ hcond
      simp only at hi hj h0 hd hcond
      have ha' : a < 2 ^ L := by omega
      have hj := hj ha'
      have hcarry : ∃ r, four1Carry n j (n >>> 1) = some r ∧
          (a + 1 < 2 ^ L → r.1 + r.2 = 2 * bitrev L (a + 1) + 1) := by
        rw [hshift, hj]
        by_cases h1 : a + 1 < 2 ^ L
        · obtain ⟨r, hr, hsum⟩ := four1Carry_bitrev L a n h1 hLn
          exact ⟨r, hr, fun _ => hsum⟩
        · obtain ⟨r, hr⟩ := four1Carry_terminates n (2 * bitrev L a + 1) (2 ^ L) (by omega)
          exact ⟨r, hr, fun h => absurd h h1⟩
      obtain ⟨r, hr, hsum⟩ := hcarry
      refine ⟨(i + 2, r.1 + r.2, if j > i then SWAP (SWAP d j i) (j + 1) (i + 1) else d),
        by simp only [four1ReverseStep, hr], ⟨a + 1, by omega, by simp only; omega,
        by simpa using hsum, ?_, ?_⟩, by simp only; omega⟩
      · simp only
        split_ifs
        · rw [SWAP_pair_get d i j 0 (by omega)]
          rw [if_neg (by omega), if_neg (by omega), if_neg (by omega), if_neg (by omega)]
          exact h0
        · exact h0
      · intro p b hb
        simp only
        by_cases hgt : j > i
        · rw [if_pos hgt]
          have hlt : a < bitrev L a := by omega
          rw [revSrc_succ_of_lt L a p ha' hlt, SWAP_pair_get d i j _ (by omega)]
          obtain ⟨hsa, hsr⟩ := revSrc_self_of_lt L a hlt
          have A0 := hd a 0 (by decide)
          have A1 := hd a 1 (by decide)
          have R0 := hd (bitrev L a) 0 (by decide)
          have R1 := hd (bitrev L a) 1 (by decide)
          rw [hsa] at A0 A1
          rw [hsr] at R0 R1
          have hp := hd p b hb
          subst hi hj
          split_ifs <;> first
            | (exfalso; omega)
            | exact hp
            | (convert A0 using 2 <;> omega)
            | (convert A1 using 2 <;> omega)
            | (convert R0 using 2 <;> omega)
            | (convert R1 using 2 <;> omega)
        · rw [if_neg hgt, revSrc_succ_of_le L a p ha' (by omega)]
          exact hd p b hb)
    n (1, 1, d0)
    ⟨0, by omega, rfl, fun _ => by simp [bitrev_zero_eq], rfl, fun p b _ => by
      simp [revSrc]⟩
    (by simp)
  obtain ⟨a, ha, hi, _, h0, hd⟩ := hI
  have haL : a = 2 ^ L := by
    simp only [not_lt] at hc
    omega
  refine ⟨s1.2.2, by simp only [four1Reverse, hs1], h0, ?_⟩
  intro p b hb
  rw [hd p b hb]
  unfold revSrc
  subst haL
  by_cases hp : p < 2 ^ L
  · rw [if_pos ⟨hp, Or.inl hp⟩, if_pos hp]
  · rw [if_neg (fun h => hp h.1), if_neg hp]

end Reverse

section Butterflies

variable {α : Type} [LinearOrderedField α]

/-! ## `four1`: the butterfly passes -/

theorem four1Butterfly_get (mmax : Nat) (wr wi : α) (i : Nat) (d : Cells α) (x : Nat)
    (hm : 2 ≤ mmax) :
    (four1Butterfly mmax wr wi i d).get x
      = if x = i then d.get i + (wr * d.get (i + mmax) - wi * d.get (i + mmax + 1))
        else if x = i + 1 then
          d.get (i + 1) + (wr * d.get (i + mmax + 1) + wi * d.get (i + mmax))
        else if x = i + mmax then
          d.get i - (wr * d.get (i + mmax) - wi * d.get (i + mmax + 1))
        else if x = i + mmax + 1 then
          d.get (i + 1) - (wr * d.get (i + mmax + 1) + wi * d.get (i + mmax))
        else d.get x := by
  simp only [four1Butterfly, Cells.get_set]
  split_ifs <;> first | rfl | (exfalso; omega)

theorem four1Inner_eq (n mmax istep : Nat) (wr wi : α) (m : Nat) (d : Cells α) (C : Nat)
    (hn : n = istep * C) (hm1 : 1 ≤ m) (hm2 : m < istep) :
    four1Inner n mmax istep wr wi m d
      = some (m + istep * C, innerData mmax istep wr wi m d C) := by
  have hC : C ≤ n := by
    rw [hn]
    exact Nat.le_mul_of_pos_left C (by omega)
  have := whileFuel_counted (fun s : Nat × Cells α => s.1 ≤ n)
    (fun s => some (s.1 + istep, four1Butterfly mmax wr wi s.1 s.2))
    (fun c => (m + istep * c, innerData mmax istep wr wi m d c)) C
    (by
      intro c hc
      have h1 : istep * c + istep ≤ istep * C := by
        rw [← Nat.mul_succ]
        exact Nat.mul_le_mul_left istep hc
      refine ⟨by simp only; omega, ?_⟩
      simp only [innerData, Nat.mul_succ]
      rw [Nat.add_assoc])
    (by simp only; omega) n hC
  simpa [four1Inner, innerData] using this

theorem innerData_frame (mmax istep : Nat) (wr wi : α) (m : Nat) (d : Cells α) (hm : 2 ≤ mmax)
    (c x : Nat)
    (hx : ∀ c1, c1 < c → x ≠ m + istep * c1 ∧ x ≠ m + istep * c1 + 1 ∧
      x ≠ m + istep * c1 + mmax ∧ x ≠ m + istep * c1 + mmax + 1) :
    (innerData mmax istep wr wi m d c).get x = d.get x := by
  induction c with
  | zero => rfl
  | succ c ih =>
    obtain ⟨h1, h2, h3, h4⟩ := hx c (by omega)
    rw [innerData, four1Butterfly_get _ _ _ _ _ _ hm, if_neg h1, if_neg h2, if_neg h3, if_neg h4]
    exact ih (fun c1 hc1 => hx c1 (by omega))

theorem innerData_block (mmax istep : Nat) (wr wi : α) (m : Nat) (d : Cells α) (hm : 2 ≤ mmax)
    (hm1 : 1 ≤ m) (hm2 : m + mmax + 1 ≤ istep) (c c1 x : Nat) (hc1 : c1 < c)
    (hx1 : m + istep * c1 ≤ x) (hx2 : x ≤ m + istep * c1 + mmax + 1) :
    (innerData mmax istep wr wi m d c).get x
      = (four1Butterfly mmax wr wi (m + istep * c1) d).get x := by
  induction c with
  | zero => omega
  | succ c ih =>
    rcases Nat.eq_or_lt_of_le (Nat.lt_succ_iff.mp hc1) with h | h
    · subst h
      have hfr : ∀ y, m + istep * c1 ≤ y → y ≤ m + istep * c1 + mmax + 1 →
          (innerData mmax istep wr wi m d c1).get y = d.get y := by
        intro y hy1 hy2
        apply innerData_frame _ _ _ _ _ _ hm
        intro c2 hc2
        have : istep * c2 + istep ≤ istep * c1 := by
          rw [← Nat.mul_succ]
          exact Nat.mul_le_mul_left istep hc2
        omega
      rw [innerData, four1Butterfly_get _ _ _ _ _ _ hm, four1Butterfly_get _ _ _ _ _ _ hm,
        hfr _ (by omega) (by omega), hfr _ (by omega) (by omega),
        hfr _ (by omega) (by omega), hfr _ (by omega) (by omega)]
      split_ifs <;> first | rfl | (exfalso; omega) | exact hfr _ hx1 hx2
    · have hlt : istep * c1 + istep ≤ istep * c := by
        rw [← Nat.mul_succ]
        exact Nat.mul_le_mul_left istep h
      rw [innerData, four1Butterfly_get _ _ _ _ _ _ hm, if_neg (by omega), if_neg (by omega),
        if_neg (by omega), if_neg (by omega)]
      exact ih h

end Butterflies

section Stages

variable {α : Type} [LinearOrderedField α]

theorem block_sep (istep c c1 : Nat) (h : c < c1) : istep * c + istep ≤ istep * c1 := by
  rw [← Nat.mul_succ]
  exact Nat.mul_le_mul_left istep h

theorem four1Butterfly_congr (mmax : Nat) (wr wi : α) (i : Nat) (d d1 : Cells α) (x : Nat)
    (hm : 2 ≤ mmax) (h1 : d.get i = d1.get i) (h2 : d.get (i + 1) = d1.get (i + 1))
    (h3 : d.get (i + mmax) = d1.get (i + mmax))
    (h4 : d.get (i + mmax + 1) = d1.get (i + mmax + 1)) (hx : d.get x = d1.get x) :
    (four1Butterfly mmax wr wi i d).get x = (four1Butterfly mmax wr wi i d1).get x := by
  rw [four1Butterfly_get _ _ _ _ _ _ hm, four1Butterfly_get _ _ _ _ _ _ hm, h1, h2, h3, h4, hx]

theorem middleData_frame (B C : Nat) (wpr wpi : α) (d : Cells α) (hB : 1 ≤ B) (t x : Nat)
    (hx : ∀ t1 c, t1 < t → c < C → x ≠ 2 * t1 + 1 + 4 * B * c ∧
      x ≠ 2 * t1 + 1 + 4 * B * c + 1 ∧ x ≠ 2 * t1 + 1 + 4 * B * c + 2 * B ∧
      x ≠ 2 * t1 + 1 + 4 * B * c + 2 * B + 1) :
    (middleData (2 * B) (4 * B) C wpr wpi d t).get x = d.get x := by
  induction t with
  | zero => rfl
  | succ t ih =>
    rw [middleData, innerData_frame _ _ _ _ _ _ (by omega) C x]
    · exact ih (fun t1 c ht1 hc => hx t1 c (by omega) hc)
    · intro c hc
      exact hx t c (by omega) hc

theorem middleData_block (B C : Nat) (wpr wpi : α) (d : Cells α) (hB : 1 ≤ B)
    (t t1 c x : Nat) (ht1 : t1 < t) (ht : t ≤ B) (hc : c < C)
    (hx : x = 2 * t1 + 1 + 4 * B * c ∨ x = 2 * t1 + 1 + 4 * B * c + 1 ∨
      x = 2 * t1 + 1 + 4 * B * c + 2 * B ∨ x = 2 * t1 + 1 + 4 * B * c + 2 * B + 1) :
    (middleData (2 * B) (4 * B) C wpr wpi d t).get x
      = (four1Butterfly (2 * B) (twiddle wpr wpi t1).1 (twiddle wpr wpi t1).2
          (2 * t1 + 1 + 4 * B * c) d).get x := by
  induction t with
  | zero => omega
  | succ t ih =>
    rcases Nat.eq_or_lt_of_le (Nat.lt_succ_iff.mp ht1) with h | h
    · subst h
      have hfr : ∀ y, (y = 2 * t1 + 1 + 4 * B * c ∨ y = 2 * t1 + 1 + 4 * B * c + 1 ∨
          y = 2 * t1 + 1 + 4 * B * c + 2 * B ∨ y = 2 * t1 + 1 + 4 * B * c + 2 * B + 1) →
          (middleData (2 * B) (4 * B) C wpr wpi d t1).get y = d.get y := by
        intro y hy
        apply middleData_frame _ _ _ _ _ hB
        intro t2 c2 ht2 _
        rcases lt_trichotomy c2 c with h | h | h
        · have := block_sep (4 * B) c2 c h
          omega
        · subst h
          omega
        · have := block_sep (4 * B) c c2 h
          omega
      rw [middleData, innerData_block _ _ _ _ _ _ (by omega) (by omega) (by omega) C c x hc
        (by omega) (by omega)]
      apply four1Butterfly_congr _ _ _ _ _ _ _ (by omega)
      · exact hfr _ (Or.inl rfl)
      · exact hfr _ (Or.inr (Or.inl rfl))
      · exact hfr _ (Or.inr (Or.inr (Or.inl rfl)))
      · exact hfr _ (Or.inr (Or.inr (Or.inr rfl)))
      · exact hfr _ hx
    · rw [middleData, innerData_frame _ _ _ _ _ _ (by omega) C x]
      · exact ih h (by omega)
      · intro c2 _
        rcases lt_trichotomy c2 c with h | h | h
        · have := block_sep (4 * B) c2 c h
          omega
        · subst h
          omega
        · have := block_sep (4 * B) c c2 h
          omega

theorem middleData_stageRel (B C : Nat) (wpr wpi : α) (d : Cells α) (hB : 1 ≤ B) :
    StageRel B C wpr wpi d (middleData (2 * B) (4 * B) C wpr wpi d B) := by
  constructor
  · intro x hx
    apply middleData_frame _ _ _ _ _ hB
    intro t1 c ht1 hc
    have := block_sep (4 * B) c C hc
    omega
  · intro c t hc ht
    have e1 : 2 * (2 * B * c + t) + 1 = 2 * t + 1 + 4 * B * c := by ring
    have e2 : 2 * (2 * B * c + t) + 2 = 2 * t + 1 + 4 * B * c + 1 := by ring
    have e3 : 2 * (2 * B * c + t + B) + 1 = 2 * t + 1 + 4 * B * c + 2 * B := by ring
    have e4 : 2 * (2 * B * c + t + B) + 2 = 2 * t + 1 + 4 * B * c + 2 * B + 1 := by ring
    rw [e1, e2, e3, e4]
    refine ⟨?_, ?_, ?_, ?_⟩
    · rw [middleData_block B C wpr wpi d hB B t c _ ht le_rfl hc (Or.inl rfl),
        four1Butterfly_get _ _ _ _ _ _ (by omega), if_pos rfl]
    · rw [middleData_block B C wpr wpi d hB B t c _ ht le_rfl hc (Or.inr (Or.inl rfl)),
        four1Butterfly_get _ _ _ _ _ _ (by omega), if_neg (by omega), if_pos rfl]
    · rw [middleData_block B C wpr wpi d hB B t c _ ht le_rfl hc (Or.inr (Or.inr (Or.inl rfl))),
        four1Butterfly_get _ _ _ _ _ _ (by omega), if_neg (by omega), if_neg (by omega),
        if_pos rfl]
    · rw [middleData_block B C wpr wpi d hB B t c _ ht le_rfl hc (Or.inr (Or.inr (Or.inr rfl))),
        four1Butterfly_get _ _ _ _ _ _ (by omega), if_neg (by omega), if_neg (by omega),
        if_neg (by omega), if_pos rfl]

theorem four1Stage_eq (M : MathEnv α) (isign : Int) (B C : Nat) (d : Cells α) (hB : 1 ≤ B) :
    four1Stage M (4 * B * C) isign (2 * B, d)
      = some (4 * B, middleData (2 * B) (4 * B) C (stageWp M (2 * B) isign).1
          (stageWp M (2 * B) isign).2 d B) := by
  have hsh : (2 * B) <<< 1 = 4 * B := by
    rw [Nat.shiftLeft_eq]; ring
  set wpr := (stageWp M (2 * B) isign).1 with hwpr
  set wpi := (stageWp M (2 * B) isign).2 with hwpi
  have := whileFuel_counted (fun t : Nat × α × α × Cells α => t.1 < 2 * B)
    (four1MiddleStep (4 * B * C) (2 * B) (4 * B) wpr wpi)
    (fun t => (2 * t + 1, (twiddle wpr wpi t).1, (twiddle wpr wpi t).2,
      middleData (2 * B) (4 * B) C wpr wpi d t)) B
    (by
      intro t ht
      refine ⟨by simp only; omega, ?_⟩
      simp only [four1MiddleStep]
      rw [four1Inner_eq (4 * B * C) (2 * B) (4 * B) _ _ (2 * t + 1) _ C rfl (by omega)
        (by omega)]
      simp only [twiddle, middleData]
      rfl)
    (by simp only; omega) (2 * B) (by omega)
  simp only [four1Stage, hsh]
  simp only [twiddle, middleData, Nat.mul_zero, Nat.zero_add] at this
  have e : (-2 * M.sin (1 / 2 * ((isign : α) * (M.twopi / ((2 * B : Nat) : α))))
      * M.sin (1 / 2 * ((isign : α) * (M.twopi / ((2 * B : Nat) : α))))) = wpr := rfl
  have e2 : M.sin ((isign : α) * (M.twopi / ((2 * B : Nat) : α))) = wpi := rfl
  rw [e, e2, this]

end Stages

section FourierAlgebra

open Finset

theorem sum_range_even_odd (f : Nat → ℂ) (B : Nat) :
    ∑ v in range (2 * B), f v = ∑ u in range B, f (2 * u) + ∑ u in range B, f (2 * u + 1) := by
  induction B with
  | zero => simp
  | succ B ih =>
    have e : 2 * (B + 1) = 2 * B + 1 + 1 := by ring
    rw [e, sum_range_succ, sum_range_succ, ih, sum_range_succ, sum_range_succ]
    ring

/-- One radix-2 step: two interleaved transforms of length `2^k` combine into
one transform of length `2^(k+1)`. -/
theorem dft_step (ω : Nat → ℂ) (k j : Nat)
    (h1 : ω (2 ^ (k + 1)) ^ 2 = ω (2 ^ k)) (h2 : ω (2 ^ (k + 1)) ^ (2 ^ k) = -1)
    (z0 Z Z1 : Nat → ℂ)
    (hInv : ∀ c t, c < 2 ^ (j + 1) → t < 2 ^ k →
      Z (c * 2 ^ k + t)
        = ∑ u in range (2 ^ k), z0 (bitrev (j + 1) c + 2 ^ (j + 1) * u) * ω (2 ^ k) ^ (u * t))
    (hst : ∀ c t, c < 2 ^ j → t < 2 ^ k →
      Z1 (2 * 2 ^ k * c + t)
          = Z (2 * 2 ^ k * c + t) + ω (2 ^ (k + 1)) ^ t * Z (2 * 2 ^ k * c + t + 2 ^ k) ∧
      Z1 (2 * 2 ^ k * c + t + 2 ^ k)
          = Z (2 * 2 ^ k * c + t) - ω (2 ^ (k + 1)) ^ t * Z (2 * 2 ^ k * c + t + 2 ^ k)) :
    ∀ c t, c < 2 ^ j → t < 2 ^ (k + 1) →
      Z1 (c * 2 ^ (k + 1) + t)
        = ∑ u in range (2 ^ (k + 1)), z0 (bitrev j c + 2 ^ j * u) * ω (2 ^ (k + 1)) ^ (u * t) := by
  intro c t hc ht
  set W := ω (2 ^ (k + 1)) with hW
  have hp : 2 ^ (k + 1) = 2 * 2 ^ k := by rw [pow_succ]; ring
  have hpj : 2 ^ (j + 1) = 2 * 2 ^ j := by rw [pow_succ]; ring
  have hE := hInv (2 * c) 
  have hO := hInv (2 * c + 1)
  rw [bitrev_two_mul] at hE
  rw [bitrev_two_mul_add_one] at hO
  rw [hp, sum_range_even_odd]
  have key : ∀ s, s < 2 ^ k →
      Z (2 * 2 ^ k * c + s) = ∑ u in range (2 ^ k),
        z0 (bitrev j c + 2 ^ j * (2 * u)) * W ^ (2 * u * s) ∧
      W ^ s * Z (2 * 2 ^ k * c + s + 2 ^ k) = ∑ u in range (2 ^ k),
        z0 (bitrev j c + 2 ^ j * (2 * u + 1)) * W ^ ((2 * u + 1) * s) := by
    intro s hs
    constructor
    · have := hE s (by omega) hs
      have e : 2 * c * 2 ^ k + s = 2 * 2 ^ k * c + s := by ring
      rw [e] at this
      rw [this]
      apply sum_congr rfl
      intro u _
      have e2 : 2 ^ (j + 1) * u = 2 ^ j * (2 * u) := by rw [hpj]; ring
      rw [e2, ← h1, ← pow_mul]
      congr 2
      ring
    · have := hO s (by omega) hs
      have e : (2 * c + 1) * 2 ^ k + s = 2 * 2 ^ k * c + s + 2 ^ k := by ring
      rw [e] at this
      rw [this, mul_sum]
      apply sum_congr rfl
      intro u _
      have e2 : bitrev j c + 2 ^ j + 2 ^ (j + 1) * u = bitrev j c + 2 ^ j * (2 * u + 1) := by
        rw [hpj]; ring
      rw [e2, ← h1, ← pow_mul]
      have e3 : (2 * u + 1) * s = s + 2 * (u * s) := by ring
      rw [e3, pow_add]
      ring
  by_cases hlt : t < 2 ^ k
  · have e : c * (2 * 2 ^ k) + t = 2 * 2 ^ k * c + t := by ring
    rw [e, (hst c t hc hlt).1, (key t hlt).1, (key t hlt).2]
  · obtain ⟨s, hs⟩ : ∃ s, t = s + 2 ^ k := ⟨t - 2 ^ k, by omega⟩
    have hs2 : s < 2 ^ k := by omega
    have e : c * (2 * 2 ^ k) + t = 2 * 2 ^ k * c + s + 2 ^ k := by rw [hs]; ring
    rw [e, (hst c s hc hs2).2, (key s hs2).1, (key s hs2).2, sub_eq_add_neg, ← sum_neg_distrib]
    congr 1
    · apply sum_congr rfl
      intro u _
      have e3 : 2 * u * t = 2 * u * s + 2 ^ k * (2 * u) := by rw [hs]; ring
      rw [e3, pow_add, pow_mul W (2 ^ k), h2]
      simp
    · apply sum_congr rfl
      intro u _
      have e3 : (2 * u + 1) * t = (2 * u + 1) * s + 2 ^ k * (2 * u + 1) := by rw [hs]; ring
      rw [e3, pow_add, pow_mul W (2 ^ k), h2]
      have : ((-1 : ℂ)) ^ (2 * u + 1) = -1 := by
        rw [pow_succ, pow_mul]; simp
      rw [this]
      ring

end FourierAlgebra

section Four1Top

variable {α : Type} [LinearOrderedField α]

theorem stageData_rel (M : MathEnv α) (L : Nat) (isign : Int) (d1 : Cells α) (k : Nat) :
    StageRel (2 ^ k) (2 ^ (L - 1 - k)) (stageWp M (2 * 2 ^ k) isign).1
      (stageWp M (2 * 2 ^ k) isign).2 (stageData M L isign d1 k)
      (stageData M L isign d1 (k + 1)) :=
  middleData_stageRel _ _ _ _ _ Nat.one_le_two_pow

theorem pow_split (L k : Nat) (hk : k < L) : 2 ^ (L + 1) = 4 * 2 ^ k * 2 ^ (L - 1 - k) := by
  have e : L + 1 = 2 + k + (L - 1 - k) := by omega
  rw [e, pow_add, pow_add]
  norm_num

/-- The passes of `four1` on a power of two return, and their result is the
last array of `stageData`. -/
theorem four1_eq (M : MathEnv α) (L : Nat) (isign : Int) (d0 : Cells α) :
    ∃ d1, four1Reverse (2 ^ (L + 1)) d0 = some d1 ∧ d1.get 0 = d0.get 0 ∧
      (∀ p b, b < 2 → d1.get (2 * p + 1 + b)
        = d0.get (2 * (if p < 2 ^ L then bitrev L p else p) + 1 + b)) ∧
      four1 M d0 (2 ^ L) isign = some (stageData M L isign d1 L) := by
  obtain ⟨d1, hd1, h0, hp⟩ := four1Reverse_spec L d0
  refine ⟨d1, hd1, h0, hp, ?_⟩
  have hsh : 2 ^ L <<< 1 = 2 ^ (L + 1) := by
    rw [Nat.shiftLeft_eq, pow_succ]; ring
  have hLn : L ≤ 2 ^ (L + 1) := by
    have := Nat.lt_two_pow (L + 1)
    omega
  have := whileFuel_counted (fun s : Nat × Cells α => 2 ^ (L + 1) > s.1)
    (four1Stage M (2 ^ (L + 1)) isign)
    (fun k => (2 * 2 ^ k, stageData M L isign d1 k)) L
    (by
      intro k hk
      have hlt : 2 ^ k < 2 ^ L := Nat.pow_lt_pow_right (by decide) hk
      refine ⟨by simp only; rw [pow_succ]; omega, ?_⟩
      rw [pow_split L k hk, four1Stage_eq M isign (2 ^ k) _ _ Nat.one_le_two_pow]
      simp only [stageData]
      rw [pow_succ]
      congr 2
      ring)
    (by simp only; rw [pow_succ]; omega) (2 ^ (L + 1)) hLn
  simp only [four1, hsh, hd1]
  simp only [pow_zero, mul_one, stageData] at this
  rw [this]

end Four1Top

section Four1Real

open Finset

theorem twiddle_real (θ : ℝ) (t : Nat) :
    twiddle (-2 * Real.sin (1 / 2 * θ) * Real.sin (1 / 2 * θ)) (Real.sin θ) t
      = (Real.cos (t * θ), Real.sin (t * θ)) := by
  have hc : -2 * Real.sin (1 / 2 * θ) * Real.sin (1 / 2 * θ) = Real.cos θ - 1 := by
    have h := Real.cos_sq' (1 / 2 * θ)
    have h2 := Real.cos_two_mul (1 / 2 * θ)
    have e : 2 * (1 / 2 * θ) = θ := by ring
    rw [e] at h2
    nlinarith [h, h2]
  rw [hc]
  induction t with
  | zero => simp [twiddle]
  | succ t ih =>
    simp only [twiddle, ih]
    have e : ((t + 1 : Nat) : ℝ) * θ = t * θ + θ := by push_cast; ring
    rw [e, Real.cos_add, Real.sin_add]
    ext <;> simp only <;> ring

theorem cis_pow (θ : ℝ) (t : Nat) :
    (⟨Real.cos (t * θ), Real.sin (t * θ)⟩ : ℂ) = Complex.exp ((θ : ℂ) * Complex.I) ^ t := by
  rw [← Complex.exp_nat_mul, ← mul_assoc, Complex.exp_mul_I]
  apply Complex.ext
  · simp [← Complex.ofReal_cos, ← Complex.ofReal_sin, ← Complex.ofReal_natCast,
      ← Complex.ofReal_mul]
  · simp [← Complex.ofReal_cos, ← Complex.ofReal_sin, ← Complex.ofReal_natCast,
      ← Complex.ofReal_mul]

end Four1Real

section Four1Dft

open Finset

theorem unitRoot_sq (s : ℝ) (k : Nat) :
    Complex.exp (((s * (2 * Real.pi / ((2 ^ (k + 1) : Nat) : ℝ)) : ℝ) : ℂ) * Complex.I) ^ 2
      = Complex.exp (((s * (2 * Real.pi / ((2 ^ k : Nat) : ℝ)) : ℝ) : ℂ) * Complex.I) := by
  rw [← Complex.exp_nat_mul]
  congr 1
  push_cast
  have : (2 : ℂ) ^ k ≠ 0 := pow_ne_zero _ two_ne_zero
  field_simp
  ring

theorem unitRoot_half (isign : Int) (hs : isign = 1 ∨ isign = -1) (k : Nat) :
    Complex.exp (((((isign : Int) : ℝ) * (2 * Real.pi / ((2 ^ (k + 1) : Nat) : ℝ)) : ℝ) : ℂ)
      * Complex.I) ^ (2 ^ k) = -1 := by
  rw [← Complex.exp_nat_mul]
  have h2 : (2 : ℂ) ^ k ≠ 0 := pow_ne_zero _ two_ne_zero
  rcases hs with h | h
  · subst h
    have e : (((2 ^ k : Nat) : ℂ)) * (((((1 : Int) : ℝ)
        * (2 * Real.pi / ((2 ^ (k + 1) : Nat) : ℝ)) : ℝ) : ℂ) * Complex.I)
        = (Real.pi : ℂ) * Complex.I := by
      push_cast
      field_simp
      ring
    rw [e, Complex.exp_pi_mul_I]
  · subst h
    have e : (((2 ^ k : Nat) : ℂ)) * (((((-1 : Int) : ℝ)
        * (2 * Real.pi / ((2 ^ (k + 1) : Nat) : ℝ)) : ℝ) : ℂ) * Complex.I)
        = -((Real.pi : ℂ) * Complex.I) := by
      push_cast
      field_simp
      ring
    rw [e, Complex.exp_neg, Complex.exp_pi_mul_I]
    norm_num

theorem stageWp_exact (M : MathEnv ℝ) (hM : M.Exact) (mmax : Nat) (isign : Int) :
    stageWp M mmax isign
      = (-2 * Real.sin (1 / 2 * ((isign : ℝ) * (2 * Real.pi / (mmax : ℝ))))
          * Real.sin (1 / 2 * ((isign : ℝ) * (2 * Real.pi / (mmax : ℝ)))),
         Real.sin ((isign : ℝ) * (2 * Real.pi / (mmax : ℝ)))) := by
  obtain ⟨hsin, _, _, _, _, h2pi⟩ := hM
  simp only [stageWp, hsin, h2pi]

/-- A pass of `four1`, read on complex elements, is a radix-2 butterfly with
the twiddle factor `exp(i θ)^t`. -/
theorem stageRel_cplx (B C : Nat) (θ : ℝ) (d d1 : Cells ℝ)
    (h : StageRel B C (-2 * Real.sin (1 / 2 * θ) * Real.sin (1 / 2 * θ)) (Real.sin θ) d d1)
    (c t : Nat) (hc : c < C) (ht : t < B) :
    cplx d1 (2 * B * c + t)
        = cplx d (2 * B * c + t)
          + Complex.exp ((θ : ℂ) * Complex.I) ^ t * cplx d (2 * B * c + t + B) ∧
    cplx d1 (2 * B * c + t + B)
        = cplx d (2 * B * c + t)
          - Complex.exp ((θ : ℂ) * Complex.I) ^ t * cplx d (2 * B * c + t + B) := by
  obtain ⟨h1, h2, h3, h4⟩ := h.2 c t hc ht
  rw [twiddle_real] at h1 h2 h3 h4
  simp only at h1 h2 h3 h4
  rw [← cis_pow]
  constructor
  · apply Complex.ext
    · simp only [cplx, Complex.add_re, Complex.mul_re]
      rw [h1]
    · simp only [cplx, Complex.add_im, Complex.mul_im]
      rw [h2]
  · apply Complex.ext
    · simp only [cplx, Complex.sub_re, Complex.mul_re]
      rw [h3]
    · simp only [cplx, Complex.sub_im, Complex.mul_im]
      rw [h4]

/-- The discrete Fourier transform computed by `four1`, element by element. -/
theorem four1_dft_aux (M : MathEnv ℝ) (hM : M.Exact) (L : Nat) (isign : Int)
    (hs : isign = 1 ∨ isign = -1) (data : Cells ℝ) :
    ∃ out, four1 M data (2 ^ L) isign = some out ∧ out.get 0 = data.get 0 ∧
      (∀ x, 2 ^ (L + 1) < x → out.get x = data.get x) ∧
      ∀ t, t < 2 ^ L → cplx out t = ∑ u in range (2 ^ L), cplx data u *
        Complex.exp (((((isign : Int) : ℝ) * (2 * Real.pi / ((2 ^ L : Nat) : ℝ)) : ℝ) : ℂ)
          * Complex.I) ^ (u * t) := by
  obtain ⟨d1, _, h0, hrev, hfour⟩ := four1_eq M L isign data
  refine ⟨_, hfour, ?_, ?_, ?_⟩
  · have : ∀ k, (stageData M L isign d1 k).get 0 = data.get 0 := by
      intro k
      induction k with
      | zero => exact h0
      | succ k ih =>
        rw [(stageData_rel M L isign d1 k).1 0 (Or.inl rfl)]
        exact ih
    exact this L
  · intro x hx
    have : ∀ k, k ≤ L → (stageData M L isign d1 k).get x = data.get x := by
      intro k
      induction k with
      | zero =>
        intro _
        have hx1 : 0 < x := Nat.lt_of_le_of_lt (Nat.zero_le _) hx
        obtain ⟨p, b, hb, rfl⟩ : ∃ p b, b < 2 ∧ x = 2 * p + 1 + b :=
          ⟨(x - 1) / 2, (x - 1) % 2, Nat.mod_lt _ (by decide), by omega⟩
        have hp : ¬ p < 2 ^ L := by
          rw [pow_succ] at hx
          generalize 2 ^ L = N at hx
          omega
        have := hrev p b hb
        rw [if_neg hp] at this
        exact this
      | succ k ih =>
        intro hk
        rw [(stageData_rel M L isign d1 k).1 x (Or.inr (by
          rw [← pow_split L k (by omega)]
          exact hx))]
        exact ih (by omega)
    exact this L le_rfl
  · set ω : Nat → ℂ := fun N =>
      Complex.exp (((((isign : Int) : ℝ) * (2 * Real.pi / (N : ℝ)) : ℝ) : ℂ) * Complex.I)
      with hω
    have main : ∀ k, k ≤ L → ∀ c t, c < 2 ^ (L - k) → t < 2 ^ k →
        cplx (stageData M L isign d1 k) (c * 2 ^ k + t)
          = ∑ u in range (2 ^ k),
              cplx data (bitrev (L - k) c + 2 ^ (L - k) * u) * ω (2 ^ k) ^ (u * t) := by
      intro k
      induction k with
      | zero =>
        intro _ c t hc ht
        have ht0 : t = 0 := by simpa using ht
        subst ht0
        simp only [pow_zero, mul_one, add_zero, range_one, sum_singleton, mul_zero,
          Nat.sub_zero]
        simp only [Nat.sub_zero] at hc
        have r0 := hrev c 0 (by decide)
        have r1 := hrev c 1 (by decide)
        rw [if_pos hc] at r0 r1
        simp only [stageData, cplx]
        apply Complex.ext
        · simpa using r0
        · simpa using r1
      | succ k ih =>
        intro hk c t hc ht
        have e1 : L - k = (L - (k + 1)) + 1 := by omega
        have ih2 := ih (by omega)
        rw [e1] at ih2
        have hrel := stageData_rel M L isign d1 k
        rw [stageWp_exact M hM] at hrel
        have e2 : L - 1 - k = L - (k + 1) := by omega
        rw [e2] at hrel
        have hθ : ((2 * 2 ^ k : Nat) : ℝ) = ((2 ^ (k + 1) : Nat) : ℝ) := by
          rw [pow_succ]; push_cast; ring
        rw [hθ] at hrel
        exact dft_step ω k (L - (k + 1)) (unitRoot_sq _ k) (unitRoot_half isign hs k)
          (cplx data) (cplx (stageData M L isign d1 k))
          (cplx (stageData M L isign d1 (k + 1))) ih2
          (fun c t hc ht => stageRel_cplx _ _ _ _ _ hrel c t hc ht) c t hc ht
    intro t ht
    have := main L le_rfl 0 t (by simp) ht
    simp only [zero_mul, zero_add, Nat.sub_self, pow_zero, one_mul, bitrev] at this
    exact this

end Four1Dft

section RealftLoop

variable {α : Type} [LinearOrderedField α]

/-! ## `realft`: the unpacking loop -/

theorem realftStep_get (n : Nat) (c1 c2 wpr wpi : α) (i : Nat) (s : α × α × Cells α) (x : Nat)
    (hi1 : 1 ≤ i) (hi2 : 4 * i ≤ n) :
    (realftStep n c1 c2 wpr wpi i s).2.2.get x
      = if x = 2 * i - 1 then
          c1 * (s.2.2.get (2 * i - 1) + s.2.2.get (n + 3 - 2 * i))
            + s.1 * (-c2 * (s.2.2.get (2 * i) + s.2.2.get (n + 4 - 2 * i)))
            - s.2.1 * (c2 * (s.2.2.get (2 * i - 1) - s.2.2.get (n + 3 - 2 * i)))
        else if x = 2 * i then
          c1 * (s.2.2.get (2 * i) - s.2.2.get (n + 4 - 2 * i))
            + s.1 * (c2 * (s.2.2.get (2 * i - 1) - s.2.2.get (n + 3 - 2 * i)))
            + s.2.1 * (-c2 * (s.2.2.get (2 * i) + s.2.2.get (n + 4 - 2 * i)))
        else if x = n + 3 - 2 * i then
          c1 * (s.2.2.get (2 * i - 1) + s.2.2.get (n + 3 - 2 * i))
            - s.1 * (-c2 * (s.2.2.get (2 * i) + s.2.2.get (n + 4 - 2 * i)))
            + s.2.1 * (c2 * (s.2.2.get (2 * i - 1) - s.2.2.get (n + 3 - 2 * i)))
        else if x = n + 4 - 2 * i then
          -(c1 * (s.2.2.get (2 * i) - s.2.2.get (n + 4 - 2 * i)))
            + s.1 * (c2 * (s.2.2.get (2 * i - 1) - s.2.2.get (n + 3 - 2 * i)))
            + s.2.1 * (-c2 * (s.2.2.get (2 * i) + s.2.2.get (n + 4 - 2 * i)))
        else s.2.2.get x := by
  have e1 : i + i - 1 = 2 * i - 1 := by omega
  have e2 : 1 + (2 * i - 1) = 2 * i := by omega
  have e4 : 1 + (n + 3 - 2 * i) = n + 4 - 2 * i := by omega
  simp only [realftStep, Cells.get_set, e1, e2, e4]
  split_ifs <;> first | rfl | (exfalso; omega)

theorem realftLoop_twiddle (n : Nat) (c1 c2 wpr wpi : α) (d : Cells α) (c : Nat) :
    (loopFrom 2 (realftStep n c1 c2 wpr wpi) (1 + wpr, wpi, d) c).1
        = (twiddle wpr wpi (c + 1)).1 ∧
    (loopFrom 2 (realftStep n c1 c2 wpr wpi) (1 + wpr, wpi, d) c).2.1
        = (twiddle wpr wpi (c + 1)).2 := by
  induction c with
  | zero =>
    simp only [loopFrom, twiddle]
    constructor <;> ring
  | succ c ih =>
    obtain ⟨h1, h2⟩ := ih
    have e : twiddle wpr wpi (c + 1 + 1)
        = ((twiddle wpr wpi (c + 1)).1 * wpr - (twiddle wpr wpi (c + 1)).2 * wpi
            + (twiddle wpr wpi (c + 1)).1,
           (twiddle wpr wpi (c + 1)).2 * wpr + (twiddle wpr wpi (c + 1)).1 * wpi
            + (twiddle wpr wpi (c + 1)).2) := rfl
    rw [loopFrom, e]
    simp only [realftStep]
    rw [h1, h2]
    exact ⟨rfl, rfl⟩

theorem realftLoop_frame (n : Nat) (c1 c2 wpr wpi : α) (s : α × α × Cells α) (c x : Nat)
    (hc : 4 * (c + 1) ≤ n)
    (hx : ∀ i, 2 ≤ i → i < 2 + c → x ≠ 2 * i - 1 ∧ x ≠ 2 * i ∧ x ≠ n + 3 - 2 * i ∧
      x ≠ n + 4 - 2 * i) :
    (loopFrom 2 (realftStep n c1 c2 wpr wpi) s c).2.2.get x = s.2.2.get x := by
  induction c with
  | zero => rfl
  | succ c ih =>
    obtain ⟨h1, h2, h3, h4⟩ := hx (2 + c) (by omega) (by omega)
    rw [loopFrom, realftStep_get _ _ _ _ _ _ _ _ (by omega) (by omega), if_neg h1, if_neg h2,
      if_neg h3, if_neg h4]
    exact ih (by omega) (fun i hi1 hi2 => hx i hi1 (by omega))

theorem realftLoop_cell (n : Nat) (c1 c2 wpr wpi : α) (d : Cells α) (c i x : Nat)
    (hc : 4 * (c + 1) ≤ n) (hi1 : 2 ≤ i) (hi2 : i < 2 + c)
    (hx : x = 2 * i - 1 ∨ x = 2 * i ∨ x = n + 3 - 2 * i ∨ x = n + 4 - 2 * i) :
    (loopFrom 2 (realftStep n c1 c2 wpr wpi) (1 + wpr, wpi, d) c).2.2.get x
      = (realftStep n c1 c2 wpr wpi i
          ((twiddle wpr wpi (i - 1)).1, (twiddle wpr wpi (i - 1)).2, d)).2.2.get x := by
  induction c with
  | zero => omega
  | succ c ih =>
    have hi3 : i ≤ 2 + c := by omega
    rcases Nat.eq_or_lt_of_le hi3 with h | h
    · subst h
      have hfr : ∀ y, (y = 2 * (2 + c) - 1 ∨ y = 2 * (2 + c) ∨ y = n + 3 - 2 * (2 + c) ∨
          y = n + 4 - 2 * (2 + c)) →
          (loopFrom 2 (realftStep n c1 c2 wpr wpi) (1 + wpr, wpi, d) c).2.2.get y = d.get y := by
        intro y hy
        apply realftLoop_frame _ _ _ _ _ _ _ _ (by omega)
        intro i _ _
        omega
      obtain ⟨t1, t2⟩ := realftLoop_twiddle n c1 c2 wpr wpi d c
      have e : 2 + c - 1 = c + 1 := by omega
      rw [loopFrom, realftStep_get _ _ _ _ _ _ _ _ (by omega) (by omega),
        realftStep_get _ _ _ _ _ _ _ _ (by omega) (by omega), t1, t2, e,
        hfr _ (Or.inl rfl), hfr _ (Or.inr (Or.inl rfl)), hfr _ (Or.inr (Or.inr (Or.inl rfl))),
        hfr _ (Or.inr (Or.inr (Or.inr rfl))), hfr _ hx]
    · obtain ⟨h1, h2, h3, h4⟩ : x ≠ 2 * (2 + c) - 1 ∧ x ≠ 2 * (2 + c) ∧
          x ≠ n + 3 - 2 * (2 + c) ∧ x ≠ n + 4 - 2 * (2 + c) := by omega
      rw [loopFrom, realftStep_get _ _ _ _ _ _ _ _ (by omega) (by omega), if_neg h1, if_neg h2,
        if_neg h3, if_neg h4]
      exact ih (by omega) h

end RealftLoop

section RealftTop

variable {α : Type} [LinearOrderedField α]

/-- The forward `realft` returns whenever its `four1` does, and its result is
related to the output of `four1` by `RealftRel`. -/
theorem realft_forward (M : MathEnv α) (data d : Cells α) (n : Nat)
    (hfour : four1 M data (n >>> 1) 1 = some d) :
    ∃ out, realft M data n 1 = some out ∧
      RealftRel n (realftWp M n).1 (realftWp M n).2 d out := by
  set wpr := (realftWp M n).1 with hwpr
  set wpi := (realftWp M n).2 with hwpi
  set c := n >>> 2 + 1 - 2 with hc
  have hsh : n >>> 2 = n / 4 := by
    rw [Nat.shiftRight_eq_div_pow]
  have hcn : c = 0 ∨ 4 * (c + 1) ≤ n := by omega
  set lp := loopFrom 2 (realftStep n (1 / 2) (-(1 / 2)) wpr wpi) (1 + wpr, wpi, d) c with hlp
  have hre : realft M data n 1
      = some ((lp.2.2.set 1 (lp.2.2.get 1 + lp.2.2.get 2)).set 2
          (lp.2.2.get 1 - (lp.2.2.set 1 (lp.2.2.get 1 + lp.2.2.get 2)).get 2)) := by
    simp only [realft, if_true, hfour, forLoop]
    rfl
  have hframe : ∀ x, (∀ p, 1 ≤ p → 4 * (p + 1) ≤ n → x ≠ 2 * p + 1 ∧ x ≠ 2 * p + 2 ∧
      x ≠ n + 1 - 2 * p ∧ x ≠ n + 2 - 2 * p) → lp.2.2.get x = d.get x := by
    intro x hx
    rcases hcn with h0 | h4
    · rw [hlp, h0]; rfl
    · rw [hlp, realftLoop_frame _ _ _ _ _ _ _ _ h4]
      intro i hi1 hi2
      have := hx (i - 1) (by omega) (by omega)
      omega
  have h1 : lp.2.2.get 1 = d.get 1 := hframe 1 (fun p hp1 hp2 => by omega)
  have h2 : lp.2.2.get 2 = d.get 2 := hframe 2 (fun p hp1 hp2 => by omega)
  refine ⟨_, hre, ?_, ?_, ?_, ?_, ?_⟩
  · simp [Cells.get_set, h1, h2]
  · simp [Cells.get_set, h1, h2]
  · intro x hx3 hx
    simp only [Cells.get_set]
    rw [if_neg (by omega), if_neg (by omega)]
    exact hframe x hx
  · have h0 := hframe 0 (fun p hp1 hp2 => by omega)
    simp [Cells.get_set, h0]
  · intro p hp1 hp2
    have hc4 : 4 * (c + 1) ≤ n := by omega
    have e1 : 2 * (p + 1) - 1 = 2 * p + 1 := by omega
    have e2 : 2 * (p + 1) = 2 * p + 2 := by omega
    have e3 : n + 3 - 2 * (p + 1) = n + 1 - 2 * p := by omega
    have e4 : n + 4 - 2 * (p + 1) = n + 2 - 2 * p := by omega
    have e5 : p + 1 - 1 = p := by omega
    have cell : ∀ x, (x = 2 * p + 1 ∨ x = 2 * p + 2 ∨ x = n + 1 - 2 * p ∨ x = n + 2 - 2 * p) →
        ((lp.2.2.set 1 (lp.2.2.get 1 + lp.2.2.get 2)).set 2
          (lp.2.2.get 1 - (lp.2.2.set 1 (lp.2.2.get 1 + lp.2.2.get 2)).get 2)).get x
        = (realftStep n (1 / 2) (-(1 / 2)) wpr wpi (p + 1)
            ((twiddle wpr wpi p).1, (twiddle wpr wpi p).2, d)).2.2.get x := by
      intro x hx
      simp only [Cells.get_set]
      rw [if_neg (by omega), if_neg (by omega), hlp,
        realftLoop_cell n _ _ wpr wpi d c (p + 1) x hc4 (by omega) (by omega) (by omega), e5]
    refine ⟨?_, ?_, ?_, ?_⟩
    · rw [cell _ (Or.inl rfl), realftStep_get _ _ _ _ _ _ _ _ (by omega) (by omega), e1, e3,
        e4, e2, if_pos rfl]
      dsimp only
      ring
    · rw [cell _ (Or.inr (Or.inl rfl)), realftStep_get _ _ _ _ _ _ _ _ (by omega) (by omega),
        e1, e3, e4, e2, if_neg (by omega), if_pos rfl]
      dsimp only
      ring
    · rw [cell _ (Or.inr (Or.inr (Or.inl rfl))),
        realftStep_get _ _ _ _ _ _ _ _ (by omega) (by omega),
        e1, e3, e4, e2, if_neg (by omega), if_neg (by omega), if_pos rfl]
      dsimp only
      ring
    · rw [cell _ (Or.inr (Or.inr (Or.inr rfl))),
        realftStep_get _ _ _ _ _ _ _ _ (by omega) (by omega),
        e1, e3, e4, e2, if_neg (by omega), if_neg (by omega), if_neg (by omega), if_pos rfl]
      dsimp only
      ring

end RealftTop

section RealftAlgebra

open Finset

theorem sum_range_even_odd_real (f : Nat → ℝ) (B : Nat) :
    ∑ v in range (2 * B), f v = ∑ u in range B, f (2 * u) + ∑ u in range B, f (2 * u + 1) := by
  induction B with
  | zero => simp
  | succ B ih =>
    have e : 2 * (B + 1) = 2 * B + 1 + 1 := by ring
    rw [e, sum_range_succ, sum_range_succ, ih, sum_range_succ, sum_range_succ]
    ring

/-- The transform of a real sequence of length `2N` from the transforms of its
even and odd halves. -/
theorem realft_split (x : Nat → ℝ) (W : ℂ) (N k : Nat) :
    ∑ j in range (2 * N), (x j : ℂ) * W ^ (j * k)
      = ∑ u in range N, (x (2 * u) : ℂ) * (W ^ 2) ^ (u * k)
        + W ^ k * ∑ u in range N, (x (2 * u + 1) : ℂ) * (W ^ 2) ^ (u * k) := by
  rw [sum_range_even_odd, mul_sum]
  congr 1
  · apply sum_congr rfl
    intro u _
    rw [← pow_mul]
    congr 2
    ring
  · apply sum_congr rfl
    intro u _
    rw [← pow_mul]
    have e : (2 * u + 1) * k = k + 2 * (u * k) := by ring
    rw [e, pow_add]
    ring

/-- The transform of the packed complex sequence `x(2u) + i x(2u+1)`. -/
theorem realft_pack (x : Nat → ℝ) (V : ℂ) (N k : Nat) :
    ∑ u in range N, (⟨x (2 * u), x (2 * u + 1)⟩ : ℂ) * V ^ (u * k)
      = ∑ u in range N, (x (2 * u) : ℂ) * V ^ (u * k)
        + Complex.I * ∑ u in range N, (x (2 * u + 1) : ℂ) * V ^ (u * k) := by
  rw [mul_sum, ← sum_add_distrib]
  apply sum_congr rfl
  intro u _
  rw [Complex.mk_eq_add_mul_I]
  ring

theorem realft_conj (y : Nat → ℝ) (V : ℂ) (N p : Nat)
    (hV : (starRingEnd ℂ) V * V = 1) (hVN : V ^ N = 1) (hp : p ≤ N) :
    (starRingEnd ℂ) (∑ u in range N, (y u : ℂ) * V ^ (u * (N - p)))
      = ∑ u in range N, (y u : ℂ) * V ^ (u * p) := by
  rw [map_sum]
  apply sum_congr rfl
  intro u _
  rw [map_mul, Complex.conj_ofReal, map_pow]
  congr 1
  have h1 : V ^ (u * (N - p)) * V ^ (u * p) = 1 := by
    rw [← pow_add, ← Nat.mul_add, Nat.sub_add_cancel hp, Nat.mul_comm, pow_mul, hVN, one_pow]
  have h2 : (starRingEnd ℂ) V ^ (u * (N - p)) * V ^ (u * (N - p)) = 1 := by
    rw [← mul_pow, hV, one_pow]
  calc (starRingEnd ℂ) V ^ (u * (N - p))
      = (starRingEnd ℂ) V ^ (u * (N - p)) * (V ^ (u * (N - p)) * V ^ (u * p)) := by
        rw [h1, mul_one]
    _ = ((starRingEnd ℂ) V ^ (u * (N - p)) * V ^ (u * (N - p))) * V ^ (u * p) := by ring
    _ = V ^ (u * p) := by rw [h2, one_mul]

/-- The unpacking step of the real transform: from the transform `H` of the
packed sequence at `p` and `N - p` to the transform `F` of the real sequence
at `p` and `N - p`. -/
theorem realft_unpack (x : Nat → ℝ) (W : ℂ) (N p : Nat)
    (hW : (starRingEnd ℂ) W * W = 1) (hWN : W ^ N = -1) (hp : p ≤ N) (Hp Hq : ℂ)
    (hHp : Hp = ∑ u in range N, (⟨x (2 * u), x (2 * u + 1)⟩ : ℂ) * (W ^ 2) ^ (u * p))
    (hHq : Hq = ∑ u in range N, (⟨x (2 * u), x (2 * u + 1)⟩ : ℂ) * (W ^ 2) ^ (u * (N - p))) :
    (Hp + (starRingEnd ℂ) Hq) / 2 + W ^ p * (-Complex.I / 2 * (Hp - (starRingEnd ℂ) Hq))
        = ∑ j in range (2 * N), (x j : ℂ) * W ^ (j * p) ∧
    (starRingEnd ℂ) ((Hp + (starRingEnd ℂ) Hq) / 2
          - W ^ p * (-Complex.I / 2 * (Hp - (starRingEnd ℂ) Hq)))
        = ∑ j in range (2 * N), (x j : ℂ) * W ^ (j * (N - p)) := by
  have hV : (starRingEnd ℂ) (W ^ 2) * W ^ 2 = 1 := by
    rw [map_pow, ← mul_pow, hW, one_pow]
  have hVN : (W ^ 2) ^ N = 1 := by
    rw [← pow_mul, Nat.mul_comm, pow_mul, hWN]; norm_num
  set E := ∑ u in range N, (x (2 * u) : ℂ) * (W ^ 2) ^ (u * p) with hE
  set O := ∑ u in range N, (x (2 * u + 1) : ℂ) * (W ^ 2) ^ (u * p) with hO
  have hp1 : Hp = E + Complex.I * O := by rw [hHp, realft_pack]
  have hq1 : (starRingEnd ℂ) Hq = E - Complex.I * O := by
    rw [hHq, realft_pack, map_add, map_mul, Complex.conj_I,
      realft_conj (fun u => x (2 * u)) (W ^ 2) N p hV hVN hp,
      realft_conj (fun u => x (2 * u + 1)) (W ^ 2) N p hV hVN hp]
    ring
  have hI : Complex.I * Complex.I = -1 := Complex.I_mul_I
  have h1 : (Hp + (starRingEnd ℂ) Hq) / 2 = E := by
    rw [hp1, hq1]; ring
  have h2 : -Complex.I / 2 * (Hp - (starRingEnd ℂ) Hq) = O := by
    rw [hp1, hq1]
    have : -Complex.I / 2 * (E + Complex.I * O - (E - Complex.I * O))
        = -(Complex.I * Complex.I) * O := by ring
    rw [this, hI]; ring
  rw [h1, h2]
  constructor
  · rw [realft_split]
  · rw [realft_split, map_sub, map_mul, map_pow]
    have hcE : (starRingEnd ℂ) E
        = ∑ u in range N, (x (2 * u) : ℂ) * (W ^ 2) ^ (u * (N - p)) := by
      have := realft_conj (fun u => x (2 * u)) (W ^ 2) N (N - p) hV hVN (Nat.sub_le _ _)
      rw [Nat.sub_sub_self hp] at this
      exact this
    have hcO : (starRingEnd ℂ) O
        = ∑ u in range N, (x (2 * u + 1) : ℂ) * (W ^ 2) ^ (u * (N - p)) := by
      have := realft_conj (fun u => x (2 * u + 1)) (W ^ 2) N (N - p) hV hVN (Nat.sub_le _ _)
      rw [Nat.sub_sub_self hp] at this
      exact this
    rw [hcE, hcO]
    have hw : W ^ (N - p) = -((starRingEnd ℂ) W ^ p) := by
      have h3 : W ^ (N - p) * W ^ p = -1 := by
        rw [← pow_add, Nat.sub_add_cancel hp, hWN]
      have h4 : (starRingEnd ℂ) W ^ p * W ^ p = 1 := by
        rw [← mul_pow, hW, one_pow]
      calc W ^ (N - p) = W ^ (N - p) * ((starRingEnd ℂ) W ^ p * W ^ p) := by rw [h4, mul_one]
        _ = (W ^ (N - p) * W ^ p) * (starRingEnd ℂ) W ^ p := by ring
        _ = -((starRingEnd ℂ) W ^ p) := by rw [h3]; ring
    rw [hw]
    ring

end RealftAlgebra

section RealftDft

open Finset

theorem realftWp_exact (M : MathEnv ℝ) (hM : M.Exact) (n : Nat) :
    realftWp M n
      = ((-2 : ℝ) * Real.sin ((1 / 2 : ℝ) * (Real.pi / ((n >>> 1 : Nat) : ℝ)))
          * Real.sin ((1 / 2 : ℝ) * (Real.pi / ((n >>> 1 : Nat) : ℝ))),
         Real.sin (Real.pi / ((n >>> 1 : Nat) : ℝ))) := by
  obtain ⟨hsin, _, _, _, hpi, _⟩ := hM
  simp only [realftWp, hsin, hpi]

/-- The unpacking loop of `realft`, read on complex elements. -/
theorem realftRel_cplx (N : Nat) (θ : ℝ) (d d1 : Cells ℝ)
    (h : RealftRel (2 * N) (-2 * Real.sin (1 / 2 * θ) * Real.sin (1 / 2 * θ)) (Real.sin θ) d d1)
    (p : Nat) (hp1 : 1 ≤ p) (hp2 : 4 * (p + 1) ≤ 2 * N) :
    cplx d1 p
        = (cplx d p + (starRingEnd ℂ) (cplx d (N - p))) / 2
          + Complex.exp ((θ : ℂ) * Complex.I) ^ p
            * (-Complex.I / 2 * (cplx d p - (starRingEnd ℂ) (cplx d (N - p)))) ∧
    cplx d1 (N - p)
        = (starRingEnd ℂ) ((cplx d p + (starRingEnd ℂ) (cplx d (N - p))) / 2
          - Complex.exp ((θ : ℂ) * Complex.I) ^ p
            * (-Complex.I / 2 * (cplx d p - (starRingEnd ℂ) (cplx d (N - p))))) := by
  obtain ⟨h1, h2, h3, h4⟩ := h.2.2.2.2 p hp1 hp2
  rw [twiddle_real] at h1 h2 h3 h4
  simp only at h1 h2 h3 h4
  have e1 : 2 * (N - p) + 1 = 2 * N + 1 - 2 * p := by omega
  have e2 : 2 * (N - p) + 2 = 2 * N + 2 - 2 * p := by omega
  rw [← cis_pow]
  constructor
  · apply Complex.ext
    · simp only [cplx, e1, e2, Complex.add_re, Complex.mul_re, Complex.div_ofNat_re,
        Complex.div_ofNat_im, Complex.conj_re, Complex.conj_im, Complex.sub_re, Complex.sub_im,
        Complex.neg_re, Complex.neg_im, Complex.I_re, Complex.I_im, Complex.add_im,
        Complex.mul_im]
      rw [h1]
      ring
    · simp only [cplx, e1, e2, Complex.add_re, Complex.mul_re, Complex.div_ofNat_re,
        Complex.div_ofNat_im, Complex.conj_re, Complex.conj_im, Complex.sub_re, Complex.sub_im,
        Complex.neg_re, Complex.neg_im, Complex.I_re, Complex.I_im, Complex.add_im,
        Complex.mul_im]
      rw [h2]
      ring
  · apply Complex.ext
    · simp only [cplx, e1, e2, Complex.add_re, Complex.mul_re, Complex.div_ofNat_re,
        Complex.div_ofNat_im, Complex.conj_re, Complex.conj_im, Complex.sub_re, Complex.sub_im,
        Complex.neg_re, Complex.neg_im, Complex.I_re, Complex.I_im, Complex.add_im,
        Complex.mul_im]
      rw [h3]
      ring
    · simp only [cplx, e1, e2, Complex.add_re, Complex.mul_re, Complex.div_ofNat_re,
        Complex.div_ofNat_im, Complex.conj_re, Complex.conj_im, Complex.sub_re, Complex.sub_im,
        Complex.neg_re, Complex.neg_im, Complex.I_re, Complex.I_im, Complex.add_im,
        Complex.mul_im]
      rw [h4]
      ring

theorem halfRoot_conj (θ : ℝ) :
    (starRingEnd ℂ) (Complex.exp ((θ : ℂ) * Complex.I)) * Complex.exp ((θ : ℂ) * Complex.I)
      = 1 := by
  rw [← Complex.exp_conj, ← Complex.exp_add, map_mul, Complex.conj_ofReal, Complex.conj_I]
  simp

theorem halfRoot_pow (N : Nat) (hN : 0 < N) :
    Complex.exp (((Real.pi / (N : ℝ) : ℝ) : ℂ) * Complex.I) ^ N = -1 := by
  rw [← Complex.exp_nat_mul]
  have hN0 : (N : ℂ) ≠ 0 := by exact_mod_cast hN.ne'
  have e : (N : ℂ) * (((Real.pi / (N : ℝ) : ℝ) : ℂ) * Complex.I) = Real.pi * Complex.I := by
    push_cast
    field_simp
  rw [e, Complex.exp_pi_mul_I]

theorem halfRoot_sq (N : Nat) :
    Complex.exp (((Real.pi / (N : ℝ) : ℝ) : ℂ) * Complex.I) ^ 2
      = Complex.exp (((((1 : Int) : ℝ) * (2 * Real.pi / (N : ℝ)) : ℝ) : ℂ) * Complex.I) := by
  rw [← Complex.exp_nat_mul]
  congr 1
  push_cast
  ring

theorem halfRoot_quarter (K : Nat) (hK : 0 < K) :
    Complex.exp (((Real.pi / ((2 * K : Nat) : ℝ) : ℝ) : ℂ) * Complex.I) ^ K = Complex.I := by
  rw [← Complex.exp_nat_mul]
  have hK0 : (K : ℂ) ≠ 0 := by exact_mod_cast hK.ne'
  have e : (K : ℂ) * (((Real.pi / ((2 * K : Nat) : ℝ) : ℝ) : ℂ) * Complex.I)
      = ((Real.pi / 2 : ℝ) : ℂ) * Complex.I := by
    push_cast
    field_simp
    ring
  rw [e, Complex.exp_mul_I, ← Complex.ofReal_cos, ← Complex.ofReal_sin, Real.cos_pi_div_two,
    Real.sin_pi_div_two]
  simp

end RealftDft

section FasperReturns

variable {α : Type} [LinearOrderedField α] [FloorRing α]

/-! ## `fasper`: termination -/

/-- For a positive modulus `MOD` returns, with a result below the modulus that
differs from the argument by a multiple of the modulus. -/
theorem MOD_spec (a b : α) (hb : 0 < b) :
    ∃ r, MOD a b = some r ∧ r < b ∧ (0 ≤ a → 0 ≤ r) ∧ ∃ q : Nat, a = r + (q : α) * b := by
  obtain ⟨r, hr, hI, hc⟩ := whileFuel_spec (fun a1 : α => a1 ≥ b) (fun a1 => some (a1 - b))
    (fun a1 => (0 ≤ a → 0 ≤ a1) ∧ ∃ q : Nat, a = a1 + (q : α) * b)
    (fun a1 => ⌊a1 / b⌋.toNat)
    (by
      intro a1 ⟨h0, q, hq⟩ hge
      refine ⟨a1 - b, rfl, ⟨fun ha => ?_, q + 1, ?_⟩, ?_⟩
      · have : b ≤ a1 := hge
        linarith
      · rw [hq]; push_cast; ring
      · have h1 : (a1 - b) / b = a1 / b - 1 := by
          field_simp
        have h2 : (1 : α) ≤ a1 / b := by
          rw [le_div_iff₀ hb]
          simpa using hge
        have h3 : 1 ≤ ⌊a1 / b⌋ := by
          rw [Int.le_floor]
          simpa using h2
        show ⌊(a1 - b) / b⌋.toNat < ⌊a1 / b⌋.toNat
        rw [h1, Int.floor_sub_one]
        omega)
    (⌊a / b⌋.toNat + 1) a ⟨fun h => h, 0, by simp⟩ (Nat.le_succ _)
  exact ⟨r, hr, lt_of_not_ge hc, hI.1, hI.2⟩

theorem spread_MACC_returned (y : α) (yy : Cells α) (n : Nat) (x : α) :
    ∃ r, spread y yy n x (MACC : Int) = .returned r := by
  unfold spread
  rw [if_neg (by simp [MACC])]
  simp only
  split_ifs
  · exact ⟨_, rfl⟩
  · exact ⟨_, rfl⟩

theorem fasperSpreadStep_returned (x y : Nat → α) (ave xmin fac fndim : α) (ndim j : Nat)
    (s : Cells α × Cells α) (hf : 0 < fndim) :
    ∃ w, fasperSpreadStep x y ave xmin fac fndim ndim j s = some (.returned w) := by
  obtain ⟨ck, hck, _⟩ := MOD_spec ((x j - xmin) * fac) fndim hf
  obtain ⟨ckk, hckk, _⟩ := MOD_spec (2 * ck) fndim hf
  obtain ⟨w1, hw1⟩ := spread_MACC_returned (y j - ave) s.1 ndim (ck + 1)
  obtain ⟨w2, hw2⟩ := spread_MACC_returned (1 : α) s.2 ndim (ckk + 1)
  exact ⟨(w1, w2), by simp only [fasperSpreadStep, hck, hckk, hw1, hw2]⟩

theorem loopFromX_returned {σ : Type} (lo : Nat) (body : Nat → σ → Option (Outcome σ))
    (hbody : ∀ j s, ∃ s1, body j s = some (.returned s1)) (s : σ) (k : Nat) :
    ∃ s1, loopFromX lo body s k = some (.returned s1) := by
  induction k with
  | zero => exact ⟨s, rfl⟩
  | succ k ih =>
    obtain ⟨s1, h1⟩ := ih
    obtain ⟨s2, h2⟩ := hbody (lo + k) s1
    exact ⟨s2, by simp only [loopFromX, h1, h2]⟩

omit [FloorRing α] in
theorem realft_returns (M : MathEnv α) (d : Cells α) (e : Nat) :
    ∃ out, realft M d (2 * 2 ^ e) 1 = some out := by
  have hsh : (2 * 2 ^ e) >>> 1 = 2 ^ e := by
    rw [Nat.shiftRight_eq_div_pow]; simp
  obtain ⟨_, _, _, _, hfour⟩ := four1_eq M e 1 d
  obtain ⟨out, hout, _⟩ := realft_forward M d _ (2 * 2 ^ e) (by rw [hsh]; exact hfour)
  exact ⟨out, hout⟩

/-- The workspace check of `fasper`: the exit taken when `ndim > nwk`. -/
theorem fasper_exit (M : MathEnv α) (x y : Nat → α) (n : Nat) (ofac hifac : α) (nwk : Nat)
    (s : FasperState α) (ndim : Nat) (hnd : fasperNdim n ofac hifac = some ndim)
    (h : nwk < ndim) :
    fasper M x y n ofac hifac nwk s
      = some (.exited 1 "workspaces too small" { s with nout := fasperNout n ofac hifac }) := by
  simp only [fasper, hnd, gt_iff_lt, h, if_true]

/-- Past the workspace check `fasper` returns, on any grid length `2*2^e`. -/
theorem fasper_returns (M : MathEnv α) (x y : Nat → α) (n : Nat) (ofac hifac : α) (nwk : Nat)
    (s : FasperState α) (e : Nat) (hnd : fasperNdim n ofac hifac = some (2 * 2 ^ e))
    (h : 2 * 2 ^ e ≤ nwk) :
    ∃ r, fasper M x y n ofac hifac nwk s = some (.returned r) ∧
      r.nout = fasperNout n ofac hifac ∧ r.pwr = (avevar y n).2 := by
  have hpos : (0 : α) < ((2 * 2 ^ e : Nat) : α) := by
    have : 0 < 2 * 2 ^ e := by positivity
    exact_mod_cast this
  obtain ⟨w, hw⟩ := loopFromX_returned 1
    (fasperSpreadStep x y (avevar y n).1 (fasperRange x n).1
      (((2 * 2 ^ e : Nat) : α) / (((fasperRange x n).2 - (fasperRange x n).1) * ofac))
      ((2 * 2 ^ e : Nat) : α) (2 * 2 ^ e))
    (fun j s1 => fasperSpreadStep_returned _ _ _ _ _ _ _ _ _ hpos)
    (fasperZero (2 * 2 ^ e) s.wk1 s.wk2) n
  obtain ⟨o1, ho1⟩ := realft_returns M w.1 e
  obtain ⟨o2, ho2⟩ := realft_returns M w.2 e
  simp only [fasper, hnd, gt_iff_lt, not_lt.mpr h, if_false, hw, ho1, ho2]
  exact ⟨_, rfl, rfl, rfl⟩

end FasperReturns

section AvevarProofs

variable {α : Type} [LinearOrderedField α]

theorem forLoop_one (σ : Type) (n : Nat) (body : Nat → σ → σ) (s : σ) :
    forLoop 1 n body s = loopFrom 1 body s n := by
  simp [forLoop]

theorem loopFrom_sum (f : Nat → α) (k : Nat) :
    loopFrom 1 (fun j a => a + f j) 0 k = ∑ j in Finset.Icc 1 k, f j := by
  induction k with
  | zero => simp [loopFrom]
  | succ k ih =>
    have h : Finset.Icc 1 (k + 1) = insert (k + 1) (Finset.Icc 1 k) := by
      ext a; simp only [Finset.mem_Icc, Finset.mem_insert]; omega
    rw [loopFrom, ih, h, Finset.sum_insert (by simp)]
    rw [add_comm 1 k, add_comm]

theorem loopFrom_pass2 (f : Nat → α) (k : Nat) :
    loopFrom 1 (fun j (st : α × α) => (st.1 + f j * f j, st.2 + f j)) (0, 0) k
      = (∑ j in Finset.Icc 1 k, f j * f j, ∑ j in Finset.Icc 1 k, f j) := by
  induction k with
  | zero => simp [loopFrom]
  | succ k ih =>
    have h : Finset.Icc 1 (k + 1) = insert (k + 1) (Finset.Icc 1 k) := by
      ext a; simp only [Finset.mem_Icc, Finset.mem_insert]; omega
    rw [loopFrom, ih, h, Finset.sum_insert (by simp), Finset.sum_insert (by simp)]
    simp only [add_comm 1 k]
    rw [add_comm (f (k + 1) * f (k + 1)), add_comm (f (k + 1))]

theorem avevarMean_eq (data : Nat → α) (n : Nat) :
    avevarMean data n = (∑ j in Finset.Icc 1 n, data j) / (n : α) := by
  rw [avevarMean, forLoop_one, loopFrom_sum]

theorem avevarPass2_eq (data : Nat → α) (n : Nat) (ave : α) :
    avevarPass2 data n ave
      = (∑ j in Finset.Icc 1 n, (data j - ave) * (data j - ave),
         ∑ j in Finset.Icc 1 n, (data j - ave)) := by
  rw [avevarPass2, forLoop_one]
  exact loopFrom_pass2 (fun j => data j - ave) n

theorem avevar_ep_zero (data : Nat → α) (n : Nat) (hn : 1 ≤ n) :
    (avevarPass2 data n (avevarMean data n)).2 = 0 := by
  rw [avevarPass2_eq, avevarMean_eq]
  simp only [Finset.sum_sub_distrib, Finset.sum_const, Nat.card_Icc, add_tsub_cancel_right,
    nsmul_eq_mul]
  have : (n : α) ≠ 0 := by exact_mod_cast (by omega : n ≠ 0)
  field_simp

theorem ulong_pred (n : Nat) (h1 : 1 ≤ n) (h2 : n < 2 ^ 64) :
    (n + 2 ^ 64 - 1) % 2 ^ 64 = n - 1 := by
  omega

theorem avevar_var_eq (data : Nat → α) (n : Nat) (hn : 2 ≤ n) (hw : n < 2 ^ 64) :
    (avevar data n).2
      = (∑ j in Finset.Icc 1 n, (data j - avevarMean data n) ^ 2) / ((n : α) - 1) := by
  have hep := avevar_ep_zero data n (by omega)
  simp only [avevar]
  rw [hep, ulong_pred n (by omega) hw, avevarPass2_eq]
  have : ((n - 1 : Nat) : α) = (n : α) - 1 := by
    rw [Nat.cast_sub (by omega)]; simp
  rw [this]
  simp [pow_two]

theorem avevar_var_zero_iff (data : Nat → α) (n : Nat) (hn : 2 ≤ n) (hw : n < 2 ^ 64) :
    (avevar data n).2 = 0 ↔
      ∀ i ∈ Finset.Icc 1 n, ∀ j ∈ Finset.Icc 1 n, data i = data j := by
  have hn1 : (0 : α) < (n : α) - 1 := by
    have : (2 : α) ≤ (n : α) := by exact_mod_cast hn
    linarith
  have hn0 : (n : α) ≠ 0 := by
    have : (2 : α) ≤ (n : α) := by exact_mod_cast hn
    linarith
  rw [avevar_var_eq data n hn hw, div_eq_zero_iff]
  constructor
  · intro h
    rcases h with h | h
    · rw [Finset.sum_eq_zero_iff_of_nonneg (fun j _ => sq_nonneg _)] at h
      intro i hi j hj
      have h1 := h i hi
      have h2 := h j hj
      rw [sq_eq_zero_iff, sub_eq_zero] at h1 h2
      rw [h1, h2]
    · exact absurd h hn1.ne'
  · intro h
    left
    have hone : (1 : Nat) ∈ Finset.Icc 1 n := by simp; omega
    have hm : avevarMean data n = data 1 := by
      rw [avevarMean_eq, Finset.sum_congr rfl (fun j hj => h j hj 1 hone)]
      simp only [Finset.sum_const, Nat.card_Icc, add_tsub_cancel_right, nsmul_eq_mul]
      field_simp
    apply Finset.sum_eq_zero
    intro j hj
    rw [hm, h j hj 1 hone]
    simp

end AvevarProofs

/-- C1: over exact arithmetic, for `n ≥ 2` samples `data[1..n]` (`n` an
`unsigned long`), `avevar` returns the mean `(Σ data[j]) / n` and the unbiased
sample variance `(Σ (data[j] - ave)^2) / (n - 1)`; the compensation term
`ep*ep/n` it subtracts is zero, the variance is non-negative, and it is zero
exactly when all values are identical. -/
theorem avevar_sample_variance {α : Type} [LinearOrderedField α]
    (data : Nat → α) (n : Nat) (hn : 2 ≤ n) (hw : n < 2 ^ 64) :
    (avevar data n).1 = (∑ j in Finset.Icc 1 n, data j) / (n : α) ∧
    (avevar data n).2
      = (∑ j in Finset.Icc 1 n, (data j - (avevar data n).1) ^ 2) / ((n : α) - 1) ∧
    (avevarPass2 data n (avevar data n).1).2 * (avevarPass2 data n (avevar data n).1).2
      / (n : α) = 0 ∧
    0 ≤ (avevar data n).2 ∧
    ((avevar data n).2 = 0 ↔
      ∀ i ∈ Finset.Icc 1 n, ∀ j ∈ Finset.Icc 1 n, data i = data j) := by
  have hmean : (avevar data n).1 = avevarMean data n := rfl
  have hn1 : (0 : α) < (n : α) - 1 := by
    have : (2 : α) ≤ (n : α) := by exact_mod_cast hn
    linarith
  have hvar := avevar_var_eq data n hn hw
  have hep := avevar_ep_zero data n (by omega : 1 ≤ n)
  refine ⟨?_, ?_, ?_, ?_, ?_⟩
  · rw [hmean, avevarMean_eq]
  · rw [hmean, hvar]
  · rw [hmean, hep]; simp
  · rw [hvar]
    exact div_nonneg (Finset.sum_nonneg (fun j _ => sq_nonneg _)) hn1.le
  · exact avevar_var_zero_iff data n hn hw

/-- Witness for C1 on the series `1, 2, 4` over the rationals. -/
theorem avevar_sample_variance_witness :
    (avevar (fun j => if j = 1 then (1 : ℚ) else if j = 2 then 2 else 4) 3).1
      = (∑ j in Finset.Icc 1 3, (fun j => if j = 1 then (1 : ℚ) else if j = 2 then 2 else 4) j)
          / ((3 : Nat) : ℚ) :=
  (avevar_sample_variance (fun j => if j = 1 then (1 : ℚ) else if j = 2 then 2 else 4) 3
    (by decide) (by norm_num)).1

section SpreadProofs

variable {α : Type} [LinearOrderedField α]

theorem trunc_intCast [FloorRing α] (z : Int) : trunc ((z : α)) = z := by
  unfold trunc
  split <;> simp

theorem spread_integer [FloorRing α] (y : α) (yy : Cells α) (n : Nat) (m : Int) (ix : Int) (hm : m ≤ 10) :
    spread y yy n (ix : α) m
      = .returned (yy.set ix.toNat (yy.get ix.toNat + y)) := by
  unfold spread
  rw [if_neg (by omega)]
  simp only [trunc_intCast, if_true]

theorem spreadFac_eq (x : α) (ilo : Int) (k : Nat) :
    spreadFac x ilo k = ∏ i in Finset.range (k + 1), (x - ((ilo + (i : Int) : Int) : α)) := by
  induction k with
  | zero => simp [spreadFac]
  | succ k ih =>
    rw [spreadFac, ih, Finset.prod_range_succ _ (k + 1)]
    congr 2
    push_cast
    ring

/-- The denominators of the descending loop depend on the window length only. -/
theorem spreadDown_nden (y x fac : α) (ilo ihi : Int) (nden0 : Int) (yy0 : Cells α) (D : Nat)
    (hD : ihi - ilo = (D : Int)) (hn : nden0 = (D.factorial : Int)) (k : Nat) (hk : k ≤ D) :
    (spreadDown y x fac ilo ihi nden0 yy0 k).1
      = ((D - k).factorial : Int) * ((-1) ^ k * (k.factorial : Int)) := by
  induction k with
  | zero => simp [spreadDown, hn]
  | succ k ih =>
    have ih := ih (by omega)
    simp only [spreadDown]
    rw [ih]
    have h1 : ihi - 1 - (k : Int) + 1 - ilo = ((D - k : Nat) : Int) := by omega
    have h2 : ihi - 1 - (k : Int) - ihi = -((k : Int) + 1) := by ring
    rw [h1, h2]
    obtain ⟨e, he⟩ : ∃ e, D - k = e + 1 := ⟨D - k - 1, by omega⟩
    have he' : D - (k + 1) = e := by omega
    rw [he, he', Nat.factorial_succ, Nat.factorial_succ]
    push_cast
    rw [mul_assoc ((e : Int) + 1), Int.mul_tdiv_cancel_left _ (by positivity)]
    ring

/-- Exactness of every integer division of the descending loop. -/
theorem spreadDown_dvd (y x fac : α) (ilo ihi : Int) (nden0 : Int) (yy0 : Cells α) (D : Nat)
    (hD : ihi - ilo = (D : Int)) (hn : nden0 = (D.factorial : Int)) (k : Nat) (hk : k + 1 ≤ D) :
    (ihi - 1 - (k : Int) + 1 - ilo) ∣ (spreadDown y x fac ilo ihi nden0 yy0 k).1 := by
  rw [spreadDown_nden y x fac ilo ihi nden0 yy0 D hD hn k (by omega)]
  have h1 : ihi - 1 - (k : Int) + 1 - ilo = ((D - k : Nat) : Int) := by omega
  rw [h1]
  apply Dvd.dvd.mul_right
  exact_mod_cast Nat.dvd_factorial (by omega) le_rfl

theorem prod_erase_range_sub (u D : Nat) (hu : u ≤ D) :
    ∏ i in (Finset.range (D + 1)).erase u, ((u : Int) - (i : Int))
      = (u.factorial : Int) * ((-1) ^ (D - u) * ((D - u).factorial : Int)) := by
  induction D with
  | zero =>
    have : u = 0 := by omega
    subst this
    simp
  | succ D ih =>
    rcases Nat.eq_or_lt_of_le hu with h | h
    · subst h
      rw [Finset.range_succ, Finset.erase_insert (by simp)]
      simp only [Nat.sub_self, pow_zero, Nat.factorial_zero, Nat.cast_one, mul_one]
      rw [← Finset.prod_range_reflect, ← Finset.prod_range_add_one_eq_factorial]
      push_cast
      apply Finset.prod_congr rfl
      intro i hi
      rw [Finset.mem_range] at hi
      omega
    · have hu' : u ≤ D := by omega
      have hs : (Finset.range (D + 1 + 1)).erase u
          = insert (D + 1) ((Finset.range (D + 1)).erase u) := by
        ext a
        simp only [Finset.mem_erase, Finset.mem_range, Finset.mem_insert]
        omega
      rw [hs, Finset.prod_insert (by simp), ih hu']
      have e1 : D + 1 - u = (D - u) + 1 := by omega
      rw [e1, Nat.factorial_succ, pow_succ]
      have e2 : ((D - u : Nat) : Int) = (D : Int) - (u : Int) := by omega
      push_cast
      rw [e2]
      ring

theorem Icc_eq_image (ilo ihi : Int) (D : Nat) (hD : ihi - ilo = (D : Int)) :
    Finset.Icc ilo ihi = (Finset.range (D + 1)).image (fun i : Nat => ilo + (i : Int)) := by
  ext a
  simp only [Finset.mem_Icc, Finset.mem_image, Finset.mem_range]
  constructor
  · intro h
    exact ⟨(a - ilo).toNat, by omega, by omega⟩
  · rintro ⟨i, hi, rfl⟩
    omega

theorem Icc_erase_eq_image (ilo ihi : Int) (D u : Nat) (hD : ihi - ilo = (D : Int)) :
    (Finset.Icc ilo ihi).erase (ilo + (u : Int))
      = ((Finset.range (D + 1)).erase u).image (fun i : Nat => ilo + (i : Int)) := by
  ext a
  simp only [Finset.mem_Icc, Finset.mem_image, Finset.mem_range, Finset.mem_erase]
  constructor
  · intro h
    exact ⟨(a - ilo).toNat, ⟨by omega, by omega⟩, by omega⟩
  · rintro ⟨i, hi, rfl⟩
    omega

/-- The denominator reached after `k` iterations is the Lagrange denominator of
the grid point `ihi - k`. -/
theorem spreadDown_nden_prod (y x fac : α) (ilo ihi : Int) (nden0 : Int) (yy0 : Cells α)
    (D : Nat) (hD : ihi - ilo = (D : Int)) (hn : nden0 = (D.factorial : Int)) (k : Nat)
    (hk : k ≤ D) :
    (spreadDown y x fac ilo ihi nden0 yy0 k).1
      = ∏ i in (Finset.Icc ilo ihi).erase (ihi - (k : Int)), ((ihi - (k : Int)) - i) := by
  rw [spreadDown_nden y x fac ilo ihi nden0 yy0 D hD hn k hk]
  have hj : ihi - (k : Int) = ilo + ((D - k : Nat) : Int) := by omega
  rw [hj, Icc_erase_eq_image ilo ihi D (D - k) hD,
    Finset.prod_image (by intro a _ b _ h; simpa using h)]
  have := prod_erase_range_sub (D - k) D (by omega)
  have e : D - (D - k) = k := by omega
  rw [e] at this
  rw [← this]
  apply Finset.prod_congr rfl
  intro i _
  ring

end SpreadProofs

section SpreadProofs2

variable {α : Type} [LinearOrderedField α]

/-- Cells that no iteration addresses keep their value. -/
theorem spreadDown_frame (y x fac : α) (ilo ihi : Int) (nden0 : Int) (yy0 : Cells α)
    (k : Nat) (c : Nat) (hc : ∀ t : Nat, t < k → c ≠ (ihi - 1 - (t : Int)).toNat) :
    (spreadDown y x fac ilo ihi nden0 yy0 k).2.get c = yy0.get c := by
  induction k with
  | zero => rfl
  | succ k ih =>
    simp only [spreadDown, Cells.get_set]
    rw [if_neg (hc k (by omega))]
    exact ih (fun t ht => hc t (by omega))

/-- Value left in the cell written by iteration `t`. -/
theorem spreadDown_cell (y x fac : α) (ilo ihi : Int) (nden0 : Int) (yy0 : Cells α)
    (k : Nat) (hk : (k : Int) ≤ ihi) (t : Nat) (ht : t < k) :
    (spreadDown y x fac ilo ihi nden0 yy0 k).2.get (ihi - 1 - (t : Int)).toNat
      = yy0.get (ihi - 1 - (t : Int)).toNat
        + y * fac / (((spreadDown y x fac ilo ihi nden0 yy0 (t + 1)).1 : α)
            * (x - ((ihi - 1 - (t : Int) : Int) : α))) := by
  induction k with
  | zero => omega
  | succ k ih =>
    rcases Nat.eq_or_lt_of_le (Nat.lt_succ_iff.mp ht) with h | h
    · subst h
      simp only [spreadDown, Cells.get_set, if_true]
      rw [spreadDown_frame y x fac ilo ihi nden0 yy0 t _ (fun s hs => by omega)]
    · have hne : (ihi - 1 - (t : Int)).toNat ≠ (ihi - 1 - (k : Int)).toNat := by omega
      have := ih (by omega) h
      rw [← this]
      simp only [spreadDown, Cells.get_set]
      rw [if_neg hne]

theorem nfac_eq_factorial (m : Int) (hm1 : 1 ≤ m) (hm10 : m ≤ 10) :
    nfac m = (((m - 1).toNat.factorial : Nat) : Int) := by
  interval_cases m <;> rfl

/-- The weight `fac/(nden*(x-j))` is the Lagrange basis polynomial at `x`. -/
theorem lagrange_weight (x : α) (ilo ihi j : Int) (D : Nat) (hD : ihi - ilo = (D : Int))
    (hj1 : ilo ≤ j) (hj2 : j ≤ ihi) (hx : ∀ z : Int, x ≠ (z : α)) :
    spreadFac x ilo D
        / (((∏ i in (Finset.Icc ilo ihi).erase j, (j - i) : Int) : α) * (x - (j : α)))
      = ∏ i in (Finset.Icc ilo ihi).erase j, (x - (i : α)) / ((j : α) - (i : α)) := by
  have hfac : spreadFac x ilo D = ∏ i in Finset.Icc ilo ihi, (x - (i : α)) := by
    rw [spreadFac_eq, Icc_eq_image ilo ihi D hD,
      Finset.prod_image (by intro a _ b _ h; simpa using h)]
  have hmem : j ∈ Finset.Icc ilo ihi := Finset.mem_Icc.mpr ⟨hj1, hj2⟩
  rw [hfac, ← Finset.mul_prod_erase _ _ hmem, Finset.prod_div_distrib]
  have hxj : x - (j : α) ≠ 0 := sub_ne_zero.mpr (hx j)
  push_cast
  rw [mul_comm (x - (j : α)), mul_div_mul_right _ _ hxj]

theorem spreadIlo_bounds [FloorRing α] (n : Nat) (x : α) (m : Int) (hnm : m ≤ (n : Int)) :
    1 ≤ spreadIlo n x m ∧ spreadIlo n x m + m - 1 ≤ (n : Int) := by
  unfold spreadIlo LMIN LMAX
  split_ifs <;> omega

end SpreadProofs2

/-- C2: for every grid `yy`, weight `y`, `m ≤ 10` and coordinate `x` that is
exactly an integer `ix` with `1 ≤ ix ≤ n`, `spread(y, yy, n, x, m)` returns,
having added `y` to `yy[ix]` and left every other cell at its prior value. -/
theorem spread_integer_no_smearing {α : Type} [LinearOrderedField α] [FloorRing α]
    (y : α) (yy : Cells α) (n : Nat) (m : Int) (x : α) (ix : Nat)
    (hm : m ≤ 10) (hx : x = (ix : α)) (_h1 : 1 ≤ ix) (_hn : ix ≤ n) :
    ∃ yy2 : Cells α, spread y yy n x m = .returned yy2 ∧
      yy2.get ix = yy.get ix + y ∧ ∀ c : Nat, c ≠ ix → yy2.get c = yy.get c := by
  have hx2 : x = (((ix : Int) : Int) : α) := by rw [hx]; simp
  refine ⟨_, by rw [hx2]; exact spread_integer y yy n m (ix : Int) hm, ?_, ?_⟩
  · simp
  · intro c hc
    simp only [Int.toNat_ofNat, Cells.get_set]
    rw [if_neg hc]

/-- Witness for C2: a unit weight spread at `x = 3` on a zero grid of length 8. -/
theorem spread_integer_no_smearing_witness :
    ∃ yy2 : Cells ℚ, spread (1 : ℚ) ⟨fun _ => 0⟩ 8 3 4 = .returned yy2 ∧
      yy2.get 3 = (Cells.mk (fun _ => (0 : ℚ))).get 3 + 1 ∧
      ∀ c : Nat, c ≠ 3 → yy2.get c = (Cells.mk (fun _ => (0 : ℚ))).get c :=
  spread_integer_no_smearing (1 : ℚ) ⟨fun _ => 0⟩ 8 4 3 3 (by decide) (by norm_num)
    (by decide) (by decide)

/-- C3: over exact arithmetic, for a non-integer coordinate `x`, `1 ≤ m ≤ 10`
and `n ≥ m`, `spread` returns, having added to each cell `j` of the window
`ilo..ihi` (`ihi = ilo + m - 1`) exactly `y * L_j(x)` with `L_j` the Lagrange
basis polynomial on the window's grid points; the integer recurrence on `nden`
starts from `nfac[m] = (m-1)!`, reaches after `t` iterations the denominator
`∏ k ≠ j, (j - k)` of the cell `j = ihi - t`, and each of its divisions is
exact. -/
theorem spread_lagrange_weights {α : Type} [LinearOrderedField α] [FloorRing α]
    (y x : α) (yy : Cells α) (n : Nat) (m : Int)
    (hm1 : 1 ≤ m) (hm10 : m ≤ 10) (hnm : m ≤ (n : Int)) (hx : ∀ z : Int, x ≠ (z : α)) :
    (∃ yy2 : Cells α, spread y yy n x m = .returned yy2 ∧
      ∀ j : Int, spreadIlo n x m ≤ j → j ≤ spreadIlo n x m + m - 1 →
        yy2.get j.toNat = yy.get j.toNat + y *
          ∏ k in (Finset.Icc (spreadIlo n x m) (spreadIlo n x m + m - 1)).erase j,
            (x - (k : α)) / ((j : α) - (k : α))) ∧
    nfac m = (((m - 1).toNat.factorial : Nat) : Int) ∧
    (∀ (fac : α) (yy0 : Cells α) (t : Nat), (t : Int) < m →
      (spreadDown y x fac (spreadIlo n x m) (spreadIlo n x m + m - 1) (nfac m) yy0 t).1
        = ∏ k in (Finset.Icc (spreadIlo n x m) (spreadIlo n x m + m - 1)).erase
              (spreadIlo n x m + m - 1 - (t : Int)),
            ((spreadIlo n x m + m - 1 - (t : Int)) - k)) ∧
    (∀ (fac : α) (yy0 : Cells α) (t : Nat), (t : Int) + 1 < m →
      ((spreadIlo n x m + m - 1) - 1 - (t : Int) + 1 - spreadIlo n x m) ∣
        (spreadDown y x fac (spreadIlo n x m) (spreadIlo n x m + m - 1) (nfac m) yy0 t).1) := by
  obtain ⟨hlo, hhi⟩ := spreadIlo_bounds n x m hnm
  generalize hilo : spreadIlo n x m = ilo at hlo hhi ⊢
  generalize hihi : ilo + m - 1 = ihi at hhi ⊢
  obtain ⟨D, hD⟩ : ∃ D : Nat, ihi - ilo = (D : Int) := ⟨(ihi - ilo).toNat, by omega⟩
  have hDm : (m - 1).toNat = D := by omega
  have hnf : nfac m = ((D.factorial : Nat) : Int) := by
    rw [nfac_eq_factorial m hm1 hm10, hDm]
  refine ⟨?_, by rw [hnf, hDm], ?_, ?_⟩
  · have hsp : spread y yy n x m = .returned
        (spreadDown y x (spreadFac x ilo D) ilo ihi (nfac m)
          (yy.set ihi.toNat (yy.get ihi.toNat
            + y * spreadFac x ilo D / ((nfac m : α) * (x - (ihi : α))))) D).2 := by
      unfold spread
      rw [if_neg (by omega), if_neg (hx _)]
      simp only [hilo, hihi]
      have : (ihi - ilo).toNat = D := by omega
      rw [this]
    refine ⟨_, hsp, ?_⟩
    intro j hj1 hj2
    have hw := lagrange_weight x ilo ihi j D hD hj1 hj2 hx
    rw [← hw]
    rcases eq_or_lt_of_le hj2 with h | h
    · subst h
      rw [spreadDown_frame _ _ _ _ _ _ _ _ _ (fun t _ => by omega), Cells.get_set, if_pos rfl]
      have h0 := spreadDown_nden_prod y x (0 : α) ilo j (nfac m) yy D hD hnf 0 (by omega)
      simp only [spreadDown, Nat.cast_zero, sub_zero] at h0
      rw [← h0, mul_div_assoc]
    · obtain ⟨t, ht⟩ : ∃ t : Nat, j = ihi - 1 - (t : Int) := ⟨(ihi - 1 - j).toNat, by omega⟩
      have htD : t < D := by omega
      rw [ht, spreadDown_cell _ _ _ _ _ _ _ D (by omega) t htD,
        Cells.get_set, if_neg (by omega)]
      have h0 := spreadDown_nden_prod y x (spreadFac x ilo D) ilo ihi (nfac m)
        (yy.set ihi.toNat (yy.get ihi.toNat
            + y * spreadFac x ilo D / ((nfac m : α) * (x - (ihi : α))))) D hD hnf (t + 1)
        (by omega)
      have e : ihi - ((t + 1 : Nat) : Int) = ihi - 1 - (t : Int) := by push_cast; ring
      rw [e] at h0
      rw [← h0, mul_div_assoc]
  · intro fac yy0 t ht
    exact spreadDown_nden_prod y x fac ilo ihi (nfac m) yy0 D hD hnf t (by omega)
  · intro fac yy0 t ht
    exact spreadDown_dvd y x fac ilo ihi (nfac m) yy0 D hD hnf t (by omega)

/-- Witness for C3: `x = 7/2` on a grid of length 10 with `m = 4`. -/
theorem spread_lagrange_weights_witness :
    nfac 4 = ((((4 : Int) - 1).toNat.factorial : Nat) : Int) :=
  (spread_lagrange_weights (1 : ℚ) (7 / 2) ⟨fun _ => 0⟩ 10 4 (by decide) (by decide)
    (by decide) (by
      intro z h
      have h2 : ((7 : Int) : ℚ) = (((2 * z : Int)) : ℚ) := by push_cast; linarith
      have h3 : (7 : Int) = 2 * z := by exact_mod_cast h2
      omega)).2.1

/-- C4: over exact arithmetic (the angle literal taken as `2π`), for `nn` a
power of two, `isign ∈ {+1, -1}` and an interleaved array holding the complex
values `z_0 … z_{nn-1}` in cells `1 … 2*nn`, `four1(data, nn, isign)` returns
and leaves in place the discrete Fourier transform: element `k` is
`Σ_j z_j * exp(isign * 2πi * j * k / nn)` for every `k < nn`. -/
theorem four1_computes_dft (M : MathEnv ℝ) (hM : M.Exact) (nn : Nat)
    (hnn : ∃ L : Nat, nn = 2 ^ L) (isign : Int) (hs : isign = 1 ∨ isign = -1)
    (data : Cells ℝ) :
    ∃ out : Cells ℝ, four1 M data nn isign = some out ∧
      ∀ k : Nat, k < nn →
        (⟨out.get (2 * k + 1), out.get (2 * k + 2)⟩ : ℂ)
          = ∑ j in Finset.range nn,
              (⟨data.get (2 * j + 1), data.get (2 * j + 2)⟩ : ℂ)
                * Complex.exp ((isign : ℂ) * (2 * (Real.pi : ℂ) * Complex.I)
                    * (j : ℂ) * (k : ℂ) / (nn : ℂ)) := by
  obtain ⟨L, rfl⟩ := hnn
  obtain ⟨out, hout, _, _, hdft⟩ := four1_dft_aux M hM L isign hs data
  refine ⟨out, hout, ?_⟩
  intro k hk
  have := hdft k hk
  simp only [cplx] at this
  rw [this]
  apply Finset.sum_congr rfl
  intro j _
  rw [← Complex.exp_nat_mul]
  congr 2
  push_cast
  ring

/-- Witness for C4: a transform of length 2 with the exact real library. -/
theorem four1_computes_dft_witness :
    ∃ out : Cells ℝ,
      four1 ⟨Real.sin, Real.sqrt, Real.exp, fun a b => a ^ b, Real.pi, 2 * Real.pi⟩
        ⟨fun j => (j : ℝ)⟩ 2 1 = some out ∧
      ∀ k : Nat, k < 2 →
        (⟨out.get (2 * k + 1), out.get (2 * k + 2)⟩ : ℂ)
          = ∑ j in Finset.range 2,
              (⟨(Cells.mk (fun j : Nat => (j : ℝ))).get (2 * j + 1),
                (Cells.mk (fun j : Nat => (j : ℝ))).get (2 * j + 2)⟩ : ℂ)
                * Complex.exp (((1 : Int) : ℂ) * (2 * (Real.pi : ℂ) * Complex.I)
                    * (j : ℂ) * (k : ℂ) / ((2 : Nat) : ℂ)) :=
  four1_computes_dft ⟨Real.sin, Real.sqrt, Real.exp, fun a b => a ^ b, Real.pi, 2 * Real.pi⟩
    ⟨rfl, rfl, rfl, fun _ _ => rfl, rfl, rfl⟩ 2 ⟨1, by norm_num⟩ 1 (Or.inl rfl)
    ⟨fun j => (j : ℝ)⟩

section RealftSpectrum

open Finset

/-- The forward `realft` on `2^(L+1)` real values: the packed spectrum it
leaves, with `W = exp(iπ/2^L)` the primitive root of order `2^(L+1)`. -/
theorem realft_dft_aux (M : MathEnv ℝ) (hM : M.Exact) (L : Nat) (data : Cells ℝ) :
    ∃ out, realft M data (2 ^ (L + 1)) 1 = some out ∧
      out.get 1 = ∑ j in range (2 ^ (L + 1)), data.get (j + 1) ∧
      out.get 2 = ∑ j in range (2 ^ (L + 1)), (-1) ^ j * data.get (j + 1) ∧
      ∀ k, 1 ≤ k → k < 2 ^ L →
        cplx out k = ∑ j in range (2 ^ (L + 1)), (data.get (j + 1) : ℂ)
          * Complex.exp (((Real.pi / ((2 ^ L : Nat) : ℝ) : ℝ) : ℂ) * Complex.I) ^ (j * k) := by
  have hn2 : 2 ^ (L + 1) = 2 * 2 ^ L := by rw [pow_succ]; ring
  have hNpos : 0 < 2 ^ L := by positivity
  have hsh : 2 ^ (L + 1) >>> 1 = 2 ^ L := by
    rw [Nat.shiftRight_eq_div_pow, hn2]; simp
  obtain ⟨d, hd, _, _, hdft⟩ := four1_dft_aux M hM L 1 (Or.inl rfl) data
  obtain ⟨out, hout, hrel⟩ := realft_forward M data d (2 ^ (L + 1)) (by rw [hsh]; exact hd)
  rw [realftWp_exact M hM, hsh] at hrel
  simp only at hrel
  rw [hn2] at hrel
  set N := 2 ^ L with hN
  set θ : ℝ := Real.pi / ((N : Nat) : ℝ) with hθ
  set W : ℂ := Complex.exp ((θ : ℂ) * Complex.I) with hW
  set x : Nat → ℝ := fun j => data.get (j + 1) with hx
  have hWc : (starRingEnd ℂ) W * W = 1 := halfRoot_conj θ
  have hWN : W ^ N = -1 := halfRoot_pow N hNpos
  have hV : W ^ 2 = Complex.exp (((((1 : Int) : ℝ) * (2 * Real.pi / (N : ℝ)) : ℝ) : ℂ)
      * Complex.I) := halfRoot_sq N
  have hH : ∀ t, t < N → cplx d t
      = ∑ u in range N, (⟨x (2 * u), x (2 * u + 1)⟩ : ℂ) * (W ^ 2) ^ (u * t) := by
    intro t ht
    rw [hdft t ht, hV]
    rfl
  refine ⟨out, hout, ?_, ?_, ?_⟩
  · -- cell 1: the sum of all inputs
    rw [hrel.1, hn2, sum_range_even_odd_real]
    have h0 := hH 0 hNpos
    simp only [mul_zero, pow_zero, mul_one] at h0
    have hre := congrArg Complex.re h0
    have him := congrArg Complex.im h0
    simp only [cplx, Complex.re_sum, Complex.im_sum] at hre him
    simp only [Nat.mul_zero, Nat.zero_add] at hre him
    rw [hre, him]
  · -- cell 2: the alternating sum
    rw [hrel.2.1, hn2, sum_range_even_odd_real]
    have h0 := hH 0 hNpos
    simp only [mul_zero, pow_zero, mul_one] at h0
    have hre := congrArg Complex.re h0
    have him := congrArg Complex.im h0
    simp only [cplx, Complex.re_sum, Complex.im_sum] at hre him
    simp only [Nat.mul_zero, Nat.zero_add] at hre him
    rw [hre, him, sub_eq_add_neg, ← sum_neg_distrib]
    congr 1
    · apply sum_congr rfl
      intro u _
      rw [pow_mul]
      simp
    · apply sum_congr rfl
      intro u _
      rw [pow_succ, pow_mul]
      simp
  · intro k hk1 hkN
    rw [hn2]
    rcases lt_trichotomy (2 * k) N with hlt | heq | hgt
    · -- a pair rewritten by the loop, first element
      have hp2 : 4 * (k + 1) ≤ 2 * N := by
        rcases Nat.even_or_odd' N with ⟨q, hq | hq⟩
        · omega
        · exfalso
          have : 2 ∣ 2 ^ L := by
            apply dvd_pow_self
            intro h0
            rw [hN, h0] at hlt
            simp at hlt
            omega
          omega
      obtain ⟨c1, _⟩ := realftRel_cplx N θ d out hrel k hk1 hp2
      rw [c1]
      exact (realft_unpack x W N k hWc hWN (by omega) _ _ (hH k hkN)
        (hH (N - k) (by omega))).1
    · -- the middle element, which the loop does not touch
      have hfr1 := hrel.2.2.1 (2 * k + 1) (by omega) (fun p _ _ => by omega)
      have hfr2 := hrel.2.2.1 (2 * k + 2) (by omega) (fun p _ _ => by omega)
      have hout : cplx out k = cplx d k := by
        simp only [cplx, hfr1, hfr2]
      rw [hout, hH k hkN, realft_pack, realft_split]
      have hq : W ^ k = Complex.I := by
        have := halfRoot_quarter k (by omega)
        rw [heq] at this
        exact this
      rw [hq]
    · -- a pair rewritten by the loop, second element
      have hp1 : 1 ≤ N - k := by omega
      have hp2 : 4 * (N - k + 1) ≤ 2 * N := by
        rcases Nat.even_or_odd' N with ⟨q, hq | hq⟩
        · omega
        · exfalso
          have : 2 ∣ 2 ^ L := by
            apply dvd_pow_self
            intro h0
            rw [hN, h0] at hkN
            simp at hkN
            omega
          omega
      obtain ⟨_, c2⟩ := realftRel_cplx N θ d out hrel (N - k) hp1 hp2
      have e : N - (N - k) = k := by omega
      rw [e] at c2
      rw [c2]
      have := (realft_unpack x W N (N - k) hWc hWN (by omega) (cplx d (N - k)) (cplx d k)
        (hH (N - k) (by omega)) (by rw [e]; exact hH k hkN)).2
      rw [e] at this
      exact this

end RealftSpectrum

/-- C5: over exact arithmetic (the literal taken as `π`), for `n ≥ 2` a power
of two and real values `x_0 … x_{n-1}` in `data[1..n]`, `realft(data, n, 1)`
returns and leaves the positive-frequency half of the spectrum
`F_k = Σ_j x_j exp(2πi jk/n)`: `data[1] = F_0` (the sum of the inputs),
`data[2] = F_{n/2}` (the alternating sum), and `data[2k+1] = Re F_k`,
`data[2k+2] = Im F_k` for every `1 ≤ k < n/2`, the middle element `k = n/4`
included. -/
theorem realft_spectrum (M : MathEnv ℝ) (hM : M.Exact) (n : Nat)
    (hpow : ∃ K : Nat, n = 2 ^ K) (hn : 2 ≤ n) (data : Cells ℝ) :
    ∃ out : Cells ℝ, realft M data n 1 = some out ∧
      ((out.get 1 : ℂ) = ∑ j in Finset.range n, (data.get (j + 1) : ℂ)
        * Complex.exp (2 * (Real.pi : ℂ) * Complex.I * (j : ℂ) * ((0 : Nat) : ℂ) / (n : ℂ))) ∧
      out.get 1 = ∑ j in Finset.range n, data.get (j + 1) ∧
      ((out.get 2 : ℂ) = ∑ j in Finset.range n, (data.get (j + 1) : ℂ)
        * Complex.exp (2 * (Real.pi : ℂ) * Complex.I * (j : ℂ) * ((n / 2 : Nat) : ℂ) / (n : ℂ))) ∧
      out.get 2 = ∑ j in Finset.range n, (-1) ^ j * data.get (j + 1) ∧
      ∀ k : Nat, 1 ≤ k → k < n / 2 →
        out.get (2 * k + 1) = (∑ j in Finset.range n, (data.get (j + 1) : ℂ)
          * Complex.exp (2 * (Real.pi : ℂ) * Complex.I * (j : ℂ) * (k : ℂ) / (n : ℂ))).re ∧
        out.get (2 * k + 2) = (∑ j in Finset.range n, (data.get (j + 1) : ℂ)
          * Complex.exp (2 * (Real.pi : ℂ) * Complex.I * (j : ℂ) * (k : ℂ) / (n : ℂ))).im := by
  obtain ⟨K, rfl⟩ := hpow
  obtain ⟨L, rfl⟩ : ∃ L, K = L + 1 := by
    rcases K with _ | L
    · simp at hn
    · exact ⟨L, rfl⟩
  have hn2 : 2 ^ (L + 1) = 2 * 2 ^ L := by rw [pow_succ]; ring
  have hN0 : ((2 : ℂ) ^ L) ≠ 0 := pow_ne_zero _ two_ne_zero
  obtain ⟨out, hout, h1, h2, hk⟩ := realft_dft_aux M hM L data
  have hroot : ∀ j k : Nat,
      Complex.exp (((Real.pi / ((2 ^ L : Nat) : ℝ) : ℝ) : ℂ) * Complex.I) ^ (j * k)
        = Complex.exp (2 * (Real.pi : ℂ) * Complex.I * (j : ℂ) * (k : ℂ)
            / ((2 ^ (L + 1) : Nat) : ℂ)) := by
    intro j k
    rw [← Complex.exp_nat_mul]
    congr 1
    rw [hn2]
    push_cast
    field_simp
    ring
  refine ⟨out, hout, ?_, h1, ?_, h2, ?_⟩
  · rw [h1]
    push_cast
    apply Finset.sum_congr rfl
    intro j _
    simp
  · rw [h2]
    push_cast
    apply Finset.sum_congr rfl
    intro j _
    rw [mul_comm]
    congr 1
    have e : (2 ^ (L + 1) / 2 : Nat) = 2 ^ L := by rw [hn2]; simp
    rw [e]
    have : 2 * (Real.pi : ℂ) * Complex.I * (j : ℂ) * ((2 ^ L : Nat) : ℂ)
        / ((2 : ℂ) ^ (L + 1)) = (j : ℂ) * ((Real.pi : ℂ) * Complex.I) := by
      rw [pow_succ]
      push_cast
      field_simp
      ring
    rw [this, Complex.exp_nat_mul, Complex.exp_pi_mul_I]
  · intro k hk1 hk2
    have hkN : k < 2 ^ L := by rw [hn2] at hk2; omega
    have := hk k hk1 hkN
    have hF : cplx out k = ∑ j in Finset.range (2 ^ (L + 1)), (data.get (j + 1) : ℂ)
        * Complex.exp (2 * (Real.pi : ℂ) * Complex.I * (j : ℂ) * (k : ℂ)
            / ((2 ^ (L + 1) : Nat) : ℂ)) := by
      rw [this]
      apply Finset.sum_congr rfl
      intro j _
      rw [hroot]
    rw [← hF]
    exact ⟨rfl, rfl⟩

/-- Witness for C5: four real values with the exact real library. -/
theorem realft_spectrum_witness :
    ∃ out : Cells ℝ,
      realft ⟨Real.sin, Real.sqrt, Real.exp, fun a b => a ^ b, Real.pi, 2 * Real.pi⟩
        ⟨fun j => (j : ℝ)⟩ 4 1 = some out ∧
      out.get 1 = ∑ j in Finset.range 4, (Cells.mk (fun j : Nat => (j : ℝ))).get (j + 1) :=
  have h := realft_spectrum
    ⟨Real.sin, Real.sqrt, Real.exp, fun a b => a ^ b, Real.pi, 2 * Real.pi⟩
    ⟨rfl, rfl, rfl, fun _ _ => rfl, rfl, rfl⟩ 4 ⟨2, by norm_num⟩ (by norm_num)
    ⟨fun j => (j : ℝ)⟩
  h.elim (fun out ho => ⟨out, ho.1, ho.2.2.1⟩)

section GridLength

/-- The doubling loop of `fasper` stops at the smallest power of two that is at
least 64 and at least `nfreqt`, as long as that power fits an `unsigned long`
with room for one more doubling. -/
theorem fasperNfreq_spec (nfreqt : Nat) (h : nfreqt ≤ 2 ^ 62) :
    ∃ e, fasperNfreq nfreqt = some (2 ^ e) ∧ 6 ≤ e ∧ e ≤ 62 ∧ nfreqt ≤ 2 ^ e ∧
      ∀ e1, 6 ≤ e1 → nfreqt ≤ 2 ^ e1 → e ≤ e1 := by
  have hex : ∃ e, 6 ≤ e ∧ nfreqt ≤ 2 ^ e := ⟨62, by decide, h⟩
  classical
  obtain ⟨h6, hle⟩ := Nat.find_spec hex
  have hmin : ∀ e1, 6 ≤ e1 → nfreqt ≤ 2 ^ e1 → Nat.find hex ≤ e1 :=
    fun e1 h1 h2 => Nat.find_min' hex ⟨h1, h2⟩
  have h62 : Nat.find hex ≤ 62 := hmin 62 (by decide) h
  refine ⟨Nat.find hex, ?_, h6, h62, hle, hmin⟩
  have := whileFuel_counted (fun nfreq : Nat => nfreq < nfreqt)
    (fun nfreq => some ((nfreq <<< 1) % 2 ^ 64)) (fun c => 2 ^ (6 + c)) (Nat.find hex - 6)
    (by
      intro c hc
      constructor
      · by_contra hcon
        have := hmin (6 + c) (by omega) (by simpa using hcon)
        omega
      · have hlt : 2 ^ (6 + c + 1) < 2 ^ 64 := Nat.pow_lt_pow_right (by decide) (by omega)
        simp only [Nat.shiftLeft_eq, pow_one]
        rw [← pow_succ, Nat.mod_eq_of_lt hlt]
        rfl)
    (by
      have e : 6 + (Nat.find hex - 6) = Nat.find hex := by omega
      simp only [e]
      omega) 64 (by omega)
  have e : 6 + (Nat.find hex - 6) = Nat.find hex := by omega
  simp only [e] at this
  exact this

theorem fasperNdim_spec {α : Type} [LinearOrderedField α] [FloorRing α] (n : Nat)
    (ofac hifac : α) (h : fasperNfreqt n ofac hifac ≤ 2 ^ 62) :
    ∃ e, fasperNdim n ofac hifac = some (2 * 2 ^ e) ∧ 6 ≤ e ∧ e ≤ 62 ∧
      fasperNfreqt n ofac hifac ≤ 2 ^ e ∧
      ∀ e1, 6 ≤ e1 → fasperNfreqt n ofac hifac ≤ 2 ^ e1 → e ≤ e1 := by
  obtain ⟨e, he, h6, h62, hle, hmin⟩ := fasperNfreq_spec _ h
  refine ⟨e, ?_, h6, h62, hle, hmin⟩
  have hlt : 2 ^ (e + 1) < 2 ^ 64 := Nat.pow_lt_pow_right (by decide) (by omega)
  simp only [fasperNdim, he, Nat.shiftLeft_eq, pow_one]
  rw [← pow_succ, Nat.mod_eq_of_lt hlt, pow_succ, Nat.mul_comm]

theorem trunc_toNat_le {α : Type} [LinearOrderedField α] [FloorRing α] (v : α) (hv : 0 ≤ v) :
    ((trunc v).toNat : α) ≤ v ∧ v < ((trunc v).toNat : α) + 1 := by
  have h0 : trunc v = ⌊v⌋ := by simp [trunc, hv]
  have hf : 0 ≤ ⌊v⌋ := Int.floor_nonneg.mpr hv
  have hc : ((⌊v⌋.toNat : Nat) : α) = ((⌊v⌋ : Int) : α) := by
    have : ((⌊v⌋.toNat : Nat) : Int) = ⌊v⌋ := Int.toNat_of_nonneg hf
    exact_mod_cast congrArg (fun z : Int => (z : α)) this
  rw [h0, hc]
  exact ⟨Int.floor_le v, Int.lt_floor_add_one v⟩

end GridLength

/-- C6, counterexample: for `n = 2`, `ofac = 4`, `hifac = 2` the product
`ofac*hifac*n*MACC` is 64, itself a power of two, yet `fasper` uses
`ndim = 128`. -/
theorem fasper_ndim_not_smallest :
    fasperNdim 2 (4 : ℚ) 2 = some 128 ∧
      (4 : ℚ) * 2 * ((2 : Nat) : ℚ) * ((MACC : Nat) : ℚ) ≤ ((2 ^ 6 : Nat) : ℚ) ∧
      2 ^ 6 < 128 := by
  refine ⟨?_, by norm_num [MACC], by norm_num⟩
  have h : fasperNfreqt 2 (4 : ℚ) 2 = 64 := by
    have e : (4 : ℚ) * 2 * ((2 : Nat) : ℚ) * ((MACC : Nat) : ℚ) = ((64 : Int) : ℚ) := by
      norm_num [MACC]
    rw [fasperNfreqt, e, trunc]
    simp
  rw [fasperNdim, h]
  rfl

/-- C6, amended: when `nfreqt = trunc(ofac*hifac*n*MACC)` is at most `2^62`,
`fasper` computes `ndim = 2*nfreq` where `nfreq` is the smallest power of two
that is at least 64 and at least `nfreqt`; for positive `ofac`, `hifac` this
`ndim` is a power of two, at least 128, that exceeds `ofac*hifac*n*MACC`. -/
theorem fasper_ndim_twice_smallest {α : Type} [LinearOrderedField α] [FloorRing α]
    (n : Nat) (ofac hifac : α) (hofac : 0 < ofac) (hhifac : 0 < hifac)
    (h : fasperNfreqt n ofac hifac ≤ 2 ^ 62) :
    ∃ e : Nat, fasperNdim n ofac hifac = some (2 * 2 ^ e) ∧ 6 ≤ e ∧
      fasperNfreqt n ofac hifac ≤ 2 ^ e ∧
      (∀ e1 : Nat, 6 ≤ e1 → fasperNfreqt n ofac hifac ≤ 2 ^ e1 → e ≤ e1) ∧
      ofac * hifac * (n : α) * (MACC : α) < ((2 * 2 ^ e : Nat) : α) := by
  obtain ⟨e, he, h6, _, hle, hmin⟩ := fasperNdim_spec n ofac hifac h
  refine ⟨e, he, h6, hle, hmin, ?_⟩
  have hv : (0 : α) ≤ ofac * hifac * (n : α) * (MACC : α) := by
    have : (0 : α) ≤ (n : α) := Nat.cast_nonneg n
    have : (0 : α) ≤ (MACC : α) := Nat.cast_nonneg _
    positivity
  obtain ⟨_, h2⟩ := trunc_toNat_le _ hv
  have h3 : ((fasperNfreqt n ofac hifac : Nat) : α) ≤ ((2 ^ e : Nat) : α) := by
    exact_mod_cast hle
  have h4 : (1 : α) ≤ ((2 ^ e : Nat) : α) := by
    exact_mod_cast Nat.one_le_two_pow
  have h5 : ((2 * 2 ^ e : Nat) : α) = 2 * ((2 ^ e : Nat) : α) := by push_cast; ring
  rw [h5]
  unfold fasperNfreqt at h3
  linarith

/-- Witness for C6 (amended): the driver's parameters with two samples. -/
theorem fasper_ndim_twice_smallest_witness :
    ∃ e : Nat, fasperNdim 2 (4 : ℚ) 2 = some (2 * 2 ^ e) ∧ 6 ≤ e ∧
      fasperNfreqt 2 (4 : ℚ) 2 ≤ 2 ^ e ∧
      (∀ e1 : Nat, 6 ≤ e1 → fasperNfreqt 2 (4 : ℚ) 2 ≤ 2 ^ e1 → e ≤ e1) ∧
      (4 : ℚ) * 2 * ((2 : Nat) : ℚ) * ((MACC : Nat) : ℚ) < ((2 * 2 ^ e : Nat) : ℚ) :=
  fasper_ndim_twice_smallest 2 (4 : ℚ) 2 (by norm_num) (by norm_num) (by
    have e : (4 : ℚ) * 2 * ((2 : Nat) : ℚ) * ((MACC : Nat) : ℚ) = ((64 : Int) : ℚ) := by
      norm_num [MACC]
    rw [fasperNfreqt, e, trunc]
    simp)

/-- C10, amended: over exact arithmetic (`exp` and `pow` exact, so that `expy` is
not rounded to zero), for `pmax ≥ 0`, `nout ≥ 1` and `ofac > 0`, the false-alarm
probability that `fasper` computes (`effm*expy` when that is at most 0.01, else
`1 - (1 - expy)^effm`) lies in `(0, 1]`. -/
theorem fasperProb_range (M : MathEnv ℝ) (hM : M.Exact) (nout : Nat) (ofac pmax : ℝ)
    (hnout : 1 ≤ nout) (hofac : 0 < ofac) (hpmax : 0 ≤ pmax) :
    0 < fasperProb M nout ofac pmax ∧ fasperProb M nout ofac pmax ≤ 1 := by
  obtain ⟨_, _, hexp, hpow, _, _⟩ := hM
  have hn : (1 : ℝ) ≤ (nout : ℝ) := by exact_mod_cast hnout
  have heff : 0 < 2 * (nout : ℝ) / ofac := by positivity
  have he0 : 0 < Real.exp (-pmax) := Real.exp_pos _
  have he1 : Real.exp (-pmax) ≤ 1 := by
    rw [Real.exp_le_one_iff]; linarith
  simp only [fasperProb, hexp, hpow]
  split_ifs with hc
  · have hb0 : 0 ≤ 1 - Real.exp (-pmax) := by linarith
    have hb1 : 1 - Real.exp (-pmax) < 1 := by linarith
    have h1 : (1 - Real.exp (-pmax)) ^ (2 * (nout : ℝ) / ofac) < 1 :=
      Real.rpow_lt_one hb0 hb1 heff
    have h2 : 0 ≤ (1 - Real.exp (-pmax)) ^ (2 * (nout : ℝ) / ofac) :=
      Real.rpow_nonneg hb0 _
    constructor <;> linarith
  · constructor
    · positivity
    · have : 2 * (nout : ℝ) / ofac * Real.exp (-pmax) ≤ 1 / 100 := not_lt.mp hc
      linarith

/-- Witness for C10 (amended): eight bins, `ofac = 4`, peak power 3. -/
theorem fasperProb_range_witness :
    0 < fasperProb ⟨Real.sin, Real.sqrt, Real.exp, fun a b => a ^ b, Real.pi, 2 * Real.pi⟩
        8 4 3 ∧
      fasperProb ⟨Real.sin, Real.sqrt, Real.exp, fun a b => a ^ b, Real.pi, 2 * Real.pi⟩
        8 4 3 ≤ 1 :=
  fasperProb_range ⟨Real.sin, Real.sqrt, Real.exp, fun a b => a ^ b, Real.pi, 2 * Real.pi⟩
    ⟨rfl, rfl, rfl, fun _ _ => rfl, rfl, rfl⟩ 8 4 3 (by norm_num) (by norm_num) (by norm_num)

/-- C10, counterexample: `expy` is a `float`, and the value `exp(-104)`, about
`6.8e-46`, is below half of the smallest positive `float` `2^-149`, so it is
stored as 0.  With an `exp` that returns 0 at `-104` (and the real exponential
elsewhere), `nout = 8`, `ofac = 4` and `pmax = 104` give `prob = effm*expy = 0`,
which is not greater than 0.01 and is returned: `0 < prob` fails. -/
theorem fasperProb_underflow :
    (0 : ℝ) ≤ 104 ∧ 1 ≤ 8 ∧ (0 : ℝ) < 4 ∧
    fasperProb
      ⟨Real.sin, Real.sqrt, fun x => if x ≤ -104 then 0 else Real.exp x, fun a b => a ^ b,
        Real.pi, 2 * Real.pi⟩ 8 4 104 = 0 ∧
    ¬ 0 < fasperProb
      ⟨Real.sin, Real.sqrt, fun x => if x ≤ -104 then 0 else Real.exp x, fun a b => a ^ b,
        Real.pi, 2 * Real.pi⟩ 8 4 104 := by
  have h : fasperProb
      ⟨Real.sin, Real.sqrt, fun x => if x ≤ -104 then 0 else Real.exp x, fun a b => a ^ b,
        Real.pi, 2 * Real.pi⟩ 8 4 104 = 0 := by
    simp only [fasperProb, le_refl, if_true, mul_zero]
    rw [if_neg (by norm_num)]
  exact ⟨by norm_num, by norm_num, by norm_num, h, by rw [h]; exact lt_irrefl 0⟩

section ConstantSeries

theorem avevar_constant {α : Type} [LinearOrderedField α] (data : Nat → α) (n : Nat) (c : α)
    (hn : 2 ≤ n) (hw : n < 2 ^ 64) (hy : ∀ j, 1 ≤ j → j ≤ n → data j = c) :
    avevar data n = (c, 0) := by
  have hn0 : (n : α) ≠ 0 := by
    have : (2 : α) ≤ (n : α) := by exact_mod_cast hn
    linarith
  have hmean : avevarMean data n = c := by
    have hs : ∑ j in Finset.Icc 1 n, data j = ∑ _j in Finset.Icc 1 n, c :=
      Finset.sum_congr rfl
        (fun j hj => hy j (Finset.mem_Icc.mp hj).1 (Finset.mem_Icc.mp hj).2)
    rw [avevarMean_eq, hs]
    simp only [Finset.sum_const, Nat.card_Icc, add_tsub_cancel_right, nsmul_eq_mul]
    field_simp
  have h1 : (avevar data n).1 = c := hmean
  have h2 : (avevar data n).2 = 0 := by
    rw [avevar_var_eq data n hn hw, hmean]
    have : ∑ j in Finset.Icc 1 n, (data j - c) ^ 2 = 0 := by
      apply Finset.sum_eq_zero
      intro j hj
      rw [Finset.mem_Icc] at hj
      rw [hy j hj.1 hj.2]
      simp
    rw [this, zero_div]
  exact Prod.ext h1 h2

theorem fasperNfreqt_intCast {α : Type} [LinearOrderedField α] [FloorRing α] (n : Nat)
    (ofac hifac : α) (z : Int) (h : ofac * hifac * (n : α) * (MACC : α) = (z : α)) :
    fasperNfreqt n ofac hifac = z.toNat := by
  rw [fasperNfreqt, h, trunc_intCast]

theorem fasperNout_intCast {α : Type} [LinearOrderedField α] [FloorRing α] (n : Nat)
    (ofac hifac : α) (z : Int) (h : (1 / 2) * ofac * hifac * (n : α) = (z : α)) :
    fasperNout n ofac hifac = z.toNat := by
  rw [fasperNout, h, trunc_intCast]

end ConstantSeries

/-- C7, counterexample: on the series `(0,1), (1,1), (2,1)` with `ofac = 4`
(and the driver's `hifac = 2`, capacity `64*512`) `avevar` returns the pair
`(1, 0)` and `fasper` returns normally with `nout = 12` bins and `pwr = 0`:
no error is raised. -/
theorem fasper_constant_series_no_error :
    avevar (fun _ => (1 : ℝ)) 3 = (1, 0) ∧
    ∃ r : FasperState ℝ,
      fasper ⟨Real.sin, Real.sqrt, Real.exp, fun a b => a ^ b, Real.pi, 2 * Real.pi⟩
        (fun j => (j : ℝ) - 1) (fun _ => (1 : ℝ)) 3 4 2 32768
        ⟨⟨fun _ => 0⟩, ⟨fun _ => 0⟩, 0, 0, 0, 0⟩ = some (.returned r) ∧
      r.nout = 12 ∧ r.pwr = 0 := by
  have hav : avevar (fun _ => (1 : ℝ)) 3 = (1, 0) :=
    avevar_constant _ 3 1 (by norm_num) (by norm_num) (fun _ _ _ => rfl)
  refine ⟨hav, ?_⟩
  have hnf : fasperNfreqt 3 (4 : ℝ) 2 = 96 :=
    fasperNfreqt_intCast 3 4 2 96 (by norm_num [MACC])
  have hnd : fasperNdim 3 (4 : ℝ) 2 = some (2 * 2 ^ 7) := by
    rw [fasperNdim, hnf]
    rfl
  have hno : fasperNout 3 (4 : ℝ) 2 = 12 := fasperNout_intCast 3 4 2 12 (by norm_num)
  obtain ⟨r, hr, h1, h2⟩ := fasper_returns
    ⟨Real.sin, Real.sqrt, Real.exp, fun a b => a ^ b, Real.pi, 2 * Real.pi⟩
    (fun j => (j : ℝ) - 1) (fun _ => (1 : ℝ)) 3 4 2 32768
    ⟨⟨fun _ => 0⟩, ⟨fun _ => 0⟩, 0, 0, 0, 0⟩ 7 hnd (by norm_num)
  exact ⟨r, hr, by rw [h1, hno], by rw [h2, hav]⟩

/-- C7, amended: over exact arithmetic, for a series of `n ≥ 2` identical values
`avevar` returns the mean and a variance of zero without failing, and `fasper`,
whenever its grid length is in range and within the declared capacity, returns
normally with `nout = trunc(0.5*ofac*hifac*n)` bins and `pwr = 0`. -/
theorem fasper_constant_series {α : Type} [LinearOrderedField α] [FloorRing α]
    (M : MathEnv α) (x y : Nat → α) (n : Nat) (c : α) (ofac hifac : α) (nwk : Nat)
    (s : FasperState α) (hn : 2 ≤ n) (hw : n < 2 ^ 64)
    (hy : ∀ j : Nat, 1 ≤ j → j ≤ n → y j = c)
    (hrange : fasperNfreqt n ofac hifac ≤ 2 ^ 62)
    (hcap : ∀ ndim : Nat, fasperNdim n ofac hifac = some ndim → ndim ≤ nwk) :
    avevar y n = (c, 0) ∧
    ∃ r : FasperState α, fasper M x y n ofac hifac nwk s = some (.returned r) ∧
      r.nout = fasperNout n ofac hifac ∧ r.pwr = 0 := by
  have hav := avevar_constant y n c hn hw hy
  refine ⟨hav, ?_⟩
  obtain ⟨e, he, _⟩ := fasperNdim_spec n ofac hifac hrange
  obtain ⟨r, hr, h1, h2⟩ := fasper_returns M x y n ofac hifac nwk s e he (hcap _ he)
  exact ⟨r, hr, h1, by rw [h2, hav]⟩

/-- Witness for C7 (amended): three samples of value 1 at times 0, 1, 2. -/
theorem fasper_constant_series_witness :
    avevar (fun _ => (1 : ℝ)) 3 = (1, 0) ∧
    ∃ r : FasperState ℝ,
      fasper ⟨Real.sin, Real.sqrt, Real.exp, fun a b => a ^ b, Real.pi, 2 * Real.pi⟩
        (fun j => (j : ℝ) - 1) (fun _ => (1 : ℝ)) 3 4 2 32768
        ⟨⟨fun _ => 0⟩, ⟨fun _ => 0⟩, 0, 0, 0, 0⟩ = some (.returned r) ∧
      r.nout = fasperNout 3 (4 : ℝ) 2 ∧ r.pwr = 0 :=
  fasper_constant_series
    ⟨Real.sin, Real.sqrt, Real.exp, fun a b => a ^ b, Real.pi, 2 * Real.pi⟩
    (fun j => (j : ℝ) - 1) (fun _ => (1 : ℝ)) 3 1 4 2 32768
    ⟨⟨fun _ => 0⟩, ⟨fun _ => 0⟩, 0, 0, 0, 0⟩ (by norm_num) (by norm_num) (fun _ _ _ => rfl)
    (by rw [fasperNfreqt_intCast 3 (4 : ℝ) 2 96 (by norm_num [MACC])]; norm_num)
    (by
      intro ndim h
      have hnf : fasperNfreqt 3 (4 : ℝ) 2 = 96 :=
        fasperNfreqt_intCast 3 4 2 96 (by norm_num [MACC])
      rw [fasperNdim, hnf] at h
      have h2 : some (2 * 2 ^ 7) = some ndim := h
      have h3 : 2 * 2 ^ 7 = ndim := Option.some.inj h2
      omega)

/-- C8: when the grid length is in range, `fasper` takes the exit
"workspaces too small" exactly when the computed `ndim` exceeds `nwk`; the
check precedes every write to the workspaces, so on that exit `wk1`, `wk2`,
`*jmax` and `*prob` hold their prior values; when `ndim ≤ nwk` the computation
proceeds and `fasper` returns. -/
theorem fasper_workspace_check {α : Type} [LinearOrderedField α] [FloorRing α]
    (M : MathEnv α) (x y : Nat → α) (n : Nat) (ofac hifac : α) (nwk : Nat)
    (s : FasperState α) (hrange : fasperNfreqt n ofac hifac ≤ 2 ^ 62) :
    ∃ ndim : Nat, fasperNdim n ofac hifac = some ndim ∧
      ((∃ s1, fasper M x y n ofac hifac nwk s
          = some (.exited 1 "workspaces too small" s1)) ↔ nwk < ndim) ∧
      (nwk < ndim → ∃ s1, fasper M x y n ofac hifac nwk s
          = some (.exited 1 "workspaces too small" s1) ∧
        s1.wk1 = s.wk1 ∧ s1.wk2 = s.wk2 ∧ s1.jmax = s.jmax ∧ s1.prob = s.prob) ∧
      (ndim ≤ nwk → ∃ r, fasper M x y n ofac hifac nwk s = some (.returned r)) := by
  obtain ⟨e, he, _⟩ := fasperNdim_spec n ofac hifac hrange
  refine ⟨2 * 2 ^ e, he, ⟨?_, ?_⟩, ?_, ?_⟩
  · rintro ⟨s1, hs1⟩
    by_contra hcon
    obtain ⟨r, hr, _⟩ := fasper_returns M x y n ofac hifac nwk s e he (not_lt.mp hcon)
    rw [hr] at hs1
    cases hs1
  · intro h
    exact ⟨_, fasper_exit M x y n ofac hifac nwk s _ he h⟩
  · intro h
    exact ⟨_, fasper_exit M x y n ofac hifac nwk s _ he h, rfl, rfl, rfl, rfl⟩
  · intro h
    obtain ⟨r, hr, _⟩ := fasper_returns M x y n ofac hifac nwk s e he h
    exact ⟨r, hr⟩

/-- Witness for C8: three samples and a declared capacity of 100 cells. -/
theorem fasper_workspace_check_witness :
    ∃ ndim : Nat, fasperNdim 3 (4 : ℝ) 2 = some ndim ∧
      ((∃ s1, fasper ⟨Real.sin, Real.sqrt, Real.exp, fun a b => a ^ b, Real.pi, 2 * Real.pi⟩
          (fun j => (j : ℝ)) (fun j => (j : ℝ)) 3 4 2 100
          ⟨⟨fun _ => 7⟩, ⟨fun _ => 9⟩, 0, 0, 0, 0⟩
          = some (.exited 1 "workspaces too small" s1)) ↔ 100 < ndim) ∧
      (100 < ndim → ∃ s1,
        fasper ⟨Real.sin, Real.sqrt, Real.exp, fun a b => a ^ b, Real.pi, 2 * Real.pi⟩
          (fun j => (j : ℝ)) (fun j => (j : ℝ)) 3 4 2 100
          ⟨⟨fun _ => 7⟩, ⟨fun _ => 9⟩, 0, 0, 0, 0⟩
          = some (.exited 1 "workspaces too small" s1) ∧
        s1.wk1 = (⟨fun _ => 7⟩ : Cells ℝ) ∧ s1.wk2 = (⟨fun _ => 9⟩ : Cells ℝ) ∧
        s1.jmax = 0 ∧ s1.prob = 0) ∧
      (ndim ≤ 100 → ∃ r,
        fasper ⟨Real.sin, Real.sqrt, Real.exp, fun a b => a ^ b, Real.pi, 2 * Real.pi⟩
          (fun j => (j : ℝ)) (fun j => (j : ℝ)) 3 4 2 100
          ⟨⟨fun _ => 7⟩, ⟨fun _ => 9⟩, 0, 0, 0, 0⟩ = some (.returned r)) :=
  fasper_workspace_check
    ⟨Real.sin, Real.sqrt, Real.exp, fun a b => a ^ b, Real.pi, 2 * Real.pi⟩
    (fun j => (j : ℝ)) (fun j => (j : ℝ)) 3 4 2 100 ⟨⟨fun _ => 7⟩, ⟨fun _ => 9⟩, 0, 0, 0, 0⟩
    (by rw [fasperNfreqt_intCast 3 (4 : ℝ) 2 96 (by norm_num [MACC])]; norm_num)

section Scaling

variable {α : Type} [LinearOrderedField α]

/-! ## Scaling of the sample values -/

theorem avevar_scale (y : Nat → α) (n : Nat) (k : α) :
    avevar (fun j => k * y j) n = (k * (avevar y n).1, k ^ 2 * (avevar y n).2) := by
  have hm : avevarMean (fun j => k * y j) n = k * avevarMean y n := by
    rw [avevarMean_eq, avevarMean_eq, ← Finset.mul_sum, mul_div_assoc]
  have hp := avevarPass2_eq (fun j => k * y j) n (k * avevarMean y n)
  have hq := avevarPass2_eq y n (avevarMean y n)
  have h1 : ∑ j in Finset.Icc 1 n, (k * y j - k * avevarMean y n) * (k * y j - k * avevarMean y n)
      = k ^ 2 * ∑ j in Finset.Icc 1 n, (y j - avevarMean y n) * (y j - avevarMean y n) := by
    rw [Finset.mul_sum]
    apply Finset.sum_congr rfl
    intro j _
    ring
  have h2 : ∑ j in Finset.Icc 1 n, (k * y j - k * avevarMean y n)
      = k * ∑ j in Finset.Icc 1 n, (y j - avevarMean y n) := by
    rw [Finset.mul_sum]
    apply Finset.sum_congr rfl
    intro j _
    ring
  simp only [avevar, hm, hp, hq, h1, h2]
  refine Prod.ext rfl ?_
  simp only
  ring

theorem Scaled.set_add {k : α} {hi : Nat} {d d1 : Cells α} (h : Scaled k hi d d1) (c : Nat)
    (v : α) : Scaled k hi (d.set c (d.get c + v)) (d1.set c (d1.get c + k * v)) := by
  intro x hx1 hx2
  simp only [Cells.get_set]
  by_cases hxc : x = c
  · subst hxc
    rw [if_pos rfl, if_pos rfl, h x hx1 hx2]
    ring
  · rw [if_neg hxc, if_neg hxc]
    exact h x hx1 hx2

theorem spreadDown_scaled (k y x fac : α) (ilo ihi nden0 : Int) (hi : Nat) (yy0 yy1 : Cells α)
    (h : Scaled k hi yy0 yy1) (t : Nat) :
    (spreadDown (k * y) x fac ilo ihi nden0 yy1 t).1
        = (spreadDown y x fac ilo ihi nden0 yy0 t).1 ∧
      Scaled k hi (spreadDown y x fac ilo ihi nden0 yy0 t).2
        (spreadDown (k * y) x fac ilo ihi nden0 yy1 t).2 := by
  induction t with
  | zero => exact ⟨rfl, h⟩
  | succ t ih =>
    obtain ⟨h1, h2⟩ := ih
    refine ⟨by simp only [spreadDown, h1], ?_⟩
    simp only [spreadDown, h1]
    have := Scaled.set_add h2 (ihi - 1 - (t : Int)).toNat
      (y * fac / ((((spreadDown y x fac ilo ihi nden0 yy0 t).1.tdiv
        (ihi - 1 - (t : Int) + 1 - ilo) * (ihi - 1 - (t : Int) - ihi) : Int) : α)
        * (x - ((ihi - 1 - (t : Int) : Int) : α))))
    have e : ∀ D : α, k * y * fac / D = k * (y * fac / D) := fun D => by ring
    rw [e]
    exact this

theorem spread_scaled [FloorRing α] (k y : α) (hi : Nat) (yy yy1 : Cells α) (n : Nat) (x : α)
    (m : Int) (h : Scaled k hi yy yy1) (r : Cells α) (hr : spread y yy n x m = .returned r) :
    ∃ r1, spread (k * y) yy1 n x m = .returned r1 ∧ Scaled k hi r r1 := by
  unfold spread at hr ⊢
  by_cases hm : m > 10
  · rw [if_pos hm] at hr
    cases hr
  · rw [if_neg hm] at hr ⊢
    simp only at hr ⊢
    by_cases hx : x = ((trunc x : Int) : α)
    · rw [if_pos hx] at hr ⊢
      cases hr
      exact ⟨_, rfl, Scaled.set_add h _ _⟩
    · rw [if_neg hx] at hr ⊢
      cases hr
      refine ⟨_, rfl, ?_⟩
      have h0 := Scaled.set_add h (spreadIlo n x m + m - 1).toNat
        (y * spreadFac x (spreadIlo n x m) (spreadIlo n x m + m - 1 - spreadIlo n x m).toNat
          / (((nfac m : Int) : α) * (x - ((spreadIlo n x m + m - 1 : Int) : α))))
      have e : ∀ F D : α, k * y * F / D = k * (y * F / D) := fun F D => by ring
      rw [e]
      exact (spreadDown_scaled k y x _ _ _ _ hi _ _ h0 _).2

theorem fasperZero_get (ndim : Nat) (w1 w2 : Cells α) (c : Nat) :
    (fasperZero ndim w1 w2).1.get c = (if 1 ≤ c ∧ c ≤ ndim then 0 else w1.get c) ∧
    (fasperZero ndim w1 w2).2.get c = (if 1 ≤ c ∧ c ≤ ndim then 0 else w2.get c) := by
  unfold fasperZero
  rw [forLoop_one]
  set body : Nat → Cells α × Cells α → Cells α × Cells α := fun j s =>
    let wk2 := s.2.set j 0
    let wk1 := s.1.set j (wk2.get j)
    (wk1, wk2) with hbody
  have hstep : ∀ j s, body j s = (s.1.set j 0, s.2.set j 0) := by
    intro j s
    simp only [hbody, Cells.get_set, if_true]
  induction ndim with
  | zero =>
    simp only [loopFrom]
    rw [if_neg (by omega), if_neg (by omega)]
    exact ⟨rfl, rfl⟩
  | succ m ih =>
    obtain ⟨h1, h2⟩ := ih
    rw [loopFrom, hstep]
    simp only [Cells.get_set]
    by_cases hc : c = 1 + m
    · rw [if_pos hc, if_pos hc, if_pos (by omega), if_pos (by omega)]
      exact ⟨rfl, rfl⟩
    · rw [if_neg hc, if_neg hc, h1, h2]
      by_cases hr : 1 ≤ c ∧ c ≤ m
      · have hr1 : 1 ≤ c ∧ c ≤ m + 1 := ⟨hr.1, by omega⟩
        rw [if_pos hr, if_pos hr, if_pos hr1, if_pos hr1]
        exact ⟨rfl, rfl⟩
      · have hr1 : ¬ (1 ≤ c ∧ c ≤ m + 1) := by omega
        rw [if_neg hr, if_neg hr, if_neg hr1, if_neg hr1]
        exact ⟨rfl, rfl⟩

/-- The extirpolation loop on scaled values: the data grid is scaled, the
window grid is the same. -/
theorem spreadLoop_scaled [FloorRing α] (k : α) (x y : Nat → α) (ave xmin fac fndim : α)
    (ndim : Nat) (z : Cells α × Cells α) (hf : 0 < fndim)
    (hz : Scaled k ndim z.1 z.1) (cnt : Nat) :
    ∃ w w1,
      loopFromX 1 (fasperSpreadStep x y ave xmin fac fndim ndim) z cnt = some (.returned w) ∧
      loopFromX 1 (fasperSpreadStep x (fun j => k * y j) (k * ave) xmin fac fndim ndim) z cnt
        = some (.returned w1) ∧
      Scaled k ndim w.1 w1.1 ∧ w1.2 = w.2 := by
  induction cnt with
  | zero => exact ⟨z, z, rfl, rfl, hz, rfl⟩
  | succ cnt ih =>
    obtain ⟨w, w1, hw, hw1, hs, he⟩ := ih
    obtain ⟨ck, hck, _⟩ := MOD_spec ((x (1 + cnt) - xmin) * fac) fndim hf
    obtain ⟨ckk, hckk, _⟩ := MOD_spec (2 * ck) fndim hf
    obtain ⟨a, ha⟩ := spread_MACC_returned (y (1 + cnt) - ave) w.1 ndim (ck + 1)
    obtain ⟨b, hb⟩ := spread_MACC_returned (1 : α) w.2 ndim (ckk + 1)
    obtain ⟨a1, ha1, hsa⟩ := spread_scaled k (y (1 + cnt) - ave) ndim w.1 w1.1 ndim (ck + 1)
      (MACC : Int) hs a ha
    have e : k * (y (1 + cnt) - ave) = k * y (1 + cnt) - k * ave := by ring
    rw [e] at ha1
    refine ⟨(a, b), (a1, b), ?_, ?_, hsa, rfl⟩
    · simp only [loopFromX, hw, fasperSpreadStep, hck, hckk, ha, hb]
    · simp only [loopFromX, hw1, fasperSpreadStep, hck, hckk, ha1, he, hb]

end Scaling

section TransformScaling

variable {α : Type} [LinearOrderedField α]

theorem stageRel_scaled (k : α) (B C : Nat) (wpr wpi : α) (d d1 e e1 : Cells α) (hB : 1 ≤ B)
    (h : StageRel B C wpr wpi d e) (h1 : StageRel B C wpr wpi d1 e1)
    (hs : Scaled k (4 * B * C) d d1) : Scaled k (4 * B * C) e e1 := by
  intro x hx1 hx2
  -- coordinates of the cell
  obtain ⟨p, b, hb, rfl⟩ : ∃ p b, b < 2 ∧ x = 2 * p + 1 + b :=
    ⟨(x - 1) / 2, (x - 1) % 2, Nat.mod_lt _ (by decide), by omega⟩
  have hp : p < 2 * B * C := by
    have : 4 * B * C = 2 * (2 * B * C) := by ring
    omega
  have h2B : 0 < 2 * B := by omega
  have hc : p / (2 * B) < C := by
    rw [Nat.div_lt_iff_lt_mul h2B]
    have : C * (2 * B) = 2 * B * C := by ring
    omega
  have hr : p % (2 * B) < 2 * B := Nat.mod_lt _ h2B
  have hdm : 2 * B * (p / (2 * B)) + p % (2 * B) = p := Nat.div_add_mod p (2 * B)
  have hblock : 2 * B * (p / (2 * B)) + 2 * B ≤ 2 * B * C := by
    have := Nat.mul_le_mul_left (2 * B) (Nat.succ_le_of_lt hc)
    rw [Nat.mul_succ] at this
    exact this
  have h4 : 4 * B * C = 2 * (2 * B * C) := by ring
  set c := p / (2 * B) with hcdef
  by_cases hlow : p % (2 * B) < B
  · -- lower half of the block
    obtain ⟨q1, q2, _, _⟩ := h.2 c (p % (2 * B)) hc hlow
    obtain ⟨r1, r2, _, _⟩ := h1.2 c (p % (2 * B)) hc hlow
    rw [hdm] at q1 q2 r1 r2
    have s1 := hs (2 * p + 1) (by omega) (by omega)
    have s2 := hs (2 * p + 2) (by omega) (by omega)
    have s3 := hs (2 * (p + B) + 1) (by omega) (by omega)
    have s4 := hs (2 * (p + B) + 2) (by omega) (by omega)
    rcases Nat.lt_succ_iff.mp hb with hb
    interval_cases b
    · rw [Nat.add_zero, r1, q1, s1, s3, s4]
      ring
    · rw [show 2 * p + 1 + 1 = 2 * p + 2 from rfl, r2, q2, s2, s3, s4]
      ring
  · -- upper half of the block
    obtain ⟨t, ht⟩ : ∃ t, p % (2 * B) = t + B := ⟨p % (2 * B) - B, by omega⟩
    have htB : t < B := by omega
    obtain ⟨_, _, q3, q4⟩ := h.2 c t hc htB
    obtain ⟨_, _, r3, r4⟩ := h1.2 c t hc htB
    have hp2 : 2 * B * c + t + B = p := by omega
    rw [hp2] at q3 q4 r3 r4
    have hp3 : 2 * B * c + t = p - B := by omega
    rw [hp3] at q3 q4 r3 r4
    have s1 := hs (2 * p + 1) (by omega) (by omega)
    have s2 := hs (2 * p + 2) (by omega) (by omega)
    have s3 := hs (2 * (p - B) + 1) (by omega) (by omega)
    have s4 := hs (2 * (p - B) + 2) (by omega) (by omega)
    rcases Nat.lt_succ_iff.mp hb with hb
    interval_cases b
    · rw [Nat.add_zero, r3, q3, s1, s2, s3]
      ring
    · rw [show 2 * p + 1 + 1 = 2 * p + 2 from rfl, r4, q4, s1, s2, s4]
      ring

/-- The forward or inverse `four1` on a power of two is homogeneous on the cells
of the array. -/
theorem four1_scaled (M : MathEnv α) (k : α) (L : Nat) (isign : Int) (d d1 o o1 : Cells α)
    (hs : Scaled k (2 * 2 ^ L) d d1) (ho : four1 M d (2 ^ L) isign = some o)
    (ho1 : four1 M d1 (2 ^ L) isign = some o1) : Scaled k (2 * 2 ^ L) o o1 := by
  obtain ⟨r, _, _, hr, hfour⟩ := four1_eq M L isign d
  obtain ⟨r1, _, _, hr1, hfour1⟩ := four1_eq M L isign d1
  rw [hfour] at ho
  rw [hfour1] at ho1
  cases ho
  cases ho1
  have hrev : Scaled k (2 * 2 ^ L) r r1 := by
    intro x hx1 hx2
    obtain ⟨p, b, hb, rfl⟩ : ∃ p b, b < 2 ∧ x = 2 * p + 1 + b :=
      ⟨(x - 1) / 2, (x - 1) % 2, Nat.mod_lt _ (by decide), by omega⟩
    have hp : p < 2 ^ L := by omega
    have hbr := bitrev_lt L p
    rw [hr p b hb, hr1 p b hb, if_pos hp]
    exact hs _ (by omega) (by omega)
  have main : ∀ j, j ≤ L →
      Scaled k (2 * 2 ^ L) (stageData M L isign r j) (stageData M L isign r1 j) := by
    intro j
    induction j with
    | zero => intro _; exact hrev
    | succ j ih =>
      intro hj
      have hsplit : 2 * 2 ^ L = 4 * 2 ^ j * 2 ^ (L - 1 - j) := by
        rw [← pow_split L j (by omega), pow_succ]
        ring
      rw [hsplit]
      apply stageRel_scaled k _ _ _ _ _ _ _ _ Nat.one_le_two_pow
        (stageData_rel M L isign r j) (stageData_rel M L isign r1 j)
      rw [← hsplit]
      exact ih (by omega)
  exact main L le_rfl

theorem realftRel_scaled (k : α) (n : Nat) (wpr wpi : α) (d d1 e e1 : Cells α) (hn : 2 ≤ n)
    (h : RealftRel n wpr wpi d e) (h1 : RealftRel n wpr wpi d1 e1) (hs : Scaled k n d d1) :
    Scaled k n e e1 := by
  intro x hx1 hx2
  obtain ⟨a1, a2, a3, _, a5⟩ := h
  obtain ⟨b1, b2, b3, _, b5⟩ := h1
  by_cases hx : x = 1
  · subst hx
    rw [a1, b1, hs 1 (by omega) (by omega), hs 2 (by omega) (by omega)]
    ring
  by_cases hx' : x = 2
  · subst hx'
    rw [a2, b2, hs 1 (by omega) (by omega), hs 2 (by omega) (by omega)]
    ring
  by_cases hp : ∃ p, 1 ≤ p ∧ 4 * (p + 1) ≤ n ∧
      (x = 2 * p + 1 ∨ x = 2 * p + 2 ∨ x = n + 1 - 2 * p ∨ x = n + 2 - 2 * p)
  · obtain ⟨p, hp1, hp2, hcell⟩ := hp
    obtain ⟨q1, q2, q3, q4⟩ := a5 p hp1 hp2
    obtain ⟨r1, r2, r3, r4⟩ := b5 p hp1 hp2
    have s1 := hs (2 * p + 1) (by omega) (by omega)
    have s2 := hs (2 * p + 2) (by omega) (by omega)
    have s3 := hs (n + 1 - 2 * p) (by omega) (by omega)
    have s4 := hs (n + 2 - 2 * p) (by omega) (by omega)
    rcases hcell with rfl | rfl | rfl | rfl
    · rw [r1, q1, s1, s2, s3, s4]; ring
    · rw [r2, q2, s1, s2, s3, s4]; ring
    · rw [r3, q3, s1, s2, s3, s4]; ring
    · rw [r4, q4, s1, s2, s3, s4]; ring
  · have hfr : ∀ p, 1 ≤ p → 4 * (p + 1) ≤ n → x ≠ 2 * p + 1 ∧ x ≠ 2 * p + 2 ∧
        x ≠ n + 1 - 2 * p ∧ x ≠ n + 2 - 2 * p := by
      intro p hp1 hp2
      refine ⟨fun e => hp ⟨p, hp1, hp2, Or.inl e⟩, fun e => hp ⟨p, hp1, hp2, Or.inr (Or.inl e)⟩,
        fun e => hp ⟨p, hp1, hp2, Or.inr (Or.inr (Or.inl e))⟩,
        fun e => hp ⟨p, hp1, hp2, Or.inr (Or.inr (Or.inr e))⟩⟩
    rw [a3 x (by omega) hfr, b3 x (by omega) hfr]
    exact hs x hx1 hx2

/-- The forward `realft` on a power of two is homogeneous on the cells of the
array. -/
theorem realft_scaled (M : MathEnv α) (k : α) (e : Nat) (d d1 o o1 : Cells α)
    (hs : Scaled k (2 * 2 ^ e) d d1) (ho : realft M d (2 * 2 ^ e) 1 = some o)
    (ho1 : realft M d1 (2 * 2 ^ e) 1 = some o1) : Scaled k (2 * 2 ^ e) o o1 := by
  have hsh : (2 * 2 ^ e) >>> 1 = 2 ^ e := by
    rw [Nat.shiftRight_eq_div_pow]; simp
  obtain ⟨_, _, _, _, hf⟩ := four1_eq M e 1 d
  obtain ⟨_, _, _, _, hf1⟩ := four1_eq M e 1 d1
  have hsf := four1_scaled M k e 1 d d1 _ _ hs hf hf1
  obtain ⟨p, hp, hrel⟩ := realft_forward M d _ (2 * 2 ^ e) (by rw [hsh]; exact hf)
  obtain ⟨p1, hp1, hrel1⟩ := realft_forward M d1 _ (2 * 2 ^ e) (by rw [hsh]; exact hf1)
  rw [hp] at ho
  rw [hp1] at ho1
  cases ho
  cases ho1
  have h2 : 2 ≤ 2 * 2 ^ e := by
    have := Nat.one_le_two_pow (n := e)
    omega
  exact realftRel_scaled k _ _ _ _ _ _ _ h2 hrel hrel1 hsf

end TransformScaling

section AssemblyScaling

variable {α : Type} [LinearOrderedField α]

theorem SQR_eq (a : α) : SQR a = a * a := by
  unfold SQR
  split_ifs with h
  · rw [h]; ring
  · rfl

/-- An iteration of the assembly loop, in terms of the bin power. -/
theorem fasperAssemblyStep_eq (M : MathEnv α) (n : Nat) (df var : α) (j : Nat)
    (s : AssemblyState α) :
    fasperAssemblyStep M n df var j s
      = { k := s.k + 2,
          pmax := if binPower M n var s.k s.wk1 s.wk2 > s.pmax
            then binPower M n var s.k s.wk1 s.wk2 else s.pmax,
          jmax := if binPower M n var s.k s.wk1 s.wk2 > s.pmax then j else s.jmax,
          wk1 := s.wk1.set j ((j : α) * df),
          wk2 := s.wk2.set j (binPower M n var s.k s.wk1 s.wk2) } := by
  by_cases h : binPower M n var s.k s.wk1 s.wk2 > s.pmax
  · simp only [binPower] at h
    simp only [fasperAssemblyStep, binPower, Cells.get_set, if_true, if_pos h]
  · simp only [binPower] at h
    simp only [fasperAssemblyStep, binPower, Cells.get_set, if_true, if_neg h]

theorem binPower_scaled (M : MathEnv α) (n : Nat) (var κ : α) (hκ : κ ≠ 0) (k : Nat)
    (wk1 wk1s wk2 : Cells α) (h1 : wk1s.get k = κ * wk1.get k)
    (h2 : wk1s.get (k + 1) = κ * wk1.get (k + 1)) :
    binPower M n (κ ^ 2 * var) k wk1s wk2 = binPower M n var k wk1 wk2 := by
  simp only [binPower, h1, h2, SQR_eq]
  have hκ2 : κ ^ 2 ≠ 0 := pow_ne_zero 2 hκ
  rw [show 2 * (κ ^ 2 * var) = κ ^ 2 * (2 * var) by ring, ← mul_div_mul_left _ (2 * var) hκ2]
  congr 1
  ring

/-- The assembly loop run on a data grid scaled by `κ` and a variance scaled by
`κ²`: same counter, peak and window grid; the cells of `wk1` already written
agree and the cells not yet written are scaled. -/
theorem assembly_scaled (M : MathEnv α) (n : Nat) (df var κ : α) (hκ : κ ≠ 0) (ndim : Nat)
    (s s1 : AssemblyState α) (hk : s.k = 3) (hk1 : s1.k = 3) (hp : s1.pmax = s.pmax)
    (hj : s1.jmax = s.jmax) (h2 : s1.wk2 = s.wk2) (h1 : Scaled κ ndim s.wk1 s1.wk1)
    (cnt : Nat) (hcnt : 2 * cnt + 2 ≤ ndim) :
    (loopFrom 1 (fasperAssemblyStep M n df (κ ^ 2 * var)) s1 cnt).k = 3 + 2 * cnt ∧
    (loopFrom 1 (fasperAssemblyStep M n df var) s cnt).k = 3 + 2 * cnt ∧
    (loopFrom 1 (fasperAssemblyStep M n df (κ ^ 2 * var)) s1 cnt).pmax
      = (loopFrom 1 (fasperAssemblyStep M n df var) s cnt).pmax ∧
    (loopFrom 1 (fasperAssemblyStep M n df (κ ^ 2 * var)) s1 cnt).jmax
      = (loopFrom 1 (fasperAssemblyStep M n df var) s cnt).jmax ∧
    (loopFrom 1 (fasperAssemblyStep M n df (κ ^ 2 * var)) s1 cnt).wk2
      = (loopFrom 1 (fasperAssemblyStep M n df var) s cnt).wk2 ∧
    (∀ c, 1 ≤ c → c ≤ cnt →
      (loopFrom 1 (fasperAssemblyStep M n df (κ ^ 2 * var)) s1 cnt).wk1.get c
        = (loopFrom 1 (fasperAssemblyStep M n df var) s cnt).wk1.get c) ∧
    (∀ c, cnt < c → c ≤ ndim →
      (loopFrom 1 (fasperAssemblyStep M n df (κ ^ 2 * var)) s1 cnt).wk1.get c
        = κ * (loopFrom 1 (fasperAssemblyStep M n df var) s cnt).wk1.get c) := by
  induction cnt with
  | zero =>
    refine ⟨hk1, hk, hp, hj, h2, fun c h1c h2c => by omega, fun c h1c h2c => ?_⟩
    exact h1 c (by omega) h2c
  | succ cnt ih =>
    obtain ⟨e1, e2, e3, e4, e5, e6, e7⟩ := ih (by omega)
    have r1 := e7 (3 + 2 * cnt) (by omega) (by omega)
    have r2 := e7 (3 + 2 * cnt + 1) (by omega) (by omega)
    rw [loopFrom, loopFrom, fasperAssemblyStep_eq, fasperAssemblyStep_eq]
    have hb := binPower_scaled M n var κ hκ (3 + 2 * cnt) _ _
      (loopFrom 1 (fasperAssemblyStep M n df var) s cnt).wk2 r1 r2
    simp only [e1, e2, e3, e4, e5, hb]
    refine ⟨by omega, by omega, trivial, trivial, trivial, ?_, ?_⟩
    · intro c hc1 hc2
      simp only [Cells.get_set]
      by_cases hc : c = 1 + cnt
      · rw [if_pos hc, if_pos hc]
      · rw [if_neg hc, if_neg hc]
        exact e6 c hc1 (by omega)
    · intro c hc1 hc2
      simp only [Cells.get_set]
      rw [if_neg (by omega), if_neg (by omega)]
      exact e7 c (by omega) hc2

end AssemblyScaling

section ScalingTheorem

variable {α : Type} [LinearOrderedField α] [FloorRing α]

/-- The result of `fasper` past the workspace check, from the results of its
extirpolation loop and of the two transforms. -/
theorem fasper_eq (M : MathEnv α) (x y : Nat → α) (n : Nat) (ofac hifac : α) (nwk : Nat)
    (s : FasperState α) (ndim : Nat) (hnd : fasperNdim n ofac hifac = some ndim)
    (h : ndim ≤ nwk) (w : Cells α × Cells α)
    (hw : loopFromX 1
      (fasperSpreadStep x y (avevar y n).1 (fasperRange x n).1
        ((ndim : α) / (((fasperRange x n).2 - (fasperRange x n).1) * ofac)) (ndim : α) ndim)
      (fasperZero ndim s.wk1 s.wk2) n = some (.returned w))
    (o1 o2 : Cells α) (ho1 : realft M w.1 ndim 1 = some o1)
    (ho2 : realft M w.2 ndim 1 = some o2) :
    fasper M x y n ofac hifac nwk s
      = some (.returned
          { wk1 := (loopFrom 1 (fasperAssemblyStep M n
                (1 / (((fasperRange x n).2 - (fasperRange x n).1) * ofac)) (avevar y n).2)
                { k := 3, pmax := -1, jmax := s.jmax, wk1 := o1, wk2 := o2 }
                (fasperNout n ofac hifac)).wk1,
            wk2 := (loopFrom 1 (fasperAssemblyStep M n
                (1 / (((fasperRange x n).2 - (fasperRange x n).1) * ofac)) (avevar y n).2)
                { k := 3, pmax := -1, jmax := s.jmax, wk1 := o1, wk2 := o2 }
                (fasperNout n ofac hifac)).wk2,
            nout := fasperNout n ofac hifac,
            jmax := (loopFrom 1 (fasperAssemblyStep M n
                (1 / (((fasperRange x n).2 - (fasperRange x n).1) * ofac)) (avevar y n).2)
                { k := 3, pmax := -1, jmax := s.jmax, wk1 := o1, wk2 := o2 }
                (fasperNout n ofac hifac)).jmax,
            prob := fasperProb M (fasperNout n ofac hifac) ofac
              (loopFrom 1 (fasperAssemblyStep M n
                (1 / (((fasperRange x n).2 - (fasperRange x n).1) * ofac)) (avevar y n).2)
                { k := 3, pmax := -1, jmax := s.jmax, wk1 := o1, wk2 := o2 }
                (fasperNout n ofac hifac)).pmax,
            pwr := (avevar y n).2 }) := by
  simp only [fasper, hnd, gt_iff_lt, not_lt.mpr h, if_false, hw, ho1, ho2, forLoop_one]

/-- The cells read by the assembly loop lie inside the grid: `2*nout + 2 ≤ ndim`. -/
theorem fasper_nout_bound (n : Nat) (ofac hifac : α) (e : Nat) (h6 : 6 ≤ e)
    (hle : fasperNfreqt n ofac hifac ≤ 2 ^ e) :
    2 * fasperNout n ofac hifac + 2 ≤ 2 * 2 ^ e := by
  have h64 : 2 ^ 6 ≤ 2 ^ e := Nat.pow_le_pow_right (by decide) h6
  by_cases hv : 0 ≤ ofac * hifac * (n : α)
  · have hv2 : (0 : α) ≤ 1 / 2 * ofac * hifac * (n : α) := by
      have : 1 / 2 * ofac * hifac * (n : α) = 1 / 2 * (ofac * hifac * (n : α)) := by ring
      rw [this]
      positivity
    have hv4 : (0 : α) ≤ ofac * hifac * (n : α) * (MACC : α) := by
      have : (0 : α) ≤ (MACC : α) := Nat.cast_nonneg _
      positivity
    obtain ⟨a1, _⟩ := trunc_toNat_le _ hv2
    obtain ⟨_, b2⟩ := trunc_toNat_le _ hv4
    have hM : ((MACC : Nat) : α) = 4 := by simp [MACC]
    rw [hM] at b2
    have c1 : ((fasperNfreqt n ofac hifac : Nat) : α) ≤ ((2 ^ e : Nat) : α) := by
      exact_mod_cast hle
    have c2 : ((2 ^ 6 : Nat) : α) ≤ ((2 ^ e : Nat) : α) := by exact_mod_cast h64
    have hgoal : ((2 * fasperNout n ofac hifac + 2 : Nat) : α) ≤ ((2 * 2 ^ e : Nat) : α) := by
      push_cast
      unfold fasperNfreqt at c1
      unfold fasperNout
      rw [hM] at c1
      push_cast at c1 c2
      linarith
    exact_mod_cast hgoal
  · have hneg : 1 / 2 * ofac * hifac * (n : α) < 0 := by
      have : 1 / 2 * ofac * hifac * (n : α) = 1 / 2 * (ofac * hifac * (n : α)) := by ring
      rw [this]
      have := not_le.mp hv
      linarith
    have h0 : fasperNout n ofac hifac = 0 := by
      unfold fasperNout trunc
      rw [if_neg (not_le.mpr hneg)]
      have : ⌈1 / 2 * ofac * hifac * (n : α)⌉ ≤ 0 := by
        rw [Int.ceil_le]
        simpa using hneg.le
      omega
    rw [h0]
    omega

/-- Scaling of the sample values by `κ ≠ 0`: both runs of `fasper` return; the
bins, the peak index and the probability agree and `pwr` is scaled by `κ²`. -/
theorem fasper_scaled (M : MathEnv α) (x y : Nat → α) (n : Nat) (ofac hifac : α) (nwk : Nat)
    (s : FasperState α) (κ : α) (hκ : κ ≠ 0) (hrange : fasperNfreqt n ofac hifac ≤ 2 ^ 62)
    (hcap : ∀ ndim : Nat, fasperNdim n ofac hifac = some ndim → ndim ≤ nwk) :
    ∃ r r1, fasper M x y n ofac hifac nwk s = some (.returned r) ∧
      fasper M x (fun j => κ * y j) n ofac hifac nwk s = some (.returned r1) ∧
      r.nout = fasperNout n ofac hifac ∧ r1.nout = r.nout ∧ r1.jmax = r.jmax ∧
      r1.prob = r.prob ∧ r1.pwr = κ ^ 2 * r.pwr ∧ r1.wk2 = r.wk2 ∧
      ∀ c, 1 ≤ c → c ≤ r.nout → r1.wk1.get c = r.wk1.get c := by
  obtain ⟨e, he, h6, _, hle, _⟩ := fasperNdim_spec n ofac hifac hrange
  have hcap2 := hcap _ he
  have hpos : (0 : α) < ((2 * 2 ^ e : Nat) : α) := by
    have : 0 < 2 * 2 ^ e := by positivity
    exact_mod_cast this
  have hz : Scaled κ (2 * 2 ^ e) (fasperZero (2 * 2 ^ e) s.wk1 s.wk2).1
      (fasperZero (2 * 2 ^ e) s.wk1 s.wk2).1 := by
    intro c hc1 hc2
    rw [(fasperZero_get (2 * 2 ^ e) s.wk1 s.wk2 c).1, if_pos ⟨hc1, hc2⟩]
    ring
  obtain ⟨w, w1, hw, hw1, hsw, hew⟩ := spreadLoop_scaled κ x y (avevar y n).1
    (fasperRange x n).1
    (((2 * 2 ^ e : Nat) : α) / (((fasperRange x n).2 - (fasperRange x n).1) * ofac))
    ((2 * 2 ^ e : Nat) : α) (2 * 2 ^ e) (fasperZero (2 * 2 ^ e) s.wk1 s.wk2) hpos hz n
  obtain ⟨o1, ho1⟩ := realft_returns M w.1 e
  obtain ⟨o2, ho2⟩ := realft_returns M w.2 e
  obtain ⟨p1, hp1⟩ := realft_returns M w1.1 e
  have hso := realft_scaled M κ e w.1 w1.1 o1 p1 hsw ho1 hp1
  have hav := avevar_scale y n κ
  have hav1 : (avevar (fun j => κ * y j) n).1 = κ * (avevar y n).1 := by rw [hav]
  have hav2 : (avevar (fun j => κ * y j) n).2 = κ ^ 2 * (avevar y n).2 := by rw [hav]
  have hres := fasper_eq M x y n ofac hifac nwk s _ he hcap2 w hw o1 o2 ho1 ho2
  have hres1 := fasper_eq M x (fun j => κ * y j) n ofac hifac nwk s _ he hcap2 w1
    (by rw [hav1]; exact hw1) p1 o2 hp1 (by rw [hew]; exact ho2)
  rw [hav2] at hres1
  obtain ⟨_, _, a3, a4, a5, a6, _⟩ := assembly_scaled M n
    (1 / (((fasperRange x n).2 - (fasperRange x n).1) * ofac)) (avevar y n).2 κ hκ (2 * 2 ^ e)
    { k := 3, pmax := -1, jmax := s.jmax, wk1 := o1, wk2 := o2 }
    { k := 3, pmax := -1, jmax := s.jmax, wk1 := p1, wk2 := o2 } rfl rfl rfl rfl rfl hso
    (fasperNout n ofac hifac) (fasper_nout_bound n ofac hifac e h6 hle)
  refine ⟨_, _, hres, hres1, rfl, rfl, a4, ?_, rfl, a5, ?_⟩
  · simp only [a3]
  · intro c hc1 hc2
    exact a6 c hc1 hc2

end ScalingTheorem

/-- C9: over exact arithmetic, for a valid series (`n ≥ 2`, two distinct
times, non-zero variance) with grid length in range and within the declared
capacity, and every `k ≠ 0`, multiplying every sample value by `k` leaves the
number of output rows and every output frequency unchanged, multiplies every
power-mode magnitude `wk2[j]/(nout/(2*pwr))` by `k²` and every amplitude-mode
magnitude by `|k|`; the bin powers that `fasper` stores in `wk2`, the peak
index `jmax` and `prob` are unchanged. -/
theorem lomb_scaling_invariance (M : MathEnv ℝ) (hM : M.Exact) (x y : Nat → ℝ) (n : Nat)
    (ofac hifac : ℝ) (nwk : Nat) (s : FasperState ℝ) (k : ℝ) (hk : k ≠ 0)
    (_hn : 2 ≤ n)
    (_hx : ∃ i j : Nat, 1 ≤ i ∧ i ≤ n ∧ 1 ≤ j ∧ j ≤ n ∧ x i ≠ x j)
    (_hvar : (avevar y n).2 ≠ 0)
    (hrange : fasperNfreqt n ofac hifac ≤ 2 ^ 62)
    (hcap : ∀ ndim : Nat, fasperNdim n ofac hifac = some ndim → ndim ≤ nwk) :
    ∃ r r1 : FasperState ℝ,
      fasper M x y n ofac hifac nwk s = some (.returned r) ∧
      fasper M x (fun j => k * y j) n ofac hifac nwk s = some (.returned r1) ∧
      r1.nout = r.nout ∧
      mainRows M false false r1
        = (mainRows M false false r).map (fun p => (p.1, k ^ 2 * p.2)) ∧
      mainRows M true false r1
        = (mainRows M true false r).map (fun p => (p.1, |k| * p.2)) ∧
      (∀ j : Nat, 1 ≤ j → j ≤ r.nout →
        r1.wk1.get j = r.wk1.get j ∧ r1.wk2.get j = r.wk2.get j) ∧
      r1.jmax = r.jmax ∧ r1.prob = r.prob := by
  obtain ⟨r, r1, hr, hr1, _, hnout, hjmax, hprob, hpwr, hwk2, hwk1⟩ :=
    fasper_scaled M x y n ofac hifac nwk s k hk hrange hcap
  obtain ⟨_, hsqrt, _⟩ := hM
  have hmag : ∀ i : Nat, r1.wk2.get (i + 1) / ((r.nout : ℝ) / (2 * r1.pwr))
      = k ^ 2 * (r.wk2.get (i + 1) / ((r.nout : ℝ) / (2 * r.pwr))) := by
    intro i
    rw [hwk2, hpwr, div_div_eq_mul_div, div_div_eq_mul_div]
    ring
  refine ⟨r, r1, hr, hr1, hnout, ?_, ?_, ?_, hjmax, hprob⟩
  · simp only [mainRows, Bool.false_eq_true, if_false, List.map_map, hnout]
    apply List.map_congr_left
    intro i hi
    rw [List.mem_range] at hi
    simp only [Function.comp]
    rw [hmag i, hwk1 (i + 1) (by omega) (by omega)]
  · simp only [mainRows, Bool.false_eq_true, if_false, if_true, List.map_map, hnout]
    apply List.map_congr_left
    intro i hi
    rw [List.mem_range] at hi
    simp only [Function.comp]
    rw [hmag i, hwk1 (i + 1) (by omega) (by omega), hsqrt, Real.sqrt_mul (sq_nonneg k),
      Real.sqrt_sq_eq_abs]
  · intro j hj1 hj2
    exact ⟨hwk1 j hj1 hj2, by rw [hwk2]⟩

/-- Witness for C9: two samples `(0, 0)`, `(1, 1)` scaled by 3, with the
driver's parameters. -/
theorem lomb_scaling_invariance_witness :
    ∃ r r1 : FasperState ℝ,
      fasper ⟨Real.sin, Real.sqrt, Real.exp, fun a b => a ^ b, Real.pi, 2 * Real.pi⟩
        (fun j => (j : ℝ) - 1) (fun j => (j : ℝ) - 1) 2 4 2 32768
        ⟨⟨fun _ => 0⟩, ⟨fun _ => 0⟩, 0, 0, 0, 0⟩ = some (.returned r) ∧
      fasper ⟨Real.sin, Real.sqrt, Real.exp, fun a b => a ^ b, Real.pi, 2 * Real.pi⟩
        (fun j => (j : ℝ) - 1) (fun j => 3 * ((j : ℝ) - 1)) 2 4 2 32768
        ⟨⟨fun _ => 0⟩, ⟨fun _ => 0⟩, 0, 0, 0, 0⟩ = some (.returned r1) ∧
      r1.nout = r.nout ∧
      mainRows ⟨Real.sin, Real.sqrt, Real.exp, fun a b => a ^ b, Real.pi, 2 * Real.pi⟩
          false false r1
        = (mainRows ⟨Real.sin, Real.sqrt, Real.exp, fun a b => a ^ b, Real.pi, 2 * Real.pi⟩
            false false r).map (fun p => (p.1, (3 : ℝ) ^ 2 * p.2)) ∧
      mainRows ⟨Real.sin, Real.sqrt, Real.exp, fun a b => a ^ b, Real.pi, 2 * Real.pi⟩
          true false r1
        = (mainRows ⟨Real.sin, Real.sqrt, Real.exp, fun a b => a ^ b, Real.pi, 2 * Real.pi⟩
            true false r).map (fun p => (p.1, |(3 : ℝ)| * p.2)) ∧
      (∀ j : Nat, 1 ≤ j → j ≤ r.nout →
        r1.wk1.get j = r.wk1.get j ∧ r1.wk2.get j = r.wk2.get j) ∧
      r1.jmax = r.jmax ∧ r1.prob = r.prob :=
  lomb_scaling_invariance
    ⟨Real.sin, Real.sqrt, Real.exp, fun a b => a ^ b, Real.pi, 2 * Real.pi⟩
    ⟨rfl, rfl, rfl, fun _ _ => rfl, rfl, rfl⟩
    (fun j => (j : ℝ) - 1) (fun j => (j : ℝ) - 1) 2 4 2 32768
    ⟨⟨fun _ => 0⟩, ⟨fun _ => 0⟩, 0, 0, 0, 0⟩ 3 (by norm_num) (by norm_num)
    ⟨1, 2, by norm_num, by norm_num, by norm_num, by norm_num, by norm_num⟩
    (by
      have h := avevar_var_zero_iff (fun j : Nat => (j : ℝ) - 1) 2 (by norm_num)
        (by norm_num)
      intro h0
      have h1 := h.mp h0 1 (by simp) 2 (by simp)
      norm_num at h1)
    (by rw [fasperNfreqt_intCast 2 (4 : ℝ) 2 64 (by norm_num [MACC])]; norm_num)
    (by
      intro ndim h
      have hnf : fasperNfreqt 2 (4 : ℝ) 2 = 64 :=
        fasperNfreqt_intCast 2 4 2 64 (by norm_num [MACC])
      rw [fasperNdim, hnf] at h
      have h2 : some (2 * 2 ^ 6) = some ndim := h
      have h3 : 2 * 2 ^ 6 = ndim := Option.some.inj h2
      omega)

section SpreadWindow

variable {α : Type} [LinearOrderedField α]

/-- The descending loop of `spread` computes each cell from the same cell of
the array it starts from, and its denominators from no cell at all. -/
theorem spreadDown_congr (y x fac : α) (ilo ihi : Int) (nden0 : Int) (yy0 yy1 : Cells α)
    (k : Nat) :
    (spreadDown y x fac ilo ihi nden0 yy0 k).1 = (spreadDown y x fac ilo ihi nden0 yy1 k).1 ∧
    ∀ c, yy0.get c = yy1.get c →
      (spreadDown y x fac ilo ihi nden0 yy0 k).2.get c
        = (spreadDown y x fac ilo ihi nden0 yy1 k).2.get c := by
  induction k with
  | zero => exact ⟨rfl, fun c h => h⟩
  | succ k ih =>
    obtain ⟨ih1, ih2⟩ := ih
    refine ⟨by simp only [spreadDown, ih1], ?_⟩
    intro c hc
    simp only [spreadDown, Cells.get_set, ih1]
    by_cases h : c = (ihi - 1 - (k : Int)).toNat
    · rw [if_pos h, if_pos h, ← h, ih2 c hc]
    · rw [if_neg h, if_neg h, ih2 c hc]

/-- The non-integer branch of `spread`, as the result of its two loops. -/
theorem spread_window_eq [FloorRing α] (y x : α) (yy : Cells α) (n : Nat) (m : Int)
    (hm10 : m ≤ 10) (hx : ∀ z : Int, x ≠ (z : α)) :
    spread y yy n x m = .returned
      (spreadDown y x (spreadFac x (spreadIlo n x m) (m - 1).toNat) (spreadIlo n x m)
        (spreadIlo n x m + m - 1) (nfac m)
        (yy.set (spreadIlo n x m + m - 1).toNat (yy.get (spreadIlo n x m + m - 1).toNat
          + y * spreadFac x (spreadIlo n x m) (m - 1).toNat
            / ((nfac m : α) * (x - ((spreadIlo n x m + m - 1 : Int) : α)))))
        (m - 1).toNat).2 := by
  unfold spread
  rw [if_neg (by omega), if_neg (hx _)]
  have e : (spreadIlo n x m + m - 1 - spreadIlo n x m).toNat = (m - 1).toNat := by
    congr 1; ring
  simp only [e]

end SpreadWindow

/-- C12: for a non-integer coordinate `x`, `1 ≤ m ≤ 10` and a grid of length
`n ≥ m`, `spread` places its window at
`ilo = min(max(trunc(x - 0.5*m + 1), 1), n - m + 1)`, `ihi = ilo + m - 1`, with
`1 ≤ ilo` and `ihi ≤ n`; it returns, every cell outside `ilo..ihi` keeps its
prior value, and the cells of the window after the call are determined by the
cells of the window before the call (no other cell is read). -/
theorem spread_window_in_bounds {α : Type} [LinearOrderedField α] [FloorRing α]
    (y x : α) (yy : Cells α) (n : Nat) (m : Int)
    (hm1 : 1 ≤ m) (hm10 : m ≤ 10) (hnm : m ≤ (n : Int)) (hx : ∀ z : Int, x ≠ (z : α)) :
    spreadIlo n x m
        = min (max (trunc (x - (1 / 2) * (m : α) + 1)) 1) ((n : Int) - m + 1) ∧
    1 ≤ spreadIlo n x m ∧ spreadIlo n x m + m - 1 ≤ (n : Int) ∧
    ∃ yy2 : Cells α, spread y yy n x m = .returned yy2 ∧
      (∀ c : Nat, ((c : Int) < spreadIlo n x m ∨ spreadIlo n x m + m - 1 < (c : Int)) →
        yy2.get c = yy.get c) ∧
      ∀ yy1 : Cells α,
        (∀ c : Nat, spreadIlo n x m ≤ (c : Int) → (c : Int) ≤ spreadIlo n x m + m - 1 →
          yy1.get c = yy.get c) →
        ∃ yy3 : Cells α, spread y yy1 n x m = .returned yy3 ∧
          ∀ c : Nat, spreadIlo n x m ≤ (c : Int) → (c : Int) ≤ spreadIlo n x m + m - 1 →
            yy3.get c = yy2.get c := by
  obtain ⟨hlo, hhi⟩ := spreadIlo_bounds n x m hnm
  refine ⟨?_, hlo, hhi, _, spread_window_eq y x yy n m hm10 hx, ?_, ?_⟩
  · unfold spreadIlo LMIN LMAX
    generalize trunc (x - (1 / 2) * (m : α) + 1) = t
    simp only [min_def, max_def]
    split_ifs <;> omega
  · intro c hc
    rw [spreadDown_frame _ _ _ _ _ _ _ _ _ (fun t ht => by omega), Cells.get_set,
      if_neg (by omega)]
  · intro yy1 h1
    refine ⟨_, spread_window_eq y x yy1 n m hm10 hx, ?_⟩
    intro c hc1 hc2
    refine (spreadDown_congr _ _ _ _ _ _ _ _ _).2 c ?_
    rw [Cells.get_set, Cells.get_set, h1 c hc1 hc2]
    by_cases h : c = (spreadIlo n x m + m - 1).toNat
    · rw [if_pos h, if_pos h, ← h, h1 c hc1 hc2]
    · rw [if_neg h, if_neg h]

/-- Witness for C12: `x = 7/2` on a grid of length 10 with `m = 4`; the window
is `2..5`. -/
theorem spread_window_in_bounds_witness :
    spreadIlo 10 (7 / 2 : ℚ) 4
        = min (max (trunc ((7 / 2 : ℚ) - (1 / 2) * ((4 : Int) : ℚ) + 1)) 1)
            (((10 : Nat) : Int) - 4 + 1) ∧
      1 ≤ spreadIlo 10 (7 / 2 : ℚ) 4 :=
  have h := spread_window_in_bounds (1 : ℚ) (7 / 2) ⟨fun _ => 0⟩ 10 4 (by decide) (by decide)
    (by decide) (by
      intro z h
      have h2 : ((7 : Int) : ℚ) = (((2 * z : Int)) : ℚ) := by push_cast; linarith
      have h3 : (7 : Int) = 2 * z := by exact_mod_cast h2
      omega)
  ⟨h.1, h.2.1⟩

/-- C13, counterexample: for `n = 1`, `ofac = 2^61`, `hifac = 1` the sizing loop
finishes with `nfreq = 2^63`, and `ndim = nfreq << 1` wraps to 0 on the 64-bit
`unsigned long`: `ndim` is below 64, below `nfreqt = 2^63`, and `nout = 2^60`
exceeds `ndim/2`. -/
theorem fasper_ndim_wraps :
    (0 : ℚ) < 2 ^ 61 ∧ (0 : ℚ) < 1 ∧
    fasperNfreq (fasperNfreqt 1 (2 ^ 61 : ℚ) 1) = some (2 ^ 63) ∧
    fasperNdim 1 (2 ^ 61 : ℚ) 1 = some 0 ∧
    trunc ((2 ^ 61 : ℚ) * 1 * ((1 : Nat) : ℚ) * ((MACC : Nat) : ℚ)) = 2 ^ 63 ∧
    fasperNout 1 (2 ^ 61 : ℚ) 1 = 2 ^ 60 ∧
    ¬ ∃ ndim : Nat, fasperNdim 1 (2 ^ 61 : ℚ) 1 = some ndim ∧ 64 ≤ ndim := by
  have e : (2 ^ 61 : ℚ) * 1 * ((1 : Nat) : ℚ) * ((MACC : Nat) : ℚ) = (((2 ^ 63 : Int)) : ℚ) := by
    norm_num [MACC]
  have e2 : (1 / 2 : ℚ) * 2 ^ 61 * 1 * ((1 : Nat) : ℚ) = (((2 ^ 60 : Int)) : ℚ) := by
    norm_num
  have h : fasperNfreqt 1 (2 ^ 61 : ℚ) 1 = 2 ^ 63 := by
    rw [fasperNfreqt_intCast 1 _ _ _ e]; rfl
  have hq : fasperNfreq (2 ^ 63) = some (2 ^ 63) := by decide
  have hd : fasperNdim 1 (2 ^ 61 : ℚ) 1 = some 0 := by
    rw [fasperNdim, h, hq]; rfl
  refine ⟨by norm_num, by norm_num, by rw [h, hq], hd, ?_, ?_, ?_⟩
  · rw [e, trunc_intCast]
  · rw [fasperNout_intCast 1 _ _ _ e2]; rfl
  · rintro ⟨ndim, h1, h2⟩
    rw [hd] at h1
    injection h1 with h1
    omega

/-- C13, amended: for every `n` and positive `ofac`, `hifac` with
`nfreqt = trunc(ofac*hifac*n*MACC)` at most `2^62` (so that neither the sizing
loop nor `ndim = nfreq << 1` wraps), the sizing loop finishes and `ndim` is a
power of two, `ndim ≥ 64`, `ndim ≥ trunc(ofac*hifac*n*MACC)` and
`nout ≤ ndim/2` for `nout = trunc(0.5*ofac*hifac*n)`. -/
theorem fasper_sizing_invariants {α : Type} [LinearOrderedField α] [FloorRing α]
    (n : Nat) (ofac hifac : α) (_hofac : 0 < ofac) (_hhifac : 0 < hifac)
    (h : fasperNfreqt n ofac hifac ≤ 2 ^ 62) :
    ∃ nfreq ndim : Nat, fasperNfreq (fasperNfreqt n ofac hifac) = some nfreq ∧
      fasperNdim n ofac hifac = some ndim ∧
      (∃ e : Nat, ndim = 2 ^ e) ∧ 64 ≤ ndim ∧
      trunc (ofac * hifac * (n : α) * (MACC : α)) ≤ (ndim : Int) ∧
      fasperNout n ofac hifac ≤ ndim / 2 := by
  obtain ⟨e, he, h6, _, hle, _⟩ := fasperNdim_spec n ofac hifac h
  obtain ⟨e0, he0, _, _, _, _⟩ := fasperNfreq_spec _ h
  have hb := fasper_nout_bound n ofac hifac e h6 hle
  have h64 : 2 ^ 6 ≤ 2 ^ e := Nat.pow_le_pow_right (by norm_num) h6
  refine ⟨2 ^ e0, 2 * 2 ^ e, he0, he, ⟨e + 1, by ring⟩, by omega, ?_, by omega⟩
  have h1 : trunc (ofac * hifac * (n : α) * (MACC : α))
      ≤ ((fasperNfreqt n ofac hifac : Nat) : Int) := by
    unfold fasperNfreqt
    exact Int.self_le_toNat _
  have h2 : ((fasperNfreqt n ofac hifac : Nat) : Int) ≤ ((2 * 2 ^ e : Nat) : Int) := by
    have : fasperNfreqt n ofac hifac ≤ 2 * 2 ^ e := by omega
    exact_mod_cast this
  exact le_trans h1 h2

/-- Witness for C13 (amended): the driver's parameters with three samples. -/
theorem fasper_sizing_invariants_witness :
    ∃ nfreq ndim : Nat, fasperNfreq (fasperNfreqt 3 (4 : ℚ) 2) = some nfreq ∧
      fasperNdim 3 (4 : ℚ) 2 = some ndim ∧
      (∃ e : Nat, ndim = 2 ^ e) ∧ 64 ≤ ndim ∧
      trunc ((4 : ℚ) * 2 * ((3 : Nat) : ℚ) * ((MACC : Nat) : ℚ)) ≤ (ndim : Int) ∧
      fasperNout 3 (4 : ℚ) 2 ≤ ndim / 2 :=
  fasper_sizing_invariants 3 (4 : ℚ) 2 (by norm_num) (by norm_num) (by
    have e : (4 : ℚ) * 2 * ((3 : Nat) : ℚ) * ((MACC : Nat) : ℚ) = (((96 : Int)) : ℚ) := by
      norm_num [MACC]
    rw [fasperNfreqt_intCast 3 _ _ _ e]
    decide)

/-- C15, counterexample: with `nout = 12` (the driver's value for three
samples, so `maxout = 6`), every bin power 1 and `pwr = 1`, smoothed power mode
prints 2 rows and raw power mode 6 rows; the second group takes in the bins 6
and 7, which raw mode does not emit: its value `2/3` is not the sum `1/3` of the
raw values emitted for its bins, and the smoothed total `4/3` is not the raw
total `1`. -/
theorem mainRows_smoothed_last_group :
    (mainRows ⟨id, id, id, fun a _ => a, 3, 6⟩ false true
      (⟨⟨fun _ => 0⟩, ⟨fun _ => 1⟩, 12, 1, 0, 1⟩ : FasperState ℚ)).map Prod.snd
        = [2 / 3, 2 / 3] ∧
    (mainRows ⟨id, id, id, fun a _ => a, 3, 6⟩ false false
      (⟨⟨fun _ => 0⟩, ⟨fun _ => 1⟩, 12, 1, 0, 1⟩ : FasperState ℚ)).map Prod.snd
        = [1 / 6, 1 / 6, 1 / 6, 1 / 6, 1 / 6, 1 / 6] ∧
    ((mainRows ⟨id, id, id, fun a _ => a, 3, 6⟩ false true
      (⟨⟨fun _ => 0⟩, ⟨fun _ => 1⟩, 12, 1, 0, 1⟩ : FasperState ℚ)).map Prod.snd).sum
      ≠ ((mainRows ⟨id, id, id, fun a _ => a, 3, 6⟩ false false
      (⟨⟨fun _ => 0⟩, ⟨fun _ => 1⟩, 12, 1, 0, 1⟩ : FasperState ℚ)).map Prod.snd).sum := by
  have h1 : (mainRows ⟨id, id, id, fun a _ => a, 3, 6⟩ false true
      (⟨⟨fun _ => 0⟩, ⟨fun _ => 1⟩, 12, 1, 0, 1⟩ : FasperState ℚ)).map Prod.snd
        = [2 / 3, 2 / 3] := by
    simp [mainRows, List.range, List.range.loop]
    norm_num
  have h2 : (mainRows ⟨id, id, id, fun a _ => a, 3, 6⟩ false false
      (⟨⟨fun _ => 0⟩, ⟨fun _ => 1⟩, 12, 1, 0, 1⟩ : FasperState ℚ)).map Prod.snd
        = [1 / 6, 1 / 6, 1 / 6, 1 / 6, 1 / 6, 1 / 6] := by
    simp [mainRows, List.range, List.range.loop]
    norm_num
  refine ⟨h1, h2, ?_⟩
  rw [h1, h2]
  norm_num

/-- C15, amended: in smoothed power mode the value printed for the group of
bins `4q .. 4q+3` is the average of their four bin powers divided by one
quarter of the raw normalization `nout/(2*var)`; for every group that lies
wholly below `maxout = nout/2` it is the sum of the four values that raw power
mode prints for those bins; and the smoothed amplitude is the square root of
the smoothed power. -/
theorem mainRows_smoothed_groups {α : Type} [LinearOrderedField α] (M : MathEnv α)
    (s : FasperState α) :
    mainRows M false true s
      = (List.range ((s.nout / 2 + 3) / 4)).map (fun q =>
          (s.wk1.get (4 * q + 1),
            ((s.wk2.get (4 * q + 1) + s.wk2.get (4 * q + 2) + s.wk2.get (4 * q + 3)
                + s.wk2.get (4 * q + 4)) / 4)
              / (((s.nout : α) / (2 * s.pwr)) / 4))) ∧
    (∀ q : Nat, 4 * q + 4 ≤ s.nout / 2 →
      ((mainRows M false true s).getD q (0, 0)).2
        = ((mainRows M false false s).getD (4 * q) (0, 0)).2
          + ((mainRows M false false s).getD (4 * q + 1) (0, 0)).2
          + ((mainRows M false false s).getD (4 * q + 2) (0, 0)).2
          + ((mainRows M false false s).getD (4 * q + 3) (0, 0)).2) ∧
    mainRows M true true s = (mainRows M false true s).map (fun r => (r.1, M.sqrt r.2)) := by
  have hv : ∀ w : α, w / ((s.nout : α) / (8 * (s.pwr / 4)))
      = (w / 4) / (((s.nout : α) / (2 * s.pwr)) / 4) := by
    intro w
    rw [div_div_div_cancel_right₀ (by norm_num : (4 : α) ≠ 0)]
    congr 2; ring
  refine ⟨?_, ?_, ?_⟩
  · simp only [mainRows, if_true, Bool.false_eq_true, if_false, hv]
  · intro q hq
    have hraw : ∀ i, i < s.nout / 2 → ((mainRows M false false s).getD i (0, 0)).2
        = s.wk2.get (i + 1) / ((s.nout : α) / (2 * s.pwr)) := by
      intro i hi
      simp [mainRows, List.getD, hi]
    have hsm : ((mainRows M false true s).getD q (0, 0)).2
        = (s.wk2.get (4 * q + 1) + s.wk2.get (4 * q + 2) + s.wk2.get (4 * q + 3)
            + s.wk2.get (4 * q + 4)) / ((s.nout : α) / (8 * (s.pwr / 4))) := by
      have hq2 : q < (s.nout / 2 + 3) / 4 := by omega
      simp [mainRows, List.getD, hq2]
    rw [hsm, hraw _ (by omega), hraw _ (by omega), hraw _ (by omega), hraw _ (by omega)]
    have e : (8 : α) * (s.pwr / 4) = 2 * s.pwr := by ring
    rw [e, add_div, add_div, add_div]
  · simp only [mainRows, if_true, Bool.false_eq_true, if_false, List.map_map]
    rfl

/-- Witness for C15 (amended): `nout = 16`, so that the first group `0..3` lies
below `maxout = 8`. -/
theorem mainRows_smoothed_groups_witness :
    ((mainRows ⟨id, id, id, fun a _ => a, 3, 6⟩ false true
        (⟨⟨fun _ => 0⟩, ⟨fun _ => 1⟩, 16, 1, 0, 1⟩ : FasperState ℚ)).getD 0 (0, 0)).2
      = ((mainRows ⟨id, id, id, fun a _ => a, 3, 6⟩ false false
          (⟨⟨fun _ => 0⟩, ⟨fun _ => 1⟩, 16, 1, 0, 1⟩ : FasperState ℚ)).getD (4 * 0) (0, 0)).2
        + ((mainRows ⟨id, id, id, fun a _ => a, 3, 6⟩ false false
          (⟨⟨fun _ => 0⟩, ⟨fun _ => 1⟩, 16, 1, 0, 1⟩ : FasperState ℚ)).getD (4 * 0 + 1)
            (0, 0)).2
        + ((mainRows ⟨id, id, id, fun a _ => a, 3, 6⟩ false false
          (⟨⟨fun _ => 0⟩, ⟨fun _ => 1⟩, 16, 1, 0, 1⟩ : FasperState ℚ)).getD (4 * 0 + 2)
            (0, 0)).2
        + ((mainRows ⟨id, id, id, fun a _ => a, 3, 6⟩ false false
          (⟨⟨fun _ => 0⟩, ⟨fun _ => 1⟩, 16, 1, 0, 1⟩ : FasperState ℚ)).getD (4 * 0 + 3)
            (0, 0)).2 :=
  (mainRows_smoothed_groups ⟨id, id, id, fun a _ => a, 3, 6⟩
    (⟨⟨fun _ => 0⟩, ⟨fun _ => 1⟩, 16, 1, 0, 1⟩ : FasperState ℚ)).2.1 0 (by decide)

end Lomb

namespace Mfilt

/-- C16, at the failing input: for the filter length 2 and a window holding
twice the sample 1500000000, whatever rearrangement of the window `qsort`
returns, the sum of the two middle elements overflows `int` and the value
written is -647483648, not the median 1500000000. -/
theorem filterSample_even_overflow (qsort : List Int → (Int → Int → Int) → List Int)
    (hq : ∀ (l : List Int) (cmp : Int → Int → Int), (qsort l cmp).Perm l) :
    filterSample qsort 2 (fun _ => 1500000000) = -647483648 ∧
      filterSample qsort 2 (fun _ => 1500000000) ≠ 1500000000 := by
  have h : qsort [1500000000, 1500000000] icmp = [1500000000, 1500000000] := by
    have hp := hq [1500000000, 1500000000] icmp
    have e : ([1500000000, 1500000000] : List Int) = List.replicate 2 1500000000 := rfl
    rw [e] at hp ⊢
    exact List.perm_replicate.mp hp
  have hv : filterSample qsort 2 (fun _ => 1500000000) = -647483648 := by
    unfold filterSample
    have e : (List.range 2).map (fun _ => (1500000000 : Int))
        = [1500000000, 1500000000] := rfl
    rw [e]
    simp only [h]
    decide
  exact ⟨hv, by rw [hv]; decide⟩

/-- Witness for C16: `qsort` taken as an insertion sort driven by the
comparator. -/
theorem filterSample_even_overflow_witness :
    filterSample (fun l cmp => l.insertionSort (fun a b => cmp a b ≤ 0)) 2
      (fun _ => 1500000000) = -647483648 :=
  (filterSample_even_overflow (fun l cmp => l.insertionSort (fun a b => cmp a b ≤ 0))
    (fun l cmp => List.perm_insertionSort (fun a b => cmp a b ≤ 0) l)).1

end Mfilt

namespace Lomb

section AssemblyTermsLemmas

variable {α : Type} [LinearOrderedField α]

/-- The bin power of an iteration of the assembly loop, in terms of `hypo`,
`cwt`, `swt` and `den` of its window pair. -/
theorem binPower_terms (M : MathEnv α) (n : Nat) (var : α) (k : Nat) (wk1 wk2 : Cells α) :
    binPower M n var k wk1 wk2
      = (SQR (fasperCwt M (wk2.get k) (wk2.get (k + 1)) * wk1.get k
              + fasperSwt M (wk2.get k) (wk2.get (k + 1)) * wk1.get (k + 1))
            / fasperDen M n (wk2.get k) (wk2.get (k + 1))
          + SQR (fasperCwt M (wk2.get k) (wk2.get (k + 1)) * wk1.get (k + 1)
              - fasperSwt M (wk2.get k) (wk2.get (k + 1)) * wk1.get k)
            / ((n : α) - fasperDen M n (wk2.get k) (wk2.get (k + 1))))
        / (2 * var) := rfl

end AssemblyTermsLemmas

/-- With the real square root, `hypo` is positive for a window pair other than
`(0, 0)`, and its square is `a² + b²`. -/
theorem fasperHypo_pos (M : MathEnv ℝ) (hM : M.Exact) (a b : ℝ) (hab : a ≠ 0 ∨ b ≠ 0) :
    0 < fasperHypo M a b ∧ fasperHypo M a b * fasperHypo M a b = a * a + b * b ∧
      fasperHypo M a b = Real.sqrt (a ^ 2 + b ^ 2) := by
  have hpos : 0 < a * a + b * b := by
    rcases hab with h | h
    · have := mul_self_pos.mpr h; nlinarith [mul_self_nonneg b]
    · have := mul_self_pos.mpr h; nlinarith [mul_self_nonneg a]
  unfold fasperHypo
  rw [hM.2.1]
  refine ⟨Real.sqrt_pos.mpr hpos, Real.mul_self_sqrt hpos.le, ?_⟩
  congr 1; ring

/-- The half-angle values of a window pair other than `(0, 0)`. -/
theorem fasper_half_angle (M : MathEnv ℝ) (hM : M.Exact) (a b : ℝ) (hab : a ≠ 0 ∨ b ≠ 0) :
    0 ≤ fasperCwt M a b ∧
    fasperCwt M a b ^ 2 = 1 / 2 + (1 / 2) * a / fasperHypo M a b ∧
    fasperSwt M a b ^ 2 = 1 / 2 - (1 / 2) * a / fasperHypo M a b ∧
    2 * fasperCwt M a b * fasperSwt M a b = b / fasperHypo M a b ∧
    (b ≤ 0 → fasperSwt M a b ≤ 0) ∧ (0 < b → 0 ≤ fasperSwt M a b) := by
  obtain ⟨hp, hsq, -⟩ := fasperHypo_pos M hM a b hab
  set h := fasperHypo M a b with hh
  have habs : |a| ≤ h := by
    apply abs_le_of_sq_le_sq _ hp.le
    nlinarith [mul_self_nonneg b]
  obtain ⟨ha1, ha2⟩ := abs_le.mp habs
  have hc : (1 / 2) * a / h ≤ 1 / 2 := by
    rw [div_le_iff₀ hp]; linarith
  have hc2 : -(1 / 2) ≤ (1 / 2) * a / h := by
    rw [le_div_iff₀ hp]; linarith
  have e1 : fasperCwt M a b = Real.sqrt (1 / 2 + (1 / 2) * a / h) := by
    unfold fasperCwt fasperHc2wt; rw [hM.2.1]
  have e2 : fasperSwt M a b
      = SIGN (Real.sqrt (1 / 2 - (1 / 2) * a / h)) ((1 / 2) * b / h) := by
    unfold fasperSwt fasperHc2wt fasperHs2wt; rw [hM.2.1]
  have s1 : Real.sqrt (1 / 2 + (1 / 2) * a / h) ^ 2 = 1 / 2 + (1 / 2) * a / h :=
    Real.sq_sqrt (by linarith)
  have s2 : Real.sqrt (1 / 2 - (1 / 2) * a / h) ^ 2 = 1 / 2 - (1 / 2) * a / h :=
    Real.sq_sqrt (by linarith)
  have hprod : Real.sqrt (1 / 2 + (1 / 2) * a / h) * Real.sqrt (1 / 2 - (1 / 2) * a / h)
      = (1 / 2) * |b| / h := by
    rw [← Real.sqrt_mul (by linarith)]
    have : (1 / 2 + (1 / 2) * a / h) * (1 / 2 - (1 / 2) * a / h)
        = ((1 / 2) * |b| / h) ^ 2 := by
      have hb2 : b ^ 2 = h * h - a * a := by nlinarith
      rw [div_pow, mul_pow, sq_abs, hb2]
      field_simp
      ring
    rw [this, Real.sqrt_sq]
    exact div_nonneg (by positivity) hp.le
  have hs0 : 0 ≤ Real.sqrt (1 / 2 - (1 / 2) * a / h) := Real.sqrt_nonneg _
  refine ⟨by rw [e1]; exact Real.sqrt_nonneg _, by rw [e1, s1], ?_, ?_, ?_, ?_⟩
  · rw [e2]; unfold SIGN
    split_ifs
    · rw [sq_abs, s2]
    · rw [neg_sq, sq_abs, s2]
  · rw [e1, e2]; unfold SIGN
    by_cases hb : 0 < b
    · have : (1 / 2) * b / h > 0 := by positivity
      rw [if_pos this, abs_of_nonneg hs0, mul_assoc, hprod, abs_of_pos hb]; ring
    · have : ¬ ((1 / 2) * b / h > 0) := by
        intro h1
        have := (div_pos_iff_of_pos_right hp).mp h1
        linarith
      rw [if_neg this, abs_of_nonneg hs0, mul_assoc, mul_neg, hprod,
        abs_of_nonpos (not_lt.mp hb)]; ring
  · intro hb
    rw [e2]; unfold SIGN
    have : ¬ ((1 / 2) * b / h > 0) := by
      intro h1
      have := (div_pos_iff_of_pos_right hp).mp h1
      linarith
    rw [if_neg this]
    exact neg_nonpos.mpr (abs_nonneg _)
  · intro hb
    rw [e2]; unfold SIGN
    have : (1 / 2) * b / h > 0 := by positivity
    rw [if_pos this]
    exact abs_nonneg _

/-- C18: over exact real arithmetic, in an assembly iteration of `fasper` whose
window pair `(a, b) = (wk2[k], wk2[k+1])` is not `(0, 0)`, the pair
`(cwt, swt)` that enters the bin power written to `wk2[j]` is the unit rotation
at half the phase angle of `(a, b)`: `cwt ≥ 0`, `cwt² + swt² = 1`,
`cwt² - swt² = a/hypo` and `2*cwt*swt = b/hypo` with
`hypo = sqrt(a² + b²)`; for `b = 0` the macro `SIGN` yields `swt ≤ 0`. -/
theorem fasper_half_angle_rotation (M : MathEnv ℝ) (hM : M.Exact) (n : Nat) (df var : ℝ)
    (j : Nat) (s : AssemblyState ℝ) (hab : s.wk2.get s.k ≠ 0 ∨ s.wk2.get (s.k + 1) ≠ 0) :
    (fasperAssemblyStep M n df var j s).wk2.get j
      = (SQR (fasperCwt M (s.wk2.get s.k) (s.wk2.get (s.k + 1)) * s.wk1.get s.k
              + fasperSwt M (s.wk2.get s.k) (s.wk2.get (s.k + 1)) * s.wk1.get (s.k + 1))
            / fasperDen M n (s.wk2.get s.k) (s.wk2.get (s.k + 1))
          + SQR (fasperCwt M (s.wk2.get s.k) (s.wk2.get (s.k + 1)) * s.wk1.get (s.k + 1)
              - fasperSwt M (s.wk2.get s.k) (s.wk2.get (s.k + 1)) * s.wk1.get s.k)
            / ((n : ℝ) - fasperDen M n (s.wk2.get s.k) (s.wk2.get (s.k + 1))))
        / (2 * var) ∧
    fasperHypo M (s.wk2.get s.k) (s.wk2.get (s.k + 1))
      = Real.sqrt (s.wk2.get s.k ^ 2 + s.wk2.get (s.k + 1) ^ 2) ∧
    0 ≤ fasperCwt M (s.wk2.get s.k) (s.wk2.get (s.k + 1)) ∧
    fasperCwt M (s.wk2.get s.k) (s.wk2.get (s.k + 1)) ^ 2
      + fasperSwt M (s.wk2.get s.k) (s.wk2.get (s.k + 1)) ^ 2 = 1 ∧
    fasperCwt M (s.wk2.get s.k) (s.wk2.get (s.k + 1)) ^ 2
      - fasperSwt M (s.wk2.get s.k) (s.wk2.get (s.k + 1)) ^ 2
      = s.wk2.get s.k / fasperHypo M (s.wk2.get s.k) (s.wk2.get (s.k + 1)) ∧
    2 * fasperCwt M (s.wk2.get s.k) (s.wk2.get (s.k + 1))
        * fasperSwt M (s.wk2.get s.k) (s.wk2.get (s.k + 1))
      = s.wk2.get (s.k + 1) / fasperHypo M (s.wk2.get s.k) (s.wk2.get (s.k + 1)) ∧
    (s.wk2.get (s.k + 1) = 0 →
      fasperSwt M (s.wk2.get s.k) (s.wk2.get (s.k + 1)) ≤ 0) := by
  obtain ⟨h0, h1, h2, h3, h4, -⟩ := fasper_half_angle M hM _ _ hab
  refine ⟨?_, (fasperHypo_pos M hM _ _ hab).2.2, h0, ?_, ?_, h3, fun hb => h4 (le_of_eq hb)⟩
  · rw [fasperAssemblyStep_eq, Cells.get_set, if_pos rfl, binPower_terms]
  · rw [h1, h2]; ring
  · rw [h1, h2]; ring

/-- Witness for C18: the window pair `(-1, 0)` read at `k = 3`, where `cwt = 0`
and `swt = -1`. -/
theorem fasper_half_angle_rotation_witness :
    0 ≤ fasperCwt ⟨Real.sin, Real.sqrt, Real.exp, fun a b => a ^ b, Real.pi, 2 * Real.pi⟩
      ((⟨fun c => if c = 3 then (-1 : ℝ) else 0⟩ : Cells ℝ).get 3)
      ((⟨fun c => if c = 3 then (-1 : ℝ) else 0⟩ : Cells ℝ).get (3 + 1)) :=
  (fasper_half_angle_rotation
    ⟨Real.sin, Real.sqrt, Real.exp, fun a b => a ^ b, Real.pi, 2 * Real.pi⟩
    ⟨rfl, rfl, rfl, fun _ _ => rfl, rfl, rfl⟩ 2 1 1 1
    ⟨3, -1, 0, ⟨fun _ => 0⟩, ⟨fun c => if c = 3 then (-1 : ℝ) else 0⟩⟩
    (Or.inl (by norm_num))).2.2.1

/-- After `input()` the count is the number of pairs read, and the capacity is
`512·2^k`, at least the count, and below twice the count once it has grown. -/
theorem input_spec {α : Type} (x0 y0 : Cells α) (samples : List (α × α)) :
    (input x0 y0 samples).n = samples.length ∧
    ∃ k : Nat, (input x0 y0 samples).maxn = 2 ^ (9 + k) ∧
      samples.length ≤ 2 ^ (9 + k) ∧ (1 ≤ k → 2 ^ (9 + k) < 2 * samples.length) := by
  have key : ∀ (l : List (α × α)) (st : InputState α) (k : Nat), st.maxn = 2 ^ (9 + k) →
      st.n ≤ 2 ^ (9 + k) → (1 ≤ k → 2 ^ (9 + k) < 2 * st.n) →
      (l.foldl inputStep st).n = st.n + l.length ∧
      ∃ k1 : Nat, (l.foldl inputStep st).maxn = 2 ^ (9 + k1) ∧
        st.n + l.length ≤ 2 ^ (9 + k1) ∧ (1 ≤ k1 → 2 ^ (9 + k1) < 2 * (st.n + l.length)) := by
    intro l
    induction l with
    | nil => intro st k h1 h2 h3; exact ⟨rfl, k, h1, h2, h3⟩
    | cons tv l ih =>
      intro st k h1 h2 h3
      rw [List.foldl_cons, List.length_cons]
      have hpos : 0 < 2 ^ (9 + k) := Nat.pos_pow_of_pos _ (by norm_num)
      by_cases hge : st.n ≥ st.maxn
      · have hm : (inputStep st tv).maxn = 2 ^ (9 + (k + 1)) := by
          show (if st.n ≥ st.maxn then st.maxn * 2 else st.maxn) = _
          rw [if_pos hge, h1]; ring
        have hn : (inputStep st tv).n = st.n + 1 := rfl
        have e : 2 ^ (9 + (k + 1)) = 2 * 2 ^ (9 + k) := by ring
        obtain ⟨r1, r2⟩ := ih (inputStep st tv) (k + 1) hm (by rw [hn, e]; omega)
          (fun _ => by rw [hn, e]; omega)
        rw [hn] at r1 r2
        exact ⟨by omega, by
          obtain ⟨k1, a, b, c⟩ := r2
          exact ⟨k1, a, by omega, fun h => by have := c h; omega⟩⟩
      · have hm : (inputStep st tv).maxn = 2 ^ (9 + k) := by
          show (if st.n ≥ st.maxn then st.maxn * 2 else st.maxn) = _
          rw [if_neg hge, h1]
        have hn : (inputStep st tv).n = st.n + 1 := rfl
        obtain ⟨r1, r2⟩ := ih (inputStep st tv) k hm (by rw [hn]; omega)
          (fun h => by rw [hn]; have := h3 h; omega)
        rw [hn] at r1 r2
        exact ⟨by omega, by
          obtain ⟨k1, a, b, c⟩ := r2
          exact ⟨k1, a, by omega, fun h => by have := c h; omega⟩⟩
  have := key samples { x := x0, y := y0, n := 0, maxn := nmax } 0 rfl (by norm_num)
    (by intro h; omega)
  simpa [input] using this

/-- The value `nfreqt` for the driver's `ofac = 4.0`, `hifac = 2.0`. -/
theorem fasperNfreqt_driver {α : Type} [LinearOrderedField α] [FloorRing α] (n : Nat) : fasperNfreqt n (4 : α) 2 = 32 * n := by
  have e : (4 : α) * 2 * (n : α) * (MACC : α) = (((32 * n : Nat) : Int) : α) := by
    simp only [MACC]; push_cast; ring
  rw [fasperNfreqt_intCast n _ _ _ e, Int.toNat_ofNat]

/-- C20: the driver calls `fasper` with `ofac = 4.0`, `hifac = 2.0` and the
capacity `64*nmax`, `nmax` being 512 whatever `input()` has grown the buffers
to.  For a file of `n` pairs (`n ≤ 2^57`, so that the grid length is in range)
the workspace check passes exactly when `n ≤ 512`: then `fasper` returns; for
`n ≥ 513` the program exits with "workspaces too small", although the grid
length is at most the `64*maxn` elements that `input()` allocated. -/
theorem main_workspace_limit {α : Type} [LinearOrderedField α] [FloorRing α]
    (M : MathEnv α) (zflag : Bool) (x0 y0 : Cells α) (samples : List (α × α))
    (s : FasperState α) (hn : samples.length ≤ 2 ^ 57) :
    (input x0 y0 samples).n = samples.length ∧
    ∃ ndim : Nat, fasperNdim samples.length (4 : α) 2 = some ndim ∧
      (ndim ≤ 64 * nmax ↔ samples.length ≤ 512) ∧
      (samples.length ≤ 512 →
        ∃ r, mainFasper M zflag x0 y0 samples s = some (.returned r)) ∧
      (513 ≤ samples.length →
        (∃ s1, mainFasper M zflag x0 y0 samples s
          = some (.exited 1 "workspaces too small" s1)) ∧
        ndim ≤ 64 * (input x0 y0 samples).maxn) := by
  obtain ⟨hlen, k, hk, hk1, hk2⟩ := input_spec x0 y0 samples
  have hq : fasperNfreqt samples.length (4 : α) 2 = 32 * samples.length :=
    fasperNfreqt_driver _
  have hrange : fasperNfreqt samples.length (4 : α) 2 ≤ 2 ^ 62 := by rw [hq]; omega
  obtain ⟨e, he, h6, _, hle, hmin⟩ := fasperNdim_spec samples.length (4 : α) 2 hrange
  rw [hq] at hle hmin
  have hiff : 2 * 2 ^ e ≤ 64 * nmax ↔ samples.length ≤ 512 := by
    constructor
    · intro h
      have h1 : 2 ^ e ≤ 2 ^ 14 := by simp only [nmax] at h; omega
      omega
    · intro h
      have h1 : e ≤ 14 := hmin 14 (by norm_num) (by omega)
      have h2 : 2 ^ e ≤ 2 ^ 14 := Nat.pow_le_pow_right (by norm_num) h1
      simp only [nmax]; omega
  refine ⟨hlen, 2 * 2 ^ e, he, hiff, ?_, ?_⟩
  · intro h
    simp only [mainFasper, hlen]
    obtain ⟨r, hr, -⟩ := fasper_returns M
      (fun j => (input x0 y0 samples).x.get (j - 1))
      (fun j => (if zflag then zeromean (input x0 y0 samples).y samples.length
        else (input x0 y0 samples).y).get (j - 1))
      samples.length 4 2 (64 * nmax) s e he (hiff.mpr h)
    exact ⟨r, hr⟩
  · intro h
    constructor
    · simp only [mainFasper, hlen]
      exact ⟨_, fasper_exit M _ _ samples.length 4 2 (64 * nmax) s _ he
        (by
          by_contra hc
          have := hiff.mp (not_lt.mp hc)
          omega)⟩
    · rw [hk]
      have h1 : e ≤ 14 + k := hmin (14 + k) (by omega) (by
        have : 2 ^ (14 + k) = 32 * 2 ^ (9 + k) := by ring
        omega)
      have h2 : 2 ^ e ≤ 2 ^ (14 + k) := Nat.pow_le_pow_right (by norm_num) h1
      have : 2 ^ (14 + k) = 32 * 2 ^ (9 + k) := by ring
      omega

/-- Witness for C20: a file of two pairs. -/
theorem main_workspace_limit_witness :
    (input ⟨fun _ => 0⟩ ⟨fun _ => 0⟩ [((0 : ℚ), (1 : ℚ)), (1, 3)]).n
      = [((0 : ℚ), (1 : ℚ)), (1, 3)].length :=
  (main_workspace_limit ⟨id, id, id, fun a _ => a, 3, 6⟩ false ⟨fun _ => 0⟩ ⟨fun _ => 0⟩
    [((0 : ℚ), (1 : ℚ)), (1, 3)] ⟨⟨fun _ => 0⟩, ⟨fun _ => 0⟩, 0, 0, 0, 0⟩ (by decide)).1

section Inversion

variable {α : Type} [LinearOrderedField α] [FloorRing α]

/-- When `fasper` returns, the workspace check has passed, the extirpolation
loop has returned and both transforms have returned. -/
theorem fasper_returned_inv (M : MathEnv α) (x y : Nat → α) (n : Nat) (ofac hifac : α)
    (nwk : Nat) (s r : FasperState α)
    (hr : fasper M x y n ofac hifac nwk s = some (.returned r)) :
    ∃ (ndim : Nat) (w : Cells α × Cells α) (o1 o2 : Cells α),
      fasperNdim n ofac hifac = some ndim ∧ ndim ≤ nwk ∧
      loopFromX 1
        (fasperSpreadStep x y (avevar y n).1 (fasperRange x n).1
          ((ndim : α) / (((fasperRange x n).2 - (fasperRange x n).1) * ofac)) (ndim : α) ndim)
        (fasperZero ndim s.wk1 s.wk2) n = some (.returned w) ∧
      realft M w.1 ndim 1 = some o1 ∧ realft M w.2 ndim 1 = some o2 := by
  rcases hnd : fasperNdim n ofac hifac with _ | ndim
  · simp [fasper, hnd] at hr
  · by_cases h : ndim > nwk
    · simp [fasper, hnd, h] at hr
    · simp only [fasper, hnd, if_neg h] at hr
      split at hr
      · exact absurd hr (by simp)
      · exact absurd hr (by simp)
      · rename_i w hw
        split at hr
        · rename_i o1 o2 ho1 ho2
          exact ⟨ndim, w, o1, o2, rfl, not_lt.mp h, hw, ho1, ho2⟩
        · exact absurd hr (by simp)

end Inversion

section CoordinateLemmas

variable {α : Type} [LinearOrderedField α]

/-- An iteration of the extirpolation loop is the two calls of `spread` at the
coordinates `(ck, ckk)`. -/
theorem fasperSpreadStep_coords [FloorRing α] (x y : Nat → α) (ave xmin fac fndim : α) (ndim j : Nat)
    (s : Cells α × Cells α) :
    fasperSpreadStep x y ave xmin fac fndim ndim j s
      = match fasperCoords x xmin fac fndim j with
        | none => none
        | some c =>
          match spread (y j - ave) s.1 ndim c.1 MACC with
          | .exited e msg wk1 => some (.exited e msg (wk1, s.2))
          | .returned wk1 =>
            match spread 1 s.2 ndim c.2 MACC with
            | .exited e msg wk2 => some (.exited e msg (wk1, wk2))
            | .returned wk2 => some (.returned (wk1, wk2)) := by
  unfold fasperSpreadStep fasperCoords
  simp only
  cases MOD ((x j - xmin) * fac) fndim with
  | none => rfl
  | some ck =>
    simp only
    cases MOD (2 * ck) fndim with
    | none => rfl
    | some ckk => rfl

/-- The loop of `fasperRange` encloses every sample time. -/
theorem fasperRange_bounds (x : Nat → α) (n : Nat) (j : Nat) (h1 : 1 ≤ j) (hn : j ≤ n) :
    (fasperRange x n).1 ≤ x j ∧ x j ≤ (fasperRange x n).2 := by
  have key : ∀ k : Nat, ∀ j, 1 ≤ j → j ≤ k + 1 →
      (loopFrom 2 (fun j (s : α × α) =>
        ((if x j < s.1 then x j else s.1), (if x j > s.2 then x j else s.2))) (x 1, x 1) k).1
        ≤ x j ∧
      x j ≤ (loopFrom 2 (fun j (s : α × α) =>
        ((if x j < s.1 then x j else s.1), (if x j > s.2 then x j else s.2))) (x 1, x 1) k).2 := by
    intro k
    induction k with
    | zero =>
      intro j h1 h2
      have : j = 1 := by omega
      subst this
      exact ⟨le_refl _, le_refl _⟩
    | succ k ih =>
      intro j h1 h2
      simp only [loopFrom]
      generalize loopFrom 2 (fun j (s : α × α) =>
        ((if x j < s.1 then x j else s.1), (if x j > s.2 then x j else s.2))) (x 1, x 1) k
        = st at ih
      rcases Nat.lt_or_ge j (k + 2) with h | h
      · obtain ⟨a, b⟩ := ih j h1 (by omega)
        constructor
        · split_ifs with hc
          · exact le_trans (le_of_lt hc) a
          · exact a
        · split_ifs with hc
          · exact le_trans b (le_of_lt hc)
          · exact b
      · have : j = 2 + k := by omega
        subst this
        constructor
        · split_ifs with hc
          · exact le_refl _
          · exact not_lt.mp hc
        · split_ifs with hc
          · exact le_refl _
          · exact not_lt.mp hc
  have := key (n + 1 - 2) j h1 (by omega)
  exact this

/-- `MOD` leaves a value below the modulus as it is. -/
theorem MOD_of_lt [FloorRing α] (a b : α) (h : a < b) : MOD a b = some a := by
  unfold MOD
  cases (⌊a / b⌋.toNat + 1) with
  | zero => simp only [whileFuel, if_neg (not_le.mpr h)]
  | succ f => simp only [whileFuel, if_neg (not_le.mpr h)]

/-- The coordinates of iteration `j`: both are at least 1 and below `ndim + 1`;
for `ofac ≥ 3` no reduction takes place and both are at most `ndim`. -/
theorem fasperCoords_bounds [FloorRing α] (x : Nat → α) (n : Nat) (ofac : α) (ndim : Nat)
    (hnd : 3 ≤ ndim) (hofac : 0 < ofac)
    (hx : (fasperRange x n).1 < (fasperRange x n).2) (j : Nat) (h1 : 1 ≤ j) (hn : j ≤ n) :
    ∃ ck ckk : α,
      fasperCoords x (fasperRange x n).1
        ((ndim : α) / (((fasperRange x n).2 - (fasperRange x n).1) * ofac)) (ndim : α) j
        = some (ck, ckk) ∧
      1 ≤ ck ∧ ck < (ndim : α) + 1 ∧ 1 ≤ ckk ∧ ckk < (ndim : α) + 1 ∧
      (3 ≤ ofac → ck ≤ (ndim : α) ∧ ckk ≤ (ndim : α)) := by
  obtain ⟨b1, b2⟩ := fasperRange_bounds x n j h1 hn
  set xmin := (fasperRange x n).1
  set xmax := (fasperRange x n).2
  have hN : (3 : α) ≤ (ndim : α) := by exact_mod_cast hnd
  have hN0 : (0 : α) < (ndim : α) := by linarith
  have hd : 0 < (xmax - xmin) * ofac := mul_pos (by linarith) hofac
  set fac := (ndim : α) / ((xmax - xmin) * ofac) with hfac
  have hfac0 : 0 < fac := div_pos hN0 hd
  have ha0 : 0 ≤ (x j - xmin) * fac := mul_nonneg (by linarith) hfac0.le
  obtain ⟨r1, e1, l1, p1, -⟩ := MOD_spec ((x j - xmin) * fac) (ndim : α) hN0
  have hr1 := p1 ha0
  obtain ⟨r2, e2, l2, p2, -⟩ := MOD_spec (2 * r1) (ndim : α) hN0
  have hr2 := p2 (by linarith)
  refine ⟨r1 + 1, r2 + 1, ?_, by linarith, by linarith, by linarith, by linarith, ?_⟩
  · simp only [fasperCoords, e1, e2]
  · intro h3
    have hle : (x j - xmin) * fac ≤ (ndim : α) / 3 := by
      have s1 : (x j - xmin) * fac ≤ (xmax - xmin) * fac :=
        mul_le_mul_of_nonneg_right (by linarith) hfac0.le
      have s2 : (xmax - xmin) * fac = (ndim : α) / ofac := by
        rw [hfac]
        have : xmax - xmin ≠ 0 := by
          have : 0 < xmax - xmin := by linarith
          exact ne_of_gt this
        field_simp
        ring
      have s3 : (ndim : α) / ofac ≤ (ndim : α) / 3 :=
        div_le_div_of_nonneg_left hN0.le (by norm_num) h3
      linarith
    have q1 : MOD ((x j - xmin) * fac) (ndim : α) = some ((x j - xmin) * fac) :=
      MOD_of_lt _ _ (by linarith)
    rw [q1] at e1
    injection e1 with e1
    have q2 : MOD (2 * r1) (ndim : α) = some (2 * r1) :=
      MOD_of_lt _ _ (by linarith)
    rw [q2] at e2
    injection e2 with e2
    constructor <;> linarith

end CoordinateLemmas

/-- C17, counterexample: for the times `0, 255/256, 1` with `ofac = 1`,
`hifac = 1` the grid length is 128, `xmin = 0`, `xmax = 1`, and the coordinate
`ck` of the second sample is `257/2`, above `ndim`. -/
theorem fasper_coordinate_above_ndim :
    fasperNdim 3 (1 : ℚ) 1 = some 128 ∧
    fasperRange (fun j => if j = 2 then (255 / 256 : ℚ) else if j = 3 then 1 else 0) 3
      = (0, 1) ∧
    ∃ ckk : ℚ,
      fasperCoords (fun j => if j = 2 then (255 / 256 : ℚ) else if j = 3 then 1 else 0) 0
        (((128 : Nat) : ℚ) / ((1 - 0) * 1)) ((128 : Nat) : ℚ) 2 = some (257 / 2, ckk) ∧
      ((128 : Nat) : ℚ) < 257 / 2 := by
  refine ⟨?_, ?_, ?_⟩
  · have h : fasperNfreqt 3 (1 : ℚ) 1 = 12 := by
      have e : (1 : ℚ) * 1 * ((3 : Nat) : ℚ) * ((MACC : Nat) : ℚ) = ((12 : Int) : ℚ) := by
        norm_num [MACC]
      rw [fasperNfreqt_intCast 3 _ _ _ e]; rfl
    rw [fasperNdim, h]
    rfl
  · simp only [fasperRange, forLoop, loopFrom]
    norm_num
  · have key : ∀ x : Nat → ℚ, x 2 = 255 / 256 → ∃ ckk : ℚ,
        fasperCoords x 0 (((128 : Nat) : ℚ) / ((1 - 0) * 1)) ((128 : Nat) : ℚ) 2
          = some (257 / 2, ckk) ∧ ((128 : Nat) : ℚ) < 257 / 2 := by
      intro x hx2
      have e0 : (x 2 - 0) * (((128 : Nat) : ℚ) / ((1 - 0) * 1)) = 255 / 2 := by
        rw [hx2]; norm_num
      obtain ⟨r2, e2, -⟩ := MOD_spec (2 * (255 / 2 : ℚ)) ((128 : Nat) : ℚ) (by norm_num)
      refine ⟨r2 + 1, ?_, by norm_num⟩
      simp only [fasperCoords, e0]
      rw [show MOD (255 / 2 : ℚ) ((128 : Nat) : ℚ) = some (255 / 2) from
        MOD_of_lt (255 / 2 : ℚ) _ (by norm_num)]
      simp only [e2]
      norm_num
    exact key _ (by norm_num)

/-- C17, amended: over exact arithmetic, for `ofac > 0`, `hifac > 0`,
`xmax > xmin`, a grid length in range and every sample `j` in `1..n`, iteration
`j` of the extirpolation loop
calls `spread` at coordinates `ck` (data grid) and `ckk` (window grid) that are
at least 1 and below `ndim + 1`; for `ofac ≥ 3` both are at most `ndim`. -/
theorem fasper_coordinates_range {α : Type} [LinearOrderedField α] [FloorRing α]
    (x y : Nat → α) (n : Nat) (ofac hifac : α) (hofac : 0 < ofac) (_hhifac : 0 < hifac)
    (hx : (fasperRange x n).1 < (fasperRange x n).2)
    (hrange : fasperNfreqt n ofac hifac ≤ 2 ^ 62) (j : Nat) (h1 : 1 ≤ j) (hn : j ≤ n) :
    ∃ (ndim : Nat) (ck ckk : α), fasperNdim n ofac hifac = some ndim ∧
      (∀ (ave : α) (s : Cells α × Cells α) (wk1 wk2 : Cells α),
        spread (y j - ave) s.1 ndim ck MACC = .returned wk1 →
        spread 1 s.2 ndim ckk MACC = .returned wk2 →
        fasperSpreadStep x y ave (fasperRange x n).1
            ((ndim : α) / (((fasperRange x n).2 - (fasperRange x n).1) * ofac)) (ndim : α)
            ndim j s = some (.returned (wk1, wk2))) ∧
      1 ≤ ck ∧ ck < (ndim : α) + 1 ∧ 1 ≤ ckk ∧ ckk < (ndim : α) + 1 ∧
      (3 ≤ ofac → ck ≤ (ndim : α) ∧ ckk ≤ (ndim : α)) := by
  obtain ⟨e, he, h6, _, _, _⟩ := fasperNdim_spec n ofac hifac hrange
  have h64 : 2 ^ 6 ≤ 2 ^ e := Nat.pow_le_pow_right (by norm_num) h6
  obtain ⟨ck, ckk, hc, b⟩ := fasperCoords_bounds x n ofac (2 * 2 ^ e) (by omega) hofac hx j h1 hn
  refine ⟨2 * 2 ^ e, ck, ckk, he, ?_, b⟩
  intro ave s wk1 wk2 hs1 hs2
  rw [fasperSpreadStep_coords, hc]
  simp only [hs1, hs2]

/-- Witness for C17 (amended): the times `0, 1` with the driver's `ofac = 4`,
`hifac = 2`, second sample. -/
theorem fasper_coordinates_range_witness :
    ∃ (ndim : Nat) (ck ckk : ℚ), fasperNdim 2 (4 : ℚ) 2 = some ndim ∧
      (∀ (ave : ℚ) (s : Cells ℚ × Cells ℚ) (wk1 wk2 : Cells ℚ),
        spread (((2 : Nat) : ℚ) - ave) s.1 ndim ck MACC = .returned wk1 →
        spread 1 s.2 ndim ckk MACC = .returned wk2 →
        fasperSpreadStep (fun j => (j : ℚ) - 1) (fun j => (j : ℚ)) ave
            (fasperRange (fun j => (j : ℚ) - 1) 2).1
            ((ndim : ℚ) / (((fasperRange (fun j => (j : ℚ) - 1) 2).2
              - (fasperRange (fun j => (j : ℚ) - 1) 2).1) * 4)) (ndim : ℚ) ndim 2 s
          = some (.returned (wk1, wk2))) ∧
      1 ≤ ck ∧ ck < (ndim : ℚ) + 1 ∧ 1 ≤ ckk ∧ ckk < (ndim : ℚ) + 1 ∧
      ((3 : ℚ) ≤ 4 → ck ≤ (ndim : ℚ) ∧ ckk ≤ (ndim : ℚ)) :=
  fasper_coordinates_range (fun j => (j : ℚ) - 1) (fun j => (j : ℚ)) 2 4 2 (by norm_num)
    (by norm_num)
    (by
      simp only [fasperRange, forLoop, loopFrom]
      norm_num)
    (by rw [fasperNfreqt_driver]; norm_num) 2 (by norm_num) (by norm_num)

section SpreadSum

variable {α : Type} [LinearOrderedField α]

/-- The cells of the window after a call of `spread` at a non-integer
coordinate: each has received the weight `y` times its Lagrange basis value. -/
theorem spread_window_cells [FloorRing α] (y x : α) (yy : Cells α) (n : Nat) (m : Int)
    (hm1 : 1 ≤ m) (hm10 : m ≤ 10) (hnm : m ≤ (n : Int)) (hx : ∀ z : Int, x ≠ (z : α)) :
    ∃ yy2 : Cells α, spread y yy n x m = .returned yy2 ∧
      (∀ j : Int, spreadIlo n x m ≤ j → j ≤ spreadIlo n x m + m - 1 →
        yy2.get j.toNat = yy.get j.toNat + y *
          ∏ k in (Finset.Icc (spreadIlo n x m) (spreadIlo n x m + m - 1)).erase j,
            (x - (k : α)) / ((j : α) - (k : α))) ∧
      ∀ c : Nat, ((c : Int) < spreadIlo n x m ∨ spreadIlo n x m + m - 1 < (c : Int)) →
        yy2.get c = yy.get c := by
  obtain ⟨hlo, hhi⟩ := spreadIlo_bounds n x m hnm
  refine ⟨_, spread_window_eq y x yy n m hm10 hx, ?_, ?_⟩
  · generalize hilo : spreadIlo n x m = ilo at hlo hhi ⊢
    generalize hihi : ilo + m - 1 = ihi at hhi ⊢
    obtain ⟨D, hD⟩ : ∃ D : Nat, ihi - ilo = (D : Int) := ⟨(ihi - ilo).toNat, by omega⟩
    have hDm : (m - 1).toNat = D := by omega
    have hnf : nfac m = ((D.factorial : Nat) : Int) := by
      rw [nfac_eq_factorial m hm1 hm10, hDm]
    rw [hDm]
    intro j hj1 hj2
    have hw := lagrange_weight x ilo ihi j D hD hj1 hj2 hx
    rw [← hw]
    rcases eq_or_lt_of_le hj2 with h | h
    · subst h
      rw [spreadDown_frame _ _ _ _ _ _ _ _ _ (fun t _ => by omega), Cells.get_set, if_pos rfl]
      have h0 := spreadDown_nden_prod y x (0 : α) ilo j (nfac m) yy D hD hnf 0 (by omega)
      simp only [spreadDown, Nat.cast_zero, sub_zero] at h0
      rw [← h0, mul_div_assoc]
    · obtain ⟨t, ht⟩ : ∃ t : Nat, j = ihi - 1 - (t : Int) := ⟨(ihi - 1 - j).toNat, by omega⟩
      have htD : t < D := by omega
      rw [ht, spreadDown_cell _ _ _ _ _ _ _ D (by omega) t htD,
        Cells.get_set, if_neg (by omega)]
      have h0 := spreadDown_nden_prod y x (spreadFac x ilo D) ilo ihi (nfac m)
        (yy.set ihi.toNat (yy.get ihi.toNat
            + y * spreadFac x ilo D / ((nfac m : α) * (x - (ihi : α))))) D hD hnf (t + 1)
        (by omega)
      have e : ihi - ((t + 1 : Nat) : Int) = ihi - 1 - (t : Int) := by push_cast; ring
      rw [e] at h0
      rw [← h0, mul_div_assoc]
  · intro c hc
    rw [spreadDown_frame _ _ _ _ _ _ _ _ _ (fun t ht => by omega), Cells.get_set,
      if_neg (by omega)]

/-- The Lagrange basis values on consecutive integer nodes sum to 1. -/
theorem lagrange_weights_sum (x : α) (ilo ihi : Int) (h : ilo ≤ ihi) :
    ∑ j in Finset.Icc ilo ihi,
      ∏ k in (Finset.Icc ilo ihi).erase j, (x - (k : α)) / ((j : α) - (k : α)) = 1 := by
  have hinj : Set.InjOn (fun z : Int => (z : α)) (Finset.Icc ilo ihi : Set Int) :=
    fun a _ b _ hab => Int.cast_injective hab
  have hs := Lagrange.sum_basis hinj ⟨ilo, Finset.mem_Icc.mpr ⟨le_refl _, h⟩⟩
  have he := congrArg (Polynomial.eval x) hs
  rw [Polynomial.eval_finset_sum, Polynomial.eval_one] at he
  rw [← he]
  refine Finset.sum_congr rfl (fun j _ => ?_)
  rw [Lagrange.basis, Polynomial.eval_prod]
  refine Finset.prod_congr rfl (fun k _ => ?_)
  simp only [Lagrange.basisDivisor, Polynomial.eval_mul, Polynomial.eval_C,
    Polynomial.eval_sub, Polynomial.eval_X]
  rw [div_eq_inv_mul]

end SpreadSum

section SpreadSum2

variable {α : Type} [LinearOrderedField α] [FloorRing α]

/-- A call of `spread` at a coordinate in `[1, n+1)` adds `y` to the sum of the
cells `1..n`. -/
theorem spread_sum (y x : α) (yy : Cells α) (n : Nat) (m : Int)
    (hm1 : 1 ≤ m) (hm10 : m ≤ 10) (hnm : m ≤ (n : Int)) (hx1 : 1 ≤ x)
    (hxn : x < (n : α) + 1) :
    ∃ yy2 : Cells α, spread y yy n x m = .returned yy2 ∧
      ∑ c in Finset.Icc 1 n, yy2.get c = ∑ c in Finset.Icc 1 n, yy.get c + y := by
  by_cases hx : ∃ z : Int, x = (z : α)
  · obtain ⟨z, rfl⟩ := hx
    have hz1 : 1 ≤ z := by exact_mod_cast hx1
    have hzn : z < (n : Int) + 1 := by exact_mod_cast hxn
    refine ⟨_, spread_integer y yy n m z hm10, ?_⟩
    have hmem : z.toNat ∈ Finset.Icc 1 n := Finset.mem_Icc.mpr ⟨by omega, by omega⟩
    have : ∀ c ∈ Finset.Icc 1 n, (yy.set z.toNat (yy.get z.toNat + y)).get c
        = yy.get c + if c = z.toNat then y else 0 := by
      intro c _
      rw [Cells.get_set]
      split_ifs with h
      · rw [h]
      · rw [add_zero]
    rw [Finset.sum_congr rfl this, Finset.sum_add_distrib, Finset.sum_ite_eq' _ _ _,
      if_pos hmem]
  · have hx2 : ∀ z : Int, x ≠ (z : α) := fun z hz => hx ⟨z, hz⟩
    obtain ⟨hlo, hhi⟩ := spreadIlo_bounds n x m hnm
    obtain ⟨yy2, hs, hw, hf⟩ := spread_window_cells y x yy n m hm1 hm10 hnm hx2
    refine ⟨yy2, hs, ?_⟩
    generalize spreadIlo n x m = ilo at hlo hhi hw hf
    generalize hihi : ilo + m - 1 = ihi at hhi hw hf
    have hle : ilo ≤ ihi := by omega
    have hcell : ∀ c ∈ Finset.Icc 1 n, yy2.get c
        = yy.get c + if c ∈ Finset.Icc ilo.toNat ihi.toNat then
            y * ∏ k in (Finset.Icc ilo ihi).erase (c : Int),
              (x - (k : α)) / (((c : Int) : α) - (k : α)) else 0 := by
      intro c _
      split_ifs with h
      · obtain ⟨h1, h2⟩ := Finset.mem_Icc.mp h
        have := hw (c : Int) (by omega) (by omega)
        rwa [Int.toNat_ofNat] at this
      · rw [add_zero]
        apply hf
        rw [Finset.mem_Icc] at h
        omega
    rw [Finset.sum_congr rfl hcell, Finset.sum_add_distrib]
    congr 1
    rw [← Finset.sum_filter]
    have hfilt : (Finset.Icc 1 n).filter (fun c => c ∈ Finset.Icc ilo.toNat ihi.toNat)
        = Finset.Icc ilo.toNat ihi.toNat := by
      ext c
      simp only [Finset.mem_filter, Finset.mem_Icc]
      omega
    rw [hfilt, ← Finset.mul_sum]
    have hsum : ∑ c in Finset.Icc ilo.toNat ihi.toNat,
          ∏ k in (Finset.Icc ilo ihi).erase (c : Int),
            (x - (k : α)) / (((c : Int) : α) - (k : α))
        = ∑ j in Finset.Icc ilo ihi,
          ∏ k in (Finset.Icc ilo ihi).erase j, (x - (k : α)) / ((j : α) - (k : α)) := by
      refine Finset.sum_nbij' (fun c : Nat => (c : Int)) (fun j : Int => j.toNat)
        ?_ ?_ ?_ ?_ ?_
      · intro c hc
        rw [Finset.mem_Icc] at hc ⊢
        dsimp only
        omega
      · intro j hj
        rw [Finset.mem_Icc] at hj ⊢
        dsimp only
        omega
      · intro c _
        exact Int.toNat_ofNat c
      · intro j hj
        rw [Finset.mem_Icc] at hj
        exact Int.toNat_of_nonneg (by omega)
      · intro c _
        rfl
    rw [hsum, lagrange_weights_sum x ilo ihi hle, mul_one]

end SpreadSum2

section SpreadLoopSum

variable {α : Type} [LinearOrderedField α]

/-- The extirpolation loop of `fasper` returns; after `k` iterations the data
grid has gained the sum of the `k` weights `y[j] - ave` and the window grid has
gained `k`. -/
theorem spreadLoop_sums [FloorRing α] (x y : Nat → α) (n : Nat) (ofac ave : α) (ndim : Nat)
    (hnd : 4 ≤ ndim) (hofac : 0 < ofac)
    (hx : (fasperRange x n).1 < (fasperRange x n).2) (z : Cells α × Cells α) (k : Nat)
    (hk : k ≤ n) :
    ∃ w : Cells α × Cells α,
      loopFromX 1
        (fasperSpreadStep x y ave (fasperRange x n).1
          ((ndim : α) / (((fasperRange x n).2 - (fasperRange x n).1) * ofac)) (ndim : α) ndim)
        z k = some (.returned w) ∧
      ∑ c in Finset.Icc 1 ndim, w.1.get c
        = ∑ c in Finset.Icc 1 ndim, z.1.get c + ∑ j in Finset.Icc 1 k, (y j - ave) ∧
      ∑ c in Finset.Icc 1 ndim, w.2.get c = ∑ c in Finset.Icc 1 ndim, z.2.get c + (k : α) := by
  induction k with
  | zero => exact ⟨z, rfl, by simp, by simp⟩
  | succ k ih =>
    obtain ⟨w, hw, s1, s2⟩ := ih (by omega)
    obtain ⟨ck, ckk, hc, c1, c2, c3, c4, -⟩ :=
      fasperCoords_bounds x n ofac ndim (by omega) hofac hx (1 + k) (by omega) (by omega)
    have hm : ((MACC : Nat) : Int) ≤ (ndim : Int) := by
      simp only [MACC]; omega
    obtain ⟨w1, hw1, t1⟩ := spread_sum (y (1 + k) - ave) ck w.1 ndim (MACC : Int)
      (by decide) (by decide) hm c1 c2
    obtain ⟨w2, hw2, t2⟩ := spread_sum (1 : α) ckk w.2 ndim (MACC : Int)
      (by decide) (by decide) hm c3 c4
    refine ⟨(w1, w2), ?_, ?_, ?_⟩
    · simp only [loopFromX, hw]
      rw [fasperSpreadStep_coords, hc]
      simp only [hw1, hw2]
    · rw [t1, s1, Finset.sum_Icc_succ_top (by omega), add_assoc, add_comm k 1]
    · rw [t2, s2]; push_cast; ring

/-- The deviations from the mean computed by `avevar` sum to zero. -/
theorem avevar_deviation_sum (y : Nat → α) (n : Nat) :
    ∑ j in Finset.Icc 1 n, (y j - (avevar y n).1) = 0 := by
  have h : (avevar y n).1 = (∑ j in Finset.Icc 1 n, y j) / (n : α) := avevarMean_eq y n
  rw [Finset.sum_sub_distrib, Finset.sum_const, Nat.card_Icc, h]
  rcases Nat.eq_zero_or_pos n with h0 | h0
  · subst h0; simp
  · have : (n : α) ≠ 0 := by exact_mod_cast (Nat.pos_iff_ne_zero.mp h0)
    simp only [Nat.add_sub_cancel, nsmul_eq_mul]
    field_simp

end SpreadLoopSum

/-- C19: over exact arithmetic, a call of `spread` at a coordinate `x0` in
`[1, n0]` (integer or not) with `1 ≤ m ≤ 10` and `n0 ≥ m` returns and adds
exactly `y0` to the sum of the cells `1..n0` (the weights sum to 1).
Consequently, for `ofac > 0`, `xmax > xmin` and a grid length in range, the
extirpolation loop of `fasper` returns with a window grid whose cells sum to `n`
and a data grid whose cells sum to `Σ (y[j] - ave)`, which is 0. -/
theorem spread_conserves_weight {α : Type} [LinearOrderedField α] [FloorRing α]
    (y0 x0 : α) (yy : Cells α) (n0 : Nat) (m : Int)
    (hm1 : 1 ≤ m) (hm10 : m ≤ 10) (hnm : m ≤ (n0 : Int)) (hx1 : 1 ≤ x0)
    (hxn : x0 ≤ (n0 : α))
    (x y : Nat → α) (n : Nat) (ofac hifac : α) (s : FasperState α) (hofac : 0 < ofac)
    (hx : (fasperRange x n).1 < (fasperRange x n).2)
    (hrange : fasperNfreqt n ofac hifac ≤ 2 ^ 62) :
    (∃ yy2 : Cells α, spread y0 yy n0 x0 m = .returned yy2 ∧
      ∑ c in Finset.Icc 1 n0, yy2.get c = ∑ c in Finset.Icc 1 n0, yy.get c + y0) ∧
    ∃ (ndim : Nat) (w : Cells α × Cells α), fasperNdim n ofac hifac = some ndim ∧
      loopFromX 1
        (fasperSpreadStep x y (avevar y n).1 (fasperRange x n).1
          ((ndim : α) / (((fasperRange x n).2 - (fasperRange x n).1) * ofac)) (ndim : α) ndim)
        (fasperZero ndim s.wk1 s.wk2) n = some (.returned w) ∧
      ∑ c in Finset.Icc 1 ndim, w.2.get c = (n : α) ∧
      ∑ c in Finset.Icc 1 ndim, w.1.get c = ∑ j in Finset.Icc 1 n, (y j - (avevar y n).1) ∧
      ∑ c in Finset.Icc 1 ndim, w.1.get c = 0 := by
  refine ⟨spread_sum y0 x0 yy n0 m hm1 hm10 hnm hx1 (by linarith), ?_⟩
  obtain ⟨e, he, h6, _, _, _⟩ := fasperNdim_spec n ofac hifac hrange
  have h64 : 2 ^ 6 ≤ 2 ^ e := Nat.pow_le_pow_right (by norm_num) h6
  obtain ⟨w, hw, s1, s2⟩ := spreadLoop_sums x y n ofac (avevar y n).1 (2 * 2 ^ e) (by omega)
    hofac hx (fasperZero (2 * 2 ^ e) s.wk1 s.wk2) n (le_refl n)
  have z1 : ∑ c in Finset.Icc 1 (2 * 2 ^ e), (fasperZero (2 * 2 ^ e) s.wk1 s.wk2).1.get c
      = 0 := by
    apply Finset.sum_eq_zero
    intro c hc
    rw [Finset.mem_Icc] at hc
    rw [(fasperZero_get _ _ _ c).1, if_pos hc]
  have z2 : ∑ c in Finset.Icc 1 (2 * 2 ^ e), (fasperZero (2 * 2 ^ e) s.wk1 s.wk2).2.get c
      = 0 := by
    apply Finset.sum_eq_zero
    intro c hc
    rw [Finset.mem_Icc] at hc
    rw [(fasperZero_get _ _ _ c).2, if_pos hc]
  rw [z1, zero_add] at s1
  rw [z2, zero_add] at s2
  exact ⟨2 * 2 ^ e, w, he, hw, s2, s1, by rw [s1, avevar_deviation_sum]⟩

/-- Witness for C19: `spread` at `x = 7/2` on a grid of length 10 with `m = 4`,
and the extirpolation loop for the samples `(0, 1)`, `(1, 2)` with the driver's
`ofac = 4`, `hifac = 2`. -/
theorem spread_conserves_weight_witness :
    ∃ yy2 : Cells ℚ, spread (1 : ℚ) ⟨fun _ => 0⟩ 10 (7 / 2) 4 = .returned yy2 ∧
      ∑ c in Finset.Icc 1 10, yy2.get c
        = ∑ c in Finset.Icc 1 10, (⟨fun _ => 0⟩ : Cells ℚ).get c + 1 :=
  (spread_conserves_weight (1 : ℚ) (7 / 2) ⟨fun _ => 0⟩ 10 4 (by decide) (by decide)
    (by decide) (by norm_num) (by norm_num)
    (fun j => (j : ℚ) - 1) (fun j => (j : ℚ)) 2 4 2
    ⟨⟨fun _ => 0⟩, ⟨fun _ => 0⟩, 0, 0, 0, 0⟩ (by norm_num)
    (by
      simp only [fasperRange, forLoop, loopFrom]
      norm_num)
    (by rw [fasperNfreqt_driver]; norm_num)).1

section Peak

variable {α : Type} [LinearOrderedField α]

/-- Iteration `j` of the assembly loop writes cell `j` of `wk2` only. -/
theorem fasperAssemblyStep_wk2 (M : MathEnv α) (n : Nat) (df var : α) (j : Nat)
    (s : AssemblyState α) (c : Nat) :
    (fasperAssemblyStep M n df var j s).wk2.get c
      = if c = j then binPower M n var s.k s.wk1 s.wk2 else s.wk2.get c := by
  rw [fasperAssemblyStep_eq, Cells.get_set]

/-- The running maximum of the assembly loop after `t` iterations: `pmax`
bounds the cells `1..t` of `wk2`; either no bin has exceeded the initial
`pmax`, or `jmax` is the first index in `1..t` whose cell is `pmax`. -/
theorem assembly_peak (M : MathEnv α) (n : Nat) (df var : α) (s0 : AssemblyState α)
    (t : Nat) :
    (∀ c, 1 ≤ c → c ≤ t →
      (loopFrom 1 (fasperAssemblyStep M n df var) s0 t).wk2.get c
        ≤ (loopFrom 1 (fasperAssemblyStep M n df var) s0 t).pmax) ∧
    ((loopFrom 1 (fasperAssemblyStep M n df var) s0 t).pmax = s0.pmax ∧
        (loopFrom 1 (fasperAssemblyStep M n df var) s0 t).jmax = s0.jmax ∨
      1 ≤ (loopFrom 1 (fasperAssemblyStep M n df var) s0 t).jmax ∧
        (loopFrom 1 (fasperAssemblyStep M n df var) s0 t).jmax ≤ t ∧
        (loopFrom 1 (fasperAssemblyStep M n df var) s0 t).pmax
          = (loopFrom 1 (fasperAssemblyStep M n df var) s0 t).wk2.get
              (loopFrom 1 (fasperAssemblyStep M n df var) s0 t).jmax ∧
        ∀ c, 1 ≤ c → c < (loopFrom 1 (fasperAssemblyStep M n df var) s0 t).jmax →
          (loopFrom 1 (fasperAssemblyStep M n df var) s0 t).wk2.get c
            < (loopFrom 1 (fasperAssemblyStep M n df var) s0 t).pmax) := by
  induction t with
  | zero => exact ⟨fun c h1 h2 => by omega, Or.inl ⟨rfl, rfl⟩⟩
  | succ t ih =>
    obtain ⟨ih1, ih2⟩ := ih
    simp only [loopFrom]
    generalize loopFrom 1 (fasperAssemblyStep M n df var) s0 t = a at ih1 ih2 ⊢
    have hw := fasperAssemblyStep_wk2 M n df var (1 + t) a
    rw [fasperAssemblyStep_eq] at hw ⊢
    simp only at hw ⊢
    by_cases hp : binPower M n var a.k a.wk1 a.wk2 > a.pmax
    · simp only [if_pos hp]
      refine ⟨?_, Or.inr ⟨by omega, by omega, by rw [hw, if_pos rfl], ?_⟩⟩
      · intro c h1 h2
        rw [hw]
        split_ifs with hc
        · exact le_refl _
        · exact le_of_lt (lt_of_le_of_lt (ih1 c h1 (by omega)) hp)
      · intro c h1 h2
        rw [hw, if_neg (by omega)]
        exact lt_of_le_of_lt (ih1 c h1 (by omega)) hp
    · simp only [if_neg hp]
      refine ⟨?_, ?_⟩
      · intro c h1 h2
        rw [hw]
        split_ifs with hc
        · exact not_lt.mp hp
        · exact ih1 c h1 (by omega)
      · rcases ih2 with h | ⟨g1, g2, g3, g4⟩
        · exact Or.inl h
        · refine Or.inr ⟨g1, by omega, ?_, ?_⟩
          · rw [hw, if_neg (by omega)]; exact g3
          · intro c h1 h2
            rw [hw, if_neg (by omega)]
            exact g4 c h1 h2

end Peak

section InPlace

variable {α : Type} [LinearOrderedField α]

/-- The bin power depends on the cells `k`, `k+1` of the two arrays only. -/
theorem binPower_congr (M : MathEnv α) (n : Nat) (var : α) (k : Nat)
    (wk1 wk2 c1 c2 : Cells α) (h1 : wk1.get k = c1.get k)
    (h2 : wk1.get (k + 1) = c1.get (k + 1)) (h3 : wk2.get k = c2.get k)
    (h4 : wk2.get (k + 1) = c2.get (k + 1)) :
    binPower M n var k wk1 wk2 = binPower M n var k c1 c2 := by
  simp only [binPower, h1, h2, h3, h4]

/-- Iteration `j` of the assembly loop writes cell `j` of `wk1` only. -/
theorem fasperAssemblyStep_wk1 (M : MathEnv α) (n : Nat) (df var : α) (j : Nat)
    (s : AssemblyState α) (c : Nat) :
    (fasperAssemblyStep M n df var j s).wk1.get c
      = if c = j then (j : α) * df else s.wk1.get c := by
  rw [fasperAssemblyStep_eq, Cells.get_set]

/-- The assembly loop after `t` iterations, started on the transforms `c1`,
`c2`: the counter is `2t+3`, the cells above `t` (and cell 0) still hold the
transforms, and the cells `1..t` hold the bins computed from the transforms. -/
theorem assembly_in_place (M : MathEnv α) (n : Nat) (df var : α) (s0 : AssemblyState α)
    (hk : s0.k = 3) (t : Nat) :
    (loopFrom 1 (fasperAssemblyStep M n df var) s0 t).k = 2 * t + 3 ∧
    (∀ c, (c = 0 ∨ t < c) →
      (loopFrom 1 (fasperAssemblyStep M n df var) s0 t).wk1.get c = s0.wk1.get c ∧
      (loopFrom 1 (fasperAssemblyStep M n df var) s0 t).wk2.get c = s0.wk2.get c) ∧
    ∀ j, 1 ≤ j → j ≤ t →
      ((loopFrom 1 (fasperAssemblyStep M n df var) s0 t).wk1.get j,
        (loopFrom 1 (fasperAssemblyStep M n df var) s0 t).wk2.get j)
        = assemblyFromCopy M n df var s0.wk1 s0.wk2 j := by
  induction t with
  | zero =>
    exact ⟨by simp only [loopFrom, hk], fun c _ => ⟨rfl, rfl⟩, fun j h1 h2 => by omega⟩
  | succ t ih =>
    obtain ⟨ik, ifr, ib⟩ := ih
    simp only [loopFrom]
    generalize loopFrom 1 (fasperAssemblyStep M n df var) s0 t = a at ik ifr ib ⊢
    have hbin : binPower M n var a.k a.wk1 a.wk2
        = binPower M n var (2 * (1 + t) + 1) s0.wk1 s0.wk2 := by
      have e : a.k = 2 * (1 + t) + 1 := by omega
      rw [e]
      exact binPower_congr M n var _ _ _ _ _ (ifr _ (Or.inr (by omega))).1
        (ifr _ (Or.inr (by omega))).1 (ifr _ (Or.inr (by omega))).2
        (ifr _ (Or.inr (by omega))).2
    refine ⟨?_, ?_, ?_⟩
    · rw [fasperAssemblyStep_eq]; simp only; omega
    · intro c hc
      rw [fasperAssemblyStep_wk1, fasperAssemblyStep_wk2, if_neg (by omega), if_neg (by omega)]
      exact ifr c (by omega)
    · intro j h1 h2
      rw [fasperAssemblyStep_wk1, fasperAssemblyStep_wk2]
      by_cases hj : j = 1 + t
      · rw [if_pos hj, if_pos hj, hbin, hj]
        rfl
      · rw [if_neg hj, if_neg hj]
        exact ib j h1 (by omega)

end InPlace

section TwoSamples

/-- The coordinates of the two samples at the times 0 and 1 on a grid of length
128, when `fac` is the integer `F < 64`: cells 1 and `F + 1` of the data grid,
cells 1 and `2F + 1` of the window grid. -/
theorem two_sample_coords (fac : ℝ) (F : Nat) (hF : F < 64) (hfac : fac = (F : ℝ)) :
    fasperCoords (fun j : Nat => (j : ℝ) - 1) 0 fac ((128 : Nat) : ℝ) 1
      = some ((((1 : Nat) : Int) : ℝ), (((1 : Nat) : Int) : ℝ)) ∧
    fasperCoords (fun j : Nat => (j : ℝ) - 1) 0 fac ((128 : Nat) : ℝ) 2
      = some ((((F + 1 : Nat) : Int) : ℝ), (((2 * F + 1 : Nat) : Int) : ℝ)) := by
  have hFr : (F : ℝ) < 64 := by exact_mod_cast hF
  have hF0 : (0 : ℝ) ≤ (F : ℝ) := Nat.cast_nonneg F
  constructor
  · have e0 : (((1 : Nat) : ℝ) - 1 - 0) * fac = 0 := by norm_num
    have m0 : MOD (0 : ℝ) ((128 : Nat) : ℝ) = some 0 := MOD_of_lt _ _ (by norm_num)
    have m1 : MOD (2 * (0 : ℝ)) ((128 : Nat) : ℝ) = some 0 := by
      rw [mul_zero]; exact m0
    simp only [fasperCoords, e0, m0, m1]
    norm_num
  · have e0 : (((2 : Nat) : ℝ) - 1 - 0) * fac = (F : ℝ) := by rw [hfac]; norm_num
    have m0 : MOD (F : ℝ) ((128 : Nat) : ℝ) = some (F : ℝ) :=
      MOD_of_lt _ _ (by norm_num; linarith)
    have m1 : MOD (2 * (F : ℝ)) ((128 : Nat) : ℝ) = some (2 * (F : ℝ)) :=
      MOD_of_lt _ _ (by norm_num; linarith)
    simp only [fasperCoords, e0, m0, m1]
    push_cast
    rfl

/-- The extirpolation loop for two samples at the times 0 and 1 whose
coordinates are integers: each call of `spread` adds its weight to one cell. -/
theorem two_sample_loop (y : Nat → ℝ) (ave fac : ℝ) (F : Nat) (hF : F < 64)
    (hfac : fac = (F : ℝ)) (z : Cells ℝ × Cells ℝ) :
    loopFromX 1
      (fasperSpreadStep (fun j : Nat => (j : ℝ) - 1) y ave 0 fac ((128 : Nat) : ℝ) 128) z 2
      = some (.returned
          ((z.1.set 1 (z.1.get 1 + (y 1 - ave))).set (F + 1)
              ((z.1.set 1 (z.1.get 1 + (y 1 - ave))).get (F + 1) + (y 2 - ave)),
            (z.2.set 1 (z.2.get 1 + 1)).set (2 * F + 1)
              ((z.2.set 1 (z.2.get 1 + 1)).get (2 * F + 1) + 1))) := by
  obtain ⟨c1, c2⟩ := two_sample_coords fac F hF hfac
  have hm : ((MACC : Nat) : Int) ≤ 10 := by decide
  simp only [loopFromX]
  rw [fasperSpreadStep_coords, c1]
  simp only [spread_integer _ _ _ _ _ hm, Int.toNat_ofNat]
  rw [fasperSpreadStep_coords, c2]
  simp only [spread_integer _ _ _ _ _ hm, Int.toNat_ofNat]

end TwoSamples

section TwoSamplesTransform

open Finset

/-- The transform of a window grid that holds 1 in the cells 1 and `2F + 1` and
0 elsewhere: element `k` is `1 + W^(2Fk)` for the root `W = exp(iπ/64)`. -/
theorem two_sample_transform (M : MathEnv ℝ) (hM : M.Exact) (z2 : Cells ℝ)
    (hz : ∀ c, 1 ≤ c → c ≤ 128 → z2.get c = 0) (F : Nat) (hF1 : 1 ≤ F) (hF : F < 64) :
    ∃ o2 : Cells ℝ,
      realft M ((z2.set 1 (z2.get 1 + 1)).set (2 * F + 1)
        ((z2.set 1 (z2.get 1 + 1)).get (2 * F + 1) + 1)) 128 1 = some o2 ∧
      ∀ k, 1 ≤ k → k < 64 →
        cplx o2 k = 1 + Complex.exp (((Real.pi / 64 : ℝ) : ℂ) * Complex.I) ^ (2 * F * k) := by
  obtain ⟨o2, ho, -, -, hk⟩ := realft_dft_aux M hM 6
    ((z2.set 1 (z2.get 1 + 1)).set (2 * F + 1)
      ((z2.set 1 (z2.get 1 + 1)).get (2 * F + 1) + 1))
  have e128 : (2 : Nat) ^ (6 + 1) = 128 := by norm_num
  have e64 : (((2 : Nat) ^ 6 : Nat) : ℝ) = 64 := by norm_num
  rw [e128] at ho hk
  refine ⟨o2, ho, ?_⟩
  intro k k1 k2
  rw [hk k k1 (by norm_num; omega), e64]
  set W := Complex.exp (((Real.pi / 64 : ℝ) : ℂ) * Complex.I) with hW
  have hcell : ∀ j ∈ range 128,
      ((((z2.set 1 (z2.get 1 + 1)).set (2 * F + 1)
        ((z2.set 1 (z2.get 1 + 1)).get (2 * F + 1) + 1)).get (j + 1) : ℝ) : ℂ) * W ^ (j * k)
        = (if j = 0 then (1 : ℂ) else 0) + (if j = 2 * F then W ^ (2 * F * k) else 0) := by
    intro j hj
    rw [mem_range] at hj
    simp only [Cells.get_set]
    by_cases h0 : j = 0
    · subst h0
      rw [if_neg (by omega), if_pos rfl, if_pos rfl, if_neg (by omega),
        hz 1 (le_refl 1) (by norm_num)]
      simp
    · by_cases h1 : j = 2 * F
      · subst h1
        rw [if_pos rfl, if_neg (by omega), if_neg h0, if_pos rfl,
          hz (2 * F + 1) (by omega) (by omega)]
        simp
      · rw [if_neg (by omega), if_neg (by omega), if_neg h0, if_neg h1,
          hz (j + 1) (by omega) (by omega)]
        simp
  rw [sum_congr rfl hcell, sum_add_distrib, sum_ite_eq' (range 128) 0,
    sum_ite_eq' (range 128) (2 * F), if_pos (mem_range.mpr (by norm_num)),
    if_pos (mem_range.mpr (by omega))]

/-- Powers of the root `W = exp(iπ/64)`: `W^32 = i`, `W^64 = -1`, `W^128 = 1`. -/
theorem root128_pow :
    Complex.exp (((Real.pi / 64 : ℝ) : ℂ) * Complex.I) ^ 32 = Complex.I ∧
    Complex.exp (((Real.pi / 64 : ℝ) : ℂ) * Complex.I) ^ 64 = -1 ∧
    Complex.exp (((Real.pi / 64 : ℝ) : ℂ) * Complex.I) ^ 128 = 1 := by
  refine ⟨?_, ?_, ?_⟩
  · rw [← Complex.exp_nat_mul]
    have : ((32 : Nat) : ℂ) * (((Real.pi / 64 : ℝ) : ℂ) * Complex.I)
        = ((Real.pi / 2 : ℝ) : ℂ) * Complex.I := by push_cast; ring
    rw [this, Complex.exp_mul_I, ← Complex.ofReal_cos, ← Complex.ofReal_sin,
      Real.cos_pi_div_two, Real.sin_pi_div_two]
    simp
  · rw [← Complex.exp_nat_mul]
    have : ((64 : Nat) : ℂ) * (((Real.pi / 64 : ℝ) : ℂ) * Complex.I)
        = (Real.pi : ℂ) * Complex.I := by push_cast; ring
    rw [this, Complex.exp_pi_mul_I]
  · rw [← Complex.exp_nat_mul]
    have : ((128 : Nat) : ℂ) * (((Real.pi / 64 : ℝ) : ℂ) * Complex.I)
        = 2 * (Real.pi : ℂ) * Complex.I := by push_cast; ring
    rw [this, Complex.exp_two_pi_mul_I]

end TwoSamplesTransform

/-- With the real square root and a window pair other than `(0, 0)`:
`den = (n + hypo)/2`. -/
theorem fasperDen_eq (M : MathEnv ℝ) (hM : M.Exact) (n : Nat) (a b : ℝ)
    (hab : a ≠ 0 ∨ b ≠ 0) :
    fasperDen M n a b = ((n : ℝ) + fasperHypo M a b) / 2 := by
  obtain ⟨hp, hsq, -⟩ := fasperHypo_pos M hM a b hab
  unfold fasperDen fasperHc2wt fasperHs2wt
  have h0 : fasperHypo M a b ≠ 0 := ne_of_gt hp
  field_simp
  nlinarith

/-- With the real square root, a window pair other than `(0, 0)` with
`hypo ≤ n` and a non-negative variance, the bin power is non-negative. -/
theorem binPower_nonneg (M : MathEnv ℝ) (hM : M.Exact) (n : Nat) (var : ℝ) (k : Nat)
    (wk1 wk2 : Cells ℝ) (hab : wk2.get k ≠ 0 ∨ wk2.get (k + 1) ≠ 0)
    (hle : fasperHypo M (wk2.get k) (wk2.get (k + 1)) ≤ (n : ℝ)) (hvar : 0 ≤ var) :
    0 ≤ binPower M n var k wk1 wk2 := by
  obtain ⟨hp, -, -⟩ := fasperHypo_pos M hM _ _ hab
  have hden := fasperDen_eq M hM n _ _ hab
  have hn0 : (0 : ℝ) ≤ (n : ℝ) := Nat.cast_nonneg n
  have hsq : ∀ v : ℝ, 0 ≤ SQR v := by
    intro v
    unfold SQR
    split_ifs
    · exact le_refl _
    · exact mul_self_nonneg v
  rw [binPower_terms]
  apply div_nonneg _ (by linarith)
  apply add_nonneg
  · exact div_nonneg (hsq _) (by rw [hden]; linarith)
  · exact div_nonneg (hsq _) (by rw [hden]; linarith)

/-- The range of the times `0, 1`. -/
theorem fasperRange_two : fasperRange (fun j : Nat => (j : ℝ) - 1) 2 = (0, 1) := by
  simp only [fasperRange, forLoop, loopFrom]
  norm_num

/-- A run of `fasper` on two samples at the times 0 and 1, on a grid of length
128 where the samples fall on the cells `1` and `F + 1` (window grid: `1` and
`2F + 1`): the extirpolation loop, the two transforms and the call return, the
window transform has the elements `1 + W^(2Fk)`, and every bin left in `wk2` is
the bin power computed from the transforms. -/
theorem two_sample_run (M : MathEnv ℝ) (hM : M.Exact) (y : Nat → ℝ) (ofac hifac : ℝ)
    (nwk : Nat) (s : FasperState ℝ) (F : Nat) (hF1 : 1 ≤ F) (hF : F < 64)
    (hnd : fasperNdim 2 ofac hifac = some 128) (hnwk : 128 ≤ nwk)
    (hfac : ((128 : Nat) : ℝ) / ((1 - 0) * ofac) = (F : ℝ)) :
    ∃ (w : Cells ℝ × Cells ℝ) (c1 c2 : Cells ℝ) (r : FasperState ℝ),
      loopFromX 1
        (fasperSpreadStep (fun j : Nat => (j : ℝ) - 1) y (avevar y 2).1
          (fasperRange (fun j : Nat => (j : ℝ) - 1) 2).1
          (((128 : Nat) : ℝ) / (((fasperRange (fun j : Nat => (j : ℝ) - 1) 2).2
            - (fasperRange (fun j : Nat => (j : ℝ) - 1) 2).1) * ofac)) ((128 : Nat) : ℝ) 128)
        (fasperZero 128 s.wk1 s.wk2) 2 = some (.returned w) ∧
      realft M w.1 128 1 = some c1 ∧ realft M w.2 128 1 = some c2 ∧
      fasper M (fun j : Nat => (j : ℝ) - 1) y 2 ofac hifac nwk s = some (.returned r) ∧
      r.nout = fasperNout 2 ofac hifac ∧
      (∀ k, 1 ≤ k → k < 64 →
        cplx c2 k = 1 + Complex.exp (((Real.pi / 64 : ℝ) : ℂ) * Complex.I) ^ (2 * F * k)) ∧
      ∀ j, 1 ≤ j → j ≤ r.nout →
        r.wk2.get j = binPower M 2 (avevar y 2).2 (2 * j + 1) c1 c2 := by
  have hz : ∀ c, 1 ≤ c → c ≤ 128 → (fasperZero 128 s.wk1 s.wk2).2.get c = 0 := by
    intro c h1 h2
    rw [(fasperZero_get 128 s.wk1 s.wk2 c).2, if_pos ⟨h1, h2⟩]
  have hloop := two_sample_loop y (avevar y 2).1 (((128 : Nat) : ℝ) / ((1 - 0) * ofac)) F hF
    hfac (fasperZero 128 s.wk1 s.wk2)
  obtain ⟨c2, hc2, hk⟩ := two_sample_transform M hM (fasperZero 128 s.wk1 s.wk2).2 hz F hF1 hF
  obtain ⟨c1, hc1⟩ := realft_returns M
    (((fasperZero 128 s.wk1 s.wk2).1.set 1
        ((fasperZero 128 s.wk1 s.wk2).1.get 1 + (y 1 - (avevar y 2).1))).set (F + 1)
      (((fasperZero 128 s.wk1 s.wk2).1.set 1
        ((fasperZero 128 s.wk1 s.wk2).1.get 1 + (y 1 - (avevar y 2).1))).get (F + 1)
        + (y 2 - (avevar y 2).1))) 6
  have e128 : 2 * 2 ^ 6 = 128 := by norm_num
  rw [e128] at hc1
  obtain ⟨w, hw, hw1, hw2⟩ : ∃ w : Cells ℝ × Cells ℝ,
      loopFromX 1
        (fasperSpreadStep (fun j : Nat => (j : ℝ) - 1) y (avevar y 2).1 0
          (((128 : Nat) : ℝ) / ((1 - 0) * ofac)) ((128 : Nat) : ℝ) 128)
        (fasperZero 128 s.wk1 s.wk2) 2 = some (.returned w) ∧
      w.1 = ((fasperZero 128 s.wk1 s.wk2).1.set 1
          ((fasperZero 128 s.wk1 s.wk2).1.get 1 + (y 1 - (avevar y 2).1))).set (F + 1)
        (((fasperZero 128 s.wk1 s.wk2).1.set 1
          ((fasperZero 128 s.wk1 s.wk2).1.get 1 + (y 1 - (avevar y 2).1))).get (F + 1)
          + (y 2 - (avevar y 2).1)) ∧
      w.2 = ((fasperZero 128 s.wk1 s.wk2).2.set 1
          ((fasperZero 128 s.wk1 s.wk2).2.get 1 + 1)).set (2 * F + 1)
        (((fasperZero 128 s.wk1 s.wk2).2.set 1
          ((fasperZero 128 s.wk1 s.wk2).2.get 1 + 1)).get (2 * F + 1) + 1) :=
    ⟨_, hloop, rfl, rfl⟩
  rw [← hw1] at hc1
  rw [← hw2] at hc2
  have hloop2 : loopFromX 1
        (fasperSpreadStep (fun j : Nat => (j : ℝ) - 1) y (avevar y 2).1
          (fasperRange (fun j : Nat => (j : ℝ) - 1) 2).1
          (((128 : Nat) : ℝ) / (((fasperRange (fun j : Nat => (j : ℝ) - 1) 2).2
            - (fasperRange (fun j : Nat => (j : ℝ) - 1) 2).1) * ofac)) ((128 : Nat) : ℝ) 128)
        (fasperZero 128 s.wk1 s.wk2) 2 = some (.returned w) := by
    rw [fasperRange_two]
    exact hw
  have hf := fasper_eq M (fun j : Nat => (j : ℝ) - 1) y 2 ofac hifac nwk s 128 hnd hnwk w
    hloop2 c1 c2 hc1 hc2
  refine ⟨w, c1, c2, _, hloop2, hc1, hc2, hf, rfl, hk, ?_⟩
  intro j h1 h2
  have := (assembly_in_place M 2
    (1 / (((fasperRange (fun j : Nat => (j : ℝ) - 1) 2).2
      - (fasperRange (fun j : Nat => (j : ℝ) - 1) 2).1) * ofac)) (avevar y 2).2
    { k := 3, pmax := -1, jmax := s.jmax, wk1 := c1, wk2 := c2 } rfl
    (fasperNout 2 ofac hifac)).2.2 j h1 h2
  exact congrArg Prod.snd this

/-- A bin of a two-sample run whose window element is `1 + W^m` with `m < 64`
(an angle below `π`): the window pair is `(1 + cos θ, sin θ)`, not `(0, 0)`,
with `hypo ≤ 2`, and the bin power is non-negative. -/
theorem two_sample_bin_nonneg (M : MathEnv ℝ) (hM : M.Exact) (var : ℝ) (hvar : 0 ≤ var)
    (c1 c2 : Cells ℝ) (k m : Nat) (hm : m < 64)
    (hk : cplx c2 k = 1 + Complex.exp (((Real.pi / 64 : ℝ) : ℂ) * Complex.I) ^ m) :
    (c2.get (2 * k + 1) ≠ 0 ∨ c2.get (2 * k + 1 + 1) ≠ 0) ∧
    0 ≤ binPower M 2 var (2 * k + 1) c1 c2 := by
  have hpow : Complex.exp (((Real.pi / 64 : ℝ) : ℂ) * Complex.I) ^ m
      = (Real.cos ((m : ℝ) * Real.pi / 64) : ℂ)
        + (Real.sin ((m : ℝ) * Real.pi / 64) : ℂ) * Complex.I := by
    rw [← Complex.exp_nat_mul]
    have : ((m : Nat) : ℂ) * (((Real.pi / 64 : ℝ) : ℂ) * Complex.I)
        = (((m : ℝ) * Real.pi / 64 : ℝ) : ℂ) * Complex.I := by push_cast; ring
    rw [this, Complex.exp_mul_I, ← Complex.ofReal_cos, ← Complex.ofReal_sin]
  rw [hpow] at hk
  have h2 : cplx c2 k
      = ⟨1 + Real.cos ((m : ℝ) * Real.pi / 64), Real.sin ((m : ℝ) * Real.pi / 64)⟩ := by
    rw [hk]
    apply Complex.ext
    · simp only [Complex.add_re, Complex.one_re, Complex.ofReal_re, Complex.mul_re,
        Complex.I_re, Complex.I_im, Complex.ofReal_im]
      ring
    · simp only [Complex.add_im, Complex.one_im, Complex.ofReal_im, Complex.mul_im,
        Complex.I_re, Complex.I_im, Complex.ofReal_re]
      ring
  have hre : c2.get (2 * k + 1) = 1 + Real.cos ((m : ℝ) * Real.pi / 64) :=
    congrArg Complex.re h2
  have him : c2.get (2 * k + 1 + 1) = Real.sin ((m : ℝ) * Real.pi / 64) :=
    congrArg Complex.im h2
  have hmr : (m : ℝ) < 64 := by exact_mod_cast hm
  have hm0 : (0 : ℝ) ≤ (m : ℝ) := Nat.cast_nonneg m
  have hθ0 : 0 ≤ (m : ℝ) * Real.pi / 64 := by positivity
  have hθ1 : (m : ℝ) * Real.pi / 64 < Real.pi := by
    have := Real.pi_pos
    rw [div_lt_iff₀ (by norm_num : (0 : ℝ) < 64)]
    nlinarith
  have hcos : -1 < Real.cos ((m : ℝ) * Real.pi / 64) := by
    have := Real.cos_lt_cos_of_nonneg_of_le_pi hθ0 (le_refl Real.pi) hθ1
    rwa [Real.cos_pi] at this
  have hcos1 : Real.cos ((m : ℝ) * Real.pi / 64) ≤ 1 := Real.cos_le_one _
  have hsc := Real.sin_sq_add_cos_sq ((m : ℝ) * Real.pi / 64)
  have hab : c2.get (2 * k + 1) ≠ 0 ∨ c2.get (2 * k + 1 + 1) ≠ 0 := by
    left
    rw [hre]
    linarith
  refine ⟨hab, binPower_nonneg M hM 2 var (2 * k + 1) c1 c2 hab ?_ hvar⟩
  unfold fasperHypo
  rw [hM.2.1, hre, him, Real.sqrt_le_iff]
  constructor
  · norm_num
  · push_cast
    nlinarith

/-- C11, counterexample: the two samples `(0, 1)`, `(1, 3)` with the driver's
`ofac = 4`, `hifac = 2` are a valid input (distinct times, non-zero variance),
and `fasper` returns with 8 bins; yet the window transform `c2` that enters the
assembly loop has `(wk2[3], wk2[4]) = (0, 0)`, so iteration `j = 1` computes
`hypo = 0` and divides by it, and `(wk2[5], wk2[6]) = (2, 0)`, so iteration
`j = 2` computes `den = 2 = n` and divides by `n - den = 0`. -/
theorem fasper_division_by_zero :
    (fun j : Nat => (j : ℝ) - 1) 1 ≠ (fun j : Nat => (j : ℝ) - 1) 2 ∧
    (avevar (fun j : Nat => 2 * (j : ℝ) - 1) 2).2 ≠ 0 ∧
    ∃ (w : Cells ℝ × Cells ℝ) (c1 c2 : Cells ℝ) (r : FasperState ℝ),
      loopFromX 1
        (fasperSpreadStep (fun j : Nat => (j : ℝ) - 1) (fun j : Nat => 2 * (j : ℝ) - 1)
          (avevar (fun j : Nat => 2 * (j : ℝ) - 1) 2).1
          (fasperRange (fun j : Nat => (j : ℝ) - 1) 2).1
          (((128 : Nat) : ℝ) / (((fasperRange (fun j : Nat => (j : ℝ) - 1) 2).2
            - (fasperRange (fun j : Nat => (j : ℝ) - 1) 2).1) * 4)) ((128 : Nat) : ℝ) 128)
        (fasperZero 128 (⟨fun _ => 0⟩ : Cells ℝ) (⟨fun _ => 0⟩ : Cells ℝ)) 2
        = some (.returned w) ∧
      realft ⟨Real.sin, Real.sqrt, Real.exp, fun a b => a ^ b, Real.pi, 2 * Real.pi⟩
        w.1 128 1 = some c1 ∧
      realft ⟨Real.sin, Real.sqrt, Real.exp, fun a b => a ^ b, Real.pi, 2 * Real.pi⟩
        w.2 128 1 = some c2 ∧
      fasper ⟨Real.sin, Real.sqrt, Real.exp, fun a b => a ^ b, Real.pi, 2 * Real.pi⟩
        (fun j : Nat => (j : ℝ) - 1) (fun j : Nat => 2 * (j : ℝ) - 1) 2 4 2 32768
        ⟨⟨fun _ => 0⟩, ⟨fun _ => 0⟩, 0, 0, 0, 0⟩ = some (.returned r) ∧
      r.nout = 8 ∧
      c2.get 3 = 0 ∧ c2.get 4 = 0 ∧
      fasperHypo ⟨Real.sin, Real.sqrt, Real.exp, fun a b => a ^ b, Real.pi, 2 * Real.pi⟩
        (c2.get 3) (c2.get 4) = 0 ∧
      c2.get 5 = 2 ∧ c2.get 6 = 0 ∧
      ((2 : Nat) : ℝ)
        - fasperDen ⟨Real.sin, Real.sqrt, Real.exp, fun a b => a ^ b, Real.pi, 2 * Real.pi⟩
            2 (c2.get 5) (c2.get 6) = 0 := by
  have hM : MathEnv.Exact
      ⟨Real.sin, Real.sqrt, Real.exp, fun a b => a ^ b, Real.pi, 2 * Real.pi⟩ :=
    ⟨rfl, rfl, rfl, fun _ _ => rfl, rfl, rfl⟩
  have hnd : fasperNdim 2 (4 : ℝ) 2 = some 128 := by
    rw [fasperNdim, fasperNfreqt_driver]; rfl
  obtain ⟨w, c1, c2, r, h1, h2, h3, h4, h5, hk, -⟩ := two_sample_run _ hM
    (fun j : Nat => 2 * (j : ℝ) - 1) 4 2 32768 ⟨⟨fun _ => 0⟩, ⟨fun _ => 0⟩, 0, 0, 0, 0⟩ 32
    (by norm_num) (by norm_num) hnd (by norm_num) (by norm_num)
  have hvar : (avevar (fun j : Nat => 2 * (j : ℝ) - 1) 2).2 = 2 := by
    simp only [avevar, avevarMean, avevarPass2, forLoop, loopFrom]
    norm_num
  have hnout : fasperNout 2 (4 : ℝ) 2 = 8 := by
    rw [fasperNout_intCast 2 (4 : ℝ) 2 8 (by norm_num)]; rfl
  obtain ⟨p32, p64, p128⟩ := root128_pow
  have k1 := hk 1 (le_refl 1) (by norm_num)
  have k2 := hk 2 (by norm_num) (by norm_num)
  rw [show 2 * 32 * 1 = 64 from rfl, p64] at k1
  rw [show 2 * 32 * 2 = 128 from rfl, p128] at k2
  have a3 : c2.get 3 = 0 := by
    have := congrArg Complex.re k1
    simpa [cplx] using this
  have a4 : c2.get 4 = 0 := by
    have := congrArg Complex.im k1
    simpa [cplx] using this
  have a5 : c2.get 5 = 2 := by
    have := congrArg Complex.re k2
    simp only [cplx, Complex.add_re, Complex.one_re] at this
    linarith
  have a6 : c2.get 6 = 0 := by
    have := congrArg Complex.im k2
    simpa [cplx] using this
  refine ⟨by norm_num, by rw [hvar]; norm_num, w, c1, c2, r, h1, h2, h3, h4,
    by rw [h5, hnout], a3, a4, ?_, a5, a6, ?_⟩
  · rw [a3, a4]
    simp [fasperHypo]
  · rw [a5, a6]
    have hs : Real.sqrt (2 * 2 + 0 * 0) = 2 := by
      rw [show (2 : ℝ) * 2 + 0 * 0 = 2 * 2 by norm_num]
      exact Real.sqrt_mul_self (by norm_num)
    simp only [fasperDen, fasperHc2wt, fasperHs2wt, fasperHypo, hs]
    norm_num

/-- C11, amended: over exact real arithmetic, in an assembly iteration of
`fasper` on `n ≥ 1` samples whose window pair `(wk2[k], wk2[k+1])` is not
`(0, 0)`, `hypo` is positive and `den = (n + hypo)/2` is positive, so `hc2wt`,
`hs2wt` and `cterm` involve no division by zero; `n - den = (n - hypo)/2`, which
is non-zero exactly when `hypo ≠ n`. -/
theorem fasper_division_terms (M : MathEnv ℝ) (hM : M.Exact) (n : Nat) (_hn : 1 ≤ n)
    (s : AssemblyState ℝ) (hab : s.wk2.get s.k ≠ 0 ∨ s.wk2.get (s.k + 1) ≠ 0) :
    0 < fasperHypo M (s.wk2.get s.k) (s.wk2.get (s.k + 1)) ∧
    fasperDen M n (s.wk2.get s.k) (s.wk2.get (s.k + 1))
      = ((n : ℝ) + fasperHypo M (s.wk2.get s.k) (s.wk2.get (s.k + 1))) / 2 ∧
    0 < fasperDen M n (s.wk2.get s.k) (s.wk2.get (s.k + 1)) ∧
    (n : ℝ) - fasperDen M n (s.wk2.get s.k) (s.wk2.get (s.k + 1))
      = ((n : ℝ) - fasperHypo M (s.wk2.get s.k) (s.wk2.get (s.k + 1))) / 2 ∧
    ((n : ℝ) - fasperDen M n (s.wk2.get s.k) (s.wk2.get (s.k + 1)) ≠ 0 ↔
      fasperHypo M (s.wk2.get s.k) (s.wk2.get (s.k + 1)) ≠ (n : ℝ)) := by
  obtain ⟨hp, -, -⟩ := fasperHypo_pos M hM _ _ hab
  have hden := fasperDen_eq M hM n _ _ hab
  have hn0 : (0 : ℝ) ≤ (n : ℝ) := Nat.cast_nonneg n
  refine ⟨hp, hden, by rw [hden]; linarith, by rw [hden]; ring, ?_⟩
  rw [hden]
  constructor
  · intro h h2
    apply h
    rw [h2]; ring
  · intro h h2
    apply h
    linarith

/-- Witness for C11 (amended): two samples and the window pair `(2, 0)` read at
`k = 5`. -/
theorem fasper_division_terms_witness :
    0 < fasperHypo ⟨Real.sin, Real.sqrt, Real.exp, fun a b => a ^ b, Real.pi, 2 * Real.pi⟩
      ((⟨fun c => if c = 5 then (2 : ℝ) else 0⟩ : Cells ℝ).get 5)
      ((⟨fun c => if c = 5 then (2 : ℝ) else 0⟩ : Cells ℝ).get (5 + 1)) :=
  (fasper_division_terms
    ⟨Real.sin, Real.sqrt, Real.exp, fun a b => a ^ b, Real.pi, 2 * Real.pi⟩
    ⟨rfl, rfl, rfl, fun _ _ => rfl, rfl, rfl⟩ 2 (by norm_num)
    ⟨5, -1, 0, ⟨fun _ => 0⟩, ⟨fun c => if c = 5 then (2 : ℝ) else 0⟩⟩
    (Or.inl (by norm_num))).1

/-- C14: when `fasper` returns with `nout ≥ 1` and every bin power
`wk2[1..nout]` greater than -1 (the initial `pmax`), the peak index `*jmax`
lies in `1..nout`, `wk2[jmax] ≥ wk2[j]` for every `j` in `1..nout`, every bin
before `jmax` is strictly smaller (so `jmax` is the first index attaining the
maximum), and the probability is computed from `pmax = wk2[jmax]`. -/
theorem fasper_peak {α : Type} [LinearOrderedField α] [FloorRing α]
    (M : MathEnv α) (x y : Nat → α) (n : Nat) (ofac hifac : α) (nwk : Nat)
    (s r : FasperState α)
    (hr : fasper M x y n ofac hifac nwk s = some (.returned r))
    (hnout : 1 ≤ r.nout) (hbins : ∀ j, 1 ≤ j → j ≤ r.nout → r.wk2.get j > -1) :
    1 ≤ r.jmax ∧ r.jmax ≤ r.nout ∧
    (∀ j, 1 ≤ j → j ≤ r.nout → r.wk2.get j ≤ r.wk2.get r.jmax) ∧
    (∀ j, 1 ≤ j → j < r.jmax → r.wk2.get j < r.wk2.get r.jmax) ∧
    r.prob = fasperProb M r.nout ofac (r.wk2.get r.jmax) := by
  obtain ⟨ndim, w, o1, o2, hnd, hcap, hw, ho1, ho2⟩ :=
    fasper_returned_inv M x y n ofac hifac nwk s r hr
  rw [fasper_eq M x y n ofac hifac nwk s ndim hnd hcap w hw o1 o2 ho1 ho2] at hr
  injection hr with hr
  injection hr with hr
  subst hr
  simp only at hnout hbins ⊢
  obtain ⟨p1, p2⟩ := assembly_peak M n
    (1 / (((fasperRange x n).2 - (fasperRange x n).1) * ofac)) (avevar y n).2
    { k := 3, pmax := -1, jmax := s.jmax, wk1 := o1, wk2 := o2 } (fasperNout n ofac hifac)
  rcases p2 with ⟨q1, -⟩ | ⟨g1, g2, g3, g4⟩
  · exfalso
    have a := p1 1 (le_refl 1) hnout
    have b := hbins 1 (le_refl 1) hnout
    rw [q1] at a
    simp only at a
    exact absurd (lt_of_lt_of_le b a) (lt_irrefl _)
  · refine ⟨g1, g2, ?_, ?_, by rw [g3]⟩
    · intro j h1 h2
      rw [← g3]; exact p1 j h1 h2
    · intro j h1 h2
      rw [← g3]; exact g4 j h1 h2

/-- Witness for C14: the two samples `(0, 1)`, `(1, 3)` with `ofac = 16`,
`hifac = 3/16`, which give three bins; their window pairs are
`(1 + cos(jπ/4), sin(jπ/4))` for `j = 1, 2, 3`, none is `(0, 0)` or has
`hypo = n`, the variance is 2, and the three bin powers are non-negative. -/
theorem fasper_peak_witness :
    ∃ r : FasperState ℝ,
      fasper ⟨Real.sin, Real.sqrt, Real.exp, fun a b => a ^ b, Real.pi, 2 * Real.pi⟩
        (fun j : Nat => (j : ℝ) - 1) (fun j : Nat => 2 * (j : ℝ) - 1) 2 16 (3 / 16) 128
        ⟨⟨fun _ => 0⟩, ⟨fun _ => 0⟩, 0, 0, 0, 0⟩ = some (.returned r) ∧
      r.nout = 3 ∧
      (∀ j, 1 ≤ j → j ≤ r.nout → r.wk2.get j > -1) ∧
      1 ≤ r.jmax ∧ r.jmax ≤ r.nout ∧
      (∀ j, 1 ≤ j → j ≤ r.nout → r.wk2.get j ≤ r.wk2.get r.jmax) ∧
      (∀ j, 1 ≤ j → j < r.jmax → r.wk2.get j < r.wk2.get r.jmax) ∧
      r.prob = fasperProb
        ⟨Real.sin, Real.sqrt, Real.exp, fun a b => a ^ b, Real.pi, 2 * Real.pi⟩ r.nout 16
        (r.wk2.get r.jmax) := by
  have hM : MathEnv.Exact
      ⟨Real.sin, Real.sqrt, Real.exp, fun a b => a ^ b, Real.pi, 2 * Real.pi⟩ :=
    ⟨rfl, rfl, rfl, fun _ _ => rfl, rfl, rfl⟩
  have hnd : fasperNdim 2 (16 : ℝ) (3 / 16) = some 128 := by
    rw [fasperNdim, fasperNfreqt_intCast 2 (16 : ℝ) (3 / 16) 24 (by norm_num [MACC])]; rfl
  obtain ⟨w, c1, c2, r, -, -, -, h4, h5, hk, hb⟩ := two_sample_run _ hM
    (fun j : Nat => 2 * (j : ℝ) - 1) 16 (3 / 16) 128
    ⟨⟨fun _ => 0⟩, ⟨fun _ => 0⟩, 0, 0, 0, 0⟩ 8
    (by norm_num) (by norm_num) hnd (by norm_num) (by norm_num)
  have hvar : (avevar (fun j : Nat => 2 * (j : ℝ) - 1) 2).2 = 2 := by
    simp only [avevar, avevarMean, avevarPass2, forLoop, loopFrom]
    norm_num
  have hnout : r.nout = 3 := by
    rw [h5, fasperNout_intCast 2 (16 : ℝ) (3 / 16) 3 (by norm_num)]; rfl
  have hbins : ∀ j, 1 ≤ j → j ≤ r.nout → r.wk2.get j > -1 := by
    intro j j1 j2
    have hj3 : j ≤ 3 := by omega
    have hnn := (two_sample_bin_nonneg _ hM 2 (by norm_num) c1 c2 j (2 * 8 * j) (by omega)
      (hk j j1 (by omega))).2
    rw [hb j j1 j2, hvar]
    linarith
  exact ⟨r, h4, hnout, hbins,
    fasper_peak _ _ _ 2 16 (3 / 16) 128 _ r h4 (by omega) hbins⟩

/-- C22: when `fasper` returns on a grid length in range, with `c1`, `c2` the
two transforms that enter the assembly loop: every iteration `j` in `1..nout`
has `j < 2j+1` and `2j+2 ≤ ndim`; it starts with `k = 2j+1` in a state whose
cells above `j-1` still hold the transforms; what it writes is determined by
the cells `k`, `k+1` it reads, and it writes cell `j` of each array only; so
the frequency `wk1[j]` and the power `wk2[j]` left in place are those computed
from unmodified copies of the transforms. -/
theorem fasper_assembly_in_place {α : Type} [LinearOrderedField α] [FloorRing α]
    (M : MathEnv α) (x y : Nat → α) (n : Nat) (ofac hifac : α) (nwk : Nat)
    (s r : FasperState α)
    (hr : fasper M x y n ofac hifac nwk s = some (.returned r))
    (hrange : fasperNfreqt n ofac hifac ≤ 2 ^ 62) :
    ∃ (ndim : Nat) (w : Cells α × Cells α) (c1 c2 : Cells α),
      fasperNdim n ofac hifac = some ndim ∧
      realft M w.1 ndim 1 = some c1 ∧ realft M w.2 ndim 1 = some c2 ∧
      (∀ j, 1 ≤ j → j ≤ r.nout → j < 2 * j + 1 ∧ 2 * j + 2 ≤ ndim) ∧
      (∀ j, 1 ≤ j → j ≤ r.nout →
        (loopFrom 1 (fasperAssemblyStep M n
            (1 / (((fasperRange x n).2 - (fasperRange x n).1) * ofac)) (avevar y n).2)
          { k := 3, pmax := -1, jmax := s.jmax, wk1 := c1, wk2 := c2 } (j - 1)).k = 2 * j + 1 ∧
        ∀ c, j ≤ c →
          (loopFrom 1 (fasperAssemblyStep M n
              (1 / (((fasperRange x n).2 - (fasperRange x n).1) * ofac)) (avevar y n).2)
            { k := 3, pmax := -1, jmax := s.jmax, wk1 := c1, wk2 := c2 } (j - 1)).wk1.get c
            = c1.get c ∧
          (loopFrom 1 (fasperAssemblyStep M n
              (1 / (((fasperRange x n).2 - (fasperRange x n).1) * ofac)) (avevar y n).2)
            { k := 3, pmax := -1, jmax := s.jmax, wk1 := c1, wk2 := c2 } (j - 1)).wk2.get c
            = c2.get c) ∧
      (∀ (df var : α) (j : Nat) (a b : AssemblyState α), a.k = b.k →
        a.wk1.get a.k = b.wk1.get a.k → a.wk1.get (a.k + 1) = b.wk1.get (a.k + 1) →
        a.wk2.get a.k = b.wk2.get a.k → a.wk2.get (a.k + 1) = b.wk2.get (a.k + 1) →
        (fasperAssemblyStep M n df var j a).wk1.get j
          = (fasperAssemblyStep M n df var j b).wk1.get j ∧
        (fasperAssemblyStep M n df var j a).wk2.get j
          = (fasperAssemblyStep M n df var j b).wk2.get j) ∧
      (∀ (df var : α) (j : Nat) (a : AssemblyState α) (c : Nat), c ≠ j →
        (fasperAssemblyStep M n df var j a).wk1.get c = a.wk1.get c ∧
        (fasperAssemblyStep M n df var j a).wk2.get c = a.wk2.get c) ∧
      ∀ j, 1 ≤ j → j ≤ r.nout →
        (r.wk1.get j, r.wk2.get j)
          = assemblyFromCopy M n (1 / (((fasperRange x n).2 - (fasperRange x n).1) * ofac))
              (avevar y n).2 c1 c2 j := by
  obtain ⟨ndim, w, o1, o2, hnd, hcap, hw, ho1, ho2⟩ :=
    fasper_returned_inv M x y n ofac hifac nwk s r hr
  rw [fasper_eq M x y n ofac hifac nwk s ndim hnd hcap w hw o1 o2 ho1 ho2] at hr
  injection hr with hr
  injection hr with hr
  subst hr
  obtain ⟨e, he, h6, _, hle, _⟩ := fasperNdim_spec n ofac hifac hrange
  have hb := fasper_nout_bound n ofac hifac e h6 hle
  have hndim : ndim = 2 * 2 ^ e := by
    rw [he] at hnd; injection hnd with hnd; exact hnd.symm
  refine ⟨ndim, w, o1, o2, hnd, ho1, ho2, ?_, ?_, ?_, ?_, ?_⟩
  · intro j h1 h2
    simp only at h2
    omega
  · intro j h1 h2
    obtain ⟨ik, ifr, -⟩ := assembly_in_place M n
      (1 / (((fasperRange x n).2 - (fasperRange x n).1) * ofac)) (avevar y n).2
      { k := 3, pmax := -1, jmax := s.jmax, wk1 := o1, wk2 := o2 } rfl (j - 1)
    refine ⟨by rw [ik]; omega, fun c hc => ifr c (Or.inr (by omega))⟩
  · intro df var j a b hk e1 e2 e3 e4
    rw [fasperAssemblyStep_wk1, fasperAssemblyStep_wk1, fasperAssemblyStep_wk2,
      fasperAssemblyStep_wk2, if_pos rfl, if_pos rfl, if_pos rfl, if_pos rfl, ← hk]
    exact ⟨rfl, binPower_congr M n var a.k _ _ _ _ e1 e2 e3 e4⟩
  · intro df var j a c hc
    rw [fasperAssemblyStep_wk1, fasperAssemblyStep_wk2, if_neg hc, if_neg hc]
    exact ⟨rfl, rfl⟩
  · intro j h1 h2
    exact (assembly_in_place M n
      (1 / (((fasperRange x n).2 - (fasperRange x n).1) * ofac)) (avevar y n).2
      { k := 3, pmax := -1, jmax := s.jmax, wk1 := o1, wk2 := o2 } rfl
      (fasperNout n ofac hifac)).2.2 j h1 h2

/-- Witness for C22: the samples `(0, 1)`, `(1, 2)` with the driver's `ofac = 4`,
`hifac = 2` and capacity `64*512`; every bin `j` in `1..nout` has
`2j+2 ≤ ndim`. -/
theorem fasper_assembly_in_place_witness :
    ∃ (r : FasperState ℝ) (ndim : Nat),
      fasper ⟨Real.sin, Real.sqrt, Real.exp, fun a b => a ^ b, Real.pi, 2 * Real.pi⟩
        (fun j => (j : ℝ) - 1) (fun j => (j : ℝ)) 2 4 2 32768
        ⟨⟨fun _ => 0⟩, ⟨fun _ => 0⟩, 0, 0, 0, 0⟩ = some (.returned r) ∧
      fasperNdim 2 (4 : ℝ) 2 = some ndim ∧
      ∀ j, 1 ≤ j → j ≤ r.nout → j < 2 * j + 1 ∧ 2 * j + 2 ≤ ndim := by
  have hq : fasperNfreqt 2 (4 : ℝ) 2 = 32 * 2 := fasperNfreqt_driver 2
  have hrange : fasperNfreqt 2 (4 : ℝ) 2 ≤ 2 ^ 62 := by rw [hq]; norm_num
  obtain ⟨e, he, h6, _, hle, hmin⟩ := fasperNdim_spec 2 (4 : ℝ) 2 hrange
  have he6 : e ≤ 6 := hmin 6 (le_refl 6) (by rw [hq]; norm_num)
  have hpow : 2 ^ e ≤ 2 ^ 6 := Nat.pow_le_pow_right (by norm_num) he6
  obtain ⟨r, hr, -⟩ := fasper_returns
    ⟨Real.sin, Real.sqrt, Real.exp, fun a b => a ^ b, Real.pi, 2 * Real.pi⟩
    (fun j => (j : ℝ) - 1) (fun j => (j : ℝ)) 2 4 2 32768
    ⟨⟨fun _ => 0⟩, ⟨fun _ => 0⟩, 0, 0, 0, 0⟩ e he (by omega)
  obtain ⟨ndim, _, _, _, h1, _, _, h4, _⟩ := fasper_assembly_in_place
    ⟨Real.sin, Real.sqrt, Real.exp, fun a b => a ^ b, Real.pi, 2 * Real.pi⟩
    (fun j => (j : ℝ) - 1) (fun j => (j : ℝ)) 2 4 2 32768
    ⟨⟨fun _ => 0⟩, ⟨fun _ => 0⟩, 0, 0, 0, 0⟩ r hr hrange
  exact ⟨r, ndim, hr, h1, h4⟩

section Shift

variable {α : Type} [LinearOrderedField α]

/-- A counted loop depends on its body at the indices it runs through only. -/
theorem loopFromX_congr {σ : Type} (lo : Nat) (body1 body2 : Nat → σ → Option (Outcome σ))
    (s : σ) (k : Nat) (h : ∀ j, lo ≤ j → j < lo + k → ∀ t, body1 j t = body2 j t) :
    loopFromX lo body1 s k = loopFromX lo body2 s k := by
  induction k with
  | zero => rfl
  | succ k ih =>
    have ih1 := ih (fun j h1 h2 t => h j h1 (by omega) t)
    simp only [loopFromX, ih1]
    rcases loopFromX lo body2 s k with _ | (r | _)
    · rfl
    · exact h (lo + k) (by omega) (by omega) r
    · rfl

/-- Adding `c` to the values `1..n` adds `c` to the mean and keeps the
variance. -/
theorem avevar_shift (y y1 : Nat → α) (n : Nat) (c : α) (hn : 1 ≤ n)
    (hy : ∀ j, 1 ≤ j → j ≤ n → y1 j = y j + c) :
    avevar y1 n = ((avevar y n).1 + c, (avevar y n).2) := by
  have hn0 : (n : α) ≠ 0 := by exact_mod_cast (by omega : n ≠ 0)
  have hm : avevarMean y1 n = avevarMean y n + c := by
    rw [avevarMean_eq, avevarMean_eq]
    have : ∑ j in Finset.Icc 1 n, y1 j = ∑ j in Finset.Icc 1 n, (y j + c) :=
      Finset.sum_congr rfl (fun j hj => by
        rw [Finset.mem_Icc] at hj; exact hy j hj.1 hj.2)
    rw [this, Finset.sum_add_distrib, Finset.sum_const, Nat.card_Icc]
    simp only [Nat.add_sub_cancel, nsmul_eq_mul]
    field_simp
    ring
  have hp : avevarPass2 y1 n (avevarMean y n + c) = avevarPass2 y n (avevarMean y n) := by
    rw [avevarPass2_eq, avevarPass2_eq]
    have e : ∀ j ∈ Finset.Icc 1 n, y1 j - (avevarMean y n + c) = y j - avevarMean y n := by
      intro j hj
      rw [Finset.mem_Icc] at hj
      rw [hy j hj.1 hj.2]; ring
    rw [Finset.sum_congr rfl e,
      Finset.sum_congr rfl (fun j hj => by rw [e j hj] :
        ∀ j ∈ Finset.Icc 1 n, (y1 j - (avevarMean y n + c)) * (y1 j - (avevarMean y n + c))
          = (y j - avevarMean y n) * (y j - avevarMean y n))]
  simp only [avevar, hm, hp]

/-- The function `zeromean` subtracts the mean of the cells `0..n-1` from each
of them and leaves the other cells. -/
theorem zeromean_get (y : Cells α) (n : Nat) (i : Nat) :
    (zeromean y n).get i
      = if i < n then
          y.get i - loopFrom 0 (fun i mean => mean + y.get i) 0 n / (n : α)
        else y.get i := by
  unfold zeromean
  simp only
  generalize loopFrom 0 (fun i mean => mean + y.get i) 0 n / (n : α) = mean
  have key : ∀ k : Nat, (loopFrom 0 (fun i (yy : Cells α) => yy.set i (yy.get i - mean)) y k).get i
      = if i < k then y.get i - mean else y.get i := by
    intro k
    induction k with
    | zero => simp [loopFrom]
    | succ k ih =>
      simp only [loopFrom, Cells.get_set, Nat.zero_add]
      by_cases h : i = k
      · subst h
        rw [if_pos rfl, ih, if_neg (lt_irrefl _), if_pos (Nat.lt_succ_self _)]
      · rw [if_neg h, ih]
        by_cases h2 : i < k
        · rw [if_pos h2, if_pos (by omega)]
        · rw [if_neg h2, if_neg (by omega)]
  exact key n

end Shift

section ShiftFasper

variable {α : Type} [LinearOrderedField α] [FloorRing α]

/-- Adding a constant to the sample values `1..n` does not change what
`fasper` does. -/
theorem fasper_shift (M : MathEnv α) (x y y1 : Nat → α) (n : Nat) (ofac hifac : α)
    (nwk : Nat) (s : FasperState α) (c : α) (hn : 1 ≤ n)
    (hy : ∀ j, 1 ≤ j → j ≤ n → y1 j = y j + c) :
    fasper M x y1 n ofac hifac nwk s = fasper M x y n ofac hifac nwk s := by
  have hav := avevar_shift y y1 n c hn hy
  have hloop : ∀ (ndim : Nat) (xmin fac : α) (z : Cells α × Cells α),
      loopFromX 1 (fasperSpreadStep x y1 ((avevar y n).1 + c) xmin fac (ndim : α) ndim) z n
        = loopFromX 1 (fasperSpreadStep x y (avevar y n).1 xmin fac (ndim : α) ndim) z n := by
    intro ndim xmin fac z
    apply loopFromX_congr
    intro j h1 h2 t
    have e : y1 j - ((avevar y n).1 + c) = y j - (avevar y n).1 := by
      rw [hy j h1 (by omega)]; ring
    simp only [fasperSpreadStep, e]
  simp only [fasper, hav, hloop]

/-- The driver's call of `fasper` does the same with and without `-z`. -/
theorem mainFasper_zflag (M : MathEnv α) (x0 y0 : Cells α) (samples : List (α × α))
    (s : FasperState α) :
    mainFasper M true x0 y0 samples s = mainFasper M false x0 y0 samples s := by
  simp only [mainFasper, if_true, Bool.false_eq_true, if_false]
  rcases Nat.eq_zero_or_pos (input x0 y0 samples).n with h0 | h0
  · rw [h0]
    rfl
  · apply fasper_shift M _ _ _ _ 4 2 _ s
      (-(loopFrom 0 (fun i mean => mean + (input x0 y0 samples).y.get i) 0
          (input x0 y0 samples).n / ((input x0 y0 samples).n : α))) h0
    intro j h1 h2
    rw [zeromean_get, if_pos (by omega)]
    ring

/-- For at most 512 pairs the driver's call of `fasper` returns. -/
theorem mainFasper_returns (M : MathEnv α) (zflag : Bool) (x0 y0 : Cells α)
    (samples : List (α × α)) (s : FasperState α) (hn : samples.length ≤ 512) :
    ∃ r, mainFasper M zflag x0 y0 samples s = some (.returned r) := by
  obtain ⟨hlen, -⟩ := input_spec x0 y0 samples
  have hq : fasperNfreqt samples.length (4 : α) 2 = 32 * samples.length :=
    fasperNfreqt_driver _
  have hrange : fasperNfreqt samples.length (4 : α) 2 ≤ 2 ^ 62 := by rw [hq]; omega
  obtain ⟨e, he, h6, _, hle, hmin⟩ := fasperNdim_spec samples.length (4 : α) 2 hrange
  rw [hq] at hmin
  have h1 : e ≤ 14 := hmin 14 (by norm_num) (by omega)
  have h2 : 2 ^ e ≤ 2 ^ 14 := Nat.pow_le_pow_right (by norm_num) h1
  simp only [mainFasper, hlen]
  obtain ⟨r, hr, -⟩ := fasper_returns M
    (fun j => (input x0 y0 samples).x.get (j - 1))
    (fun j => (if zflag then zeromean (input x0 y0 samples).y samples.length
      else (input x0 y0 samples).y).get (j - 1))
    samples.length 4 2 (64 * nmax) s e he (by simp only [nmax]; omega)
  exact ⟨r, hr⟩

end ShiftFasper

/-- C21: over exact arithmetic, for a series of `n ≥ 2` samples with grid length
in range and within the capacity, adding a constant `c` to every sample value
leaves the variance unchanged and `fasper` returns the same results: the same
`pwr`, number of bins, bin frequencies `wk1[j]`, bin powers `wk2[j]`, peak index
`jmax` and probability.  In particular the driver with the option `-z` does the
same as without it: for a file of at most 512 pairs both runs print the same
rows, and for every file both runs end the same way. -/
theorem lomb_shift_invariance {α : Type} [LinearOrderedField α] [FloorRing α]
    (M : MathEnv α) (x y : Nat → α) (n : Nat) (ofac hifac : α) (nwk : Nat)
    (s : FasperState α) (c : α) (hn : 2 ≤ n)
    (hrange : fasperNfreqt n ofac hifac ≤ 2 ^ 62)
    (hcap : ∀ ndim : Nat, fasperNdim n ofac hifac = some ndim → ndim ≤ nwk)
    (aflag sflag : Bool) (x0 y0 : Cells α) (samples : List (α × α))
    (hlen : samples.length ≤ 512) :
    (avevar (fun j => y j + c) n).2 = (avevar y n).2 ∧
    (∃ r r1 : FasperState α,
      fasper M x y n ofac hifac nwk s = some (.returned r) ∧
      fasper M x (fun j => y j + c) n ofac hifac nwk s = some (.returned r1) ∧
      r1.pwr = r.pwr ∧ r1.nout = r.nout ∧
      (∀ j : Nat, r1.wk1.get j = r.wk1.get j ∧ r1.wk2.get j = r.wk2.get j) ∧
      r1.jmax = r.jmax ∧ r1.prob = r.prob) ∧
    (∃ rows : List (α × α),
      lombMain M aflag sflag true x0 y0 samples s = some (.returned rows) ∧
      lombMain M aflag sflag false x0 y0 samples s = some (.returned rows)) ∧
    ∀ samples1 : List (α × α),
      lombMain M aflag sflag true x0 y0 samples1 s
        = lombMain M aflag sflag false x0 y0 samples1 s := by
  have hav := avevar_shift y (fun j => y j + c) n c (by omega) (fun j _ _ => rfl)
  have hf := fasper_shift M x y (fun j => y j + c) n ofac hifac nwk s c (by omega)
    (fun j _ _ => rfl)
  obtain ⟨e, he, _, _, _, _⟩ := fasperNdim_spec n ofac hifac hrange
  obtain ⟨r, hr, -⟩ := fasper_returns M x y n ofac hifac nwk s e he (hcap _ he)
  obtain ⟨r2, hr2⟩ := mainFasper_returns M false x0 y0 samples s hlen
  refine ⟨by rw [hav], ⟨r, r, hr, by rw [hf, hr], rfl, rfl, fun j => ⟨rfl, rfl⟩, rfl, rfl⟩,
    ⟨mainRows M aflag sflag r2, ?_, ?_⟩, ?_⟩
  · simp only [lombMain, mainFasper_zflag, hr2]
  · simp only [lombMain, hr2]
  · intro samples1
    simp only [lombMain, mainFasper_zflag]

/-- Witness for C21: the samples `(0, 0)`, `(1, 1)` shifted by 5, with the
driver's parameters. -/
theorem lomb_shift_invariance_witness :
    (avevar (fun j => ((j : ℝ) - 1) + 5) 2).2 = (avevar (fun j => (j : ℝ) - 1) 2).2 :=
  (lomb_shift_invariance
    ⟨Real.sin, Real.sqrt, Real.exp, fun a b => a ^ b, Real.pi, 2 * Real.pi⟩
    (fun j => (j : ℝ) - 1) (fun j => (j : ℝ) - 1) 2 4 2 32768
    ⟨⟨fun _ => 0⟩, ⟨fun _ => 0⟩, 0, 0, 0, 0⟩ 5 (by norm_num)
    (by rw [fasperNfreqt_driver]; norm_num)
    (by
      intro ndim h
      have hnf : fasperNfreqt 2 (4 : ℝ) 2 = 64 := by rw [fasperNfreqt_driver]
      rw [fasperNdim, hnf] at h
      have h2 : some (2 * 2 ^ 6) = some ndim := h
      have h3 : 2 * 2 ^ 6 = ndim := Option.some.inj h2
      omega)
    true false ⟨fun _ => 0⟩ ⟨fun _ => 0⟩ [(0, 0), (1, 1)] (by decide)).1

/-- C23, counterexample: with `nout = 4` and `ofac = 4` (`effm = 2`) the peak
powers `pmax1 = log 199.7 ≤ pmax2 = log 200` give
`prob(pmax1) = 1 - (1 - 10/1997)² < 0.01 = prob(pmax2)`: `pmax1` is just past
the threshold (`effm*expy > 0.01`), `pmax2` just on it. -/
theorem fasperProb_jump_at_threshold :
    (0 : ℝ) ≤ Real.log (1997 / 10) ∧ Real.log (1997 / 10) ≤ Real.log 200 ∧
    fasperProb ⟨Real.sin, Real.sqrt, Real.exp, fun a b => a ^ b, Real.pi, 2 * Real.pi⟩
        4 4 (Real.log (1997 / 10))
      < fasperProb ⟨Real.sin, Real.sqrt, Real.exp, fun a b => a ^ b, Real.pi, 2 * Real.pi⟩
        4 4 (Real.log 200) := by
  have e1 : Real.exp (-Real.log (1997 / 10)) = 10 / 1997 := by
    rw [Real.exp_neg, Real.exp_log (by norm_num)]; norm_num
  have e2 : Real.exp (-Real.log 200) = 1 / 200 := by
    rw [Real.exp_neg, Real.exp_log (by norm_num)]; norm_num
  refine ⟨Real.log_nonneg (by norm_num), Real.log_le_log (by norm_num) (by norm_num), ?_⟩
  have p1 : fasperProb
      ⟨Real.sin, Real.sqrt, Real.exp, fun a b => a ^ b, Real.pi, 2 * Real.pi⟩
        4 4 (Real.log (1997 / 10)) = 1 - (1 - 10 / 1997) ^ (2 : ℝ) := by
    simp only [fasperProb, e1]
    rw [if_pos (by norm_num)]
    norm_num
  have p2 : fasperProb
      ⟨Real.sin, Real.sqrt, Real.exp, fun a b => a ^ b, Real.pi, 2 * Real.pi⟩
        4 4 (Real.log 200) = 1 / 100 := by
    simp only [fasperProb, e2]
    rw [if_neg (by norm_num)]
    norm_num
  rw [p1, p2, Real.rpow_two]
  norm_num

/-- C23, amended: for `nout ≥ 1`, `ofac > 0` and `0 ≤ pmax1 ≤ pmax2`, the
probability does not increase from `pmax1` to `pmax2` when both lie on the same
side of the threshold `effm*expy > 0.01`, and also across the threshold when
`effm = 2*nout/ofac` is at most 1. -/
theorem fasperProb_antitone (M : MathEnv ℝ) (hM : M.Exact) (nout : Nat)
    (ofac pmax1 pmax2 : ℝ) (hnout : 1 ≤ nout) (hofac : 0 < ofac) (h1 : 0 ≤ pmax1)
    (h12 : pmax1 ≤ pmax2)
    (hside : (2 * (nout : ℝ) / ofac * M.exp (-pmax1) > 1 / 100 ↔
        2 * (nout : ℝ) / ofac * M.exp (-pmax2) > 1 / 100) ∨ 2 * (nout : ℝ) / ofac ≤ 1) :
    fasperProb M nout ofac pmax2 ≤ fasperProb M nout ofac pmax1 := by
  obtain ⟨_, _, hexp, hpow, _, _⟩ := hM
  have hn : (1 : ℝ) ≤ (nout : ℝ) := by exact_mod_cast hnout
  have heff : 0 < 2 * (nout : ℝ) / ofac := by positivity
  have he2 : 0 < Real.exp (-pmax2) := Real.exp_pos _
  have he12 : Real.exp (-pmax2) ≤ Real.exp (-pmax1) := Real.exp_le_exp.mpr (by linarith)
  have he1 : Real.exp (-pmax1) ≤ 1 := by rw [Real.exp_le_one_iff]; linarith
  have hlin : 2 * (nout : ℝ) / ofac * Real.exp (-pmax2)
      ≤ 2 * (nout : ℝ) / ofac * Real.exp (-pmax1) :=
    mul_le_mul_of_nonneg_left he12 heff.le
  have hpw : (1 - Real.exp (-pmax1)) ^ (2 * (nout : ℝ) / ofac)
      ≤ (1 - Real.exp (-pmax2)) ^ (2 * (nout : ℝ) / ofac) :=
    Real.rpow_le_rpow (by linarith) (by linarith) heff.le
  rw [hexp] at hside
  simp only [fasperProb, hexp, hpow]
  by_cases c1 : 2 * (nout : ℝ) / ofac * Real.exp (-pmax1) > 1 / 100
  · by_cases c2 : 2 * (nout : ℝ) / ofac * Real.exp (-pmax2) > 1 / 100
    · rw [if_pos c1, if_pos c2]; linarith
    · rw [if_pos c1, if_neg c2]
      rcases hside with h | h
      · exact absurd (h.mp c1) c2
      · have hb := rpow_one_add_le_one_add_mul_self
          (by linarith : (-1 : ℝ) ≤ -Real.exp (-pmax1)) heff.le h
        have : (1 : ℝ) + -Real.exp (-pmax1) = 1 - Real.exp (-pmax1) := by ring
        rw [this] at hb
        nlinarith
  · have c2 : ¬ 2 * (nout : ℝ) / ofac * Real.exp (-pmax2) > 1 / 100 := by
      intro h; exact c1 (lt_of_lt_of_le h hlin)
    rw [if_neg c1, if_neg c2]
    exact hlin

/-- Witness for C23 (amended): eight bins, `ofac = 4`, peak powers 1 and 2,
both past the threshold. -/
theorem fasperProb_antitone_witness :
    fasperProb ⟨Real.sin, Real.sqrt, Real.exp, fun a b => a ^ b, Real.pi, 2 * Real.pi⟩ 8 4 2
      ≤ fasperProb ⟨Real.sin, Real.sqrt, Real.exp, fun a b => a ^ b, Real.pi, 2 * Real.pi⟩
        8 4 1 :=
  fasperProb_antitone ⟨Real.sin, Real.sqrt, Real.exp, fun a b => a ^ b, Real.pi, 2 * Real.pi⟩
    ⟨rfl, rfl, rfl, fun _ _ => rfl, rfl, rfl⟩ 8 4 1 2 (by norm_num) (by norm_num)
    (by norm_num) (by norm_num)
    (Or.inl (by
      have a1 : (1 : ℝ) / 4 < Real.exp (-1) := by
        rw [Real.exp_neg, one_div, inv_lt_inv₀ (by norm_num) (Real.exp_pos 1)]
        have := Real.exp_one_lt_d9
        linarith
      have a2 : (1 : ℝ) / 16 < Real.exp (-2) := by
        have h : Real.exp (-2) = Real.exp (-1) * Real.exp (-1) := by
          rw [← Real.exp_add]; norm_num
        rw [h]
        nlinarith
      constructor
      · intro _
        show 2 * ((8 : Nat) : ℝ) / 4 * Real.exp (-2) > 1 / 100
        norm_num; linarith
      · intro _
        show 2 * ((8 : Nat) : ℝ) / 4 * Real.exp (-1) > 1 / 100
        norm_num; linarith))

end Lomb
